import Mathlib

/-!
# Method call chains of the object system (`generic/tclOOCall.c`)

A shallow embedding of the call-chain management code: the class hierarchy
cache (`InitClassHierarchy`), the chain builder (`TclOOGetCallContext` and the
`Add...` helpers) and the properties of the chains they produce.

Pointers are indices into a store of classes, methods and objects.  Functions
of the source that recurse over the superclass graph take a `fuel` argument and
answer `none` when it runs out; every other `none`/`some` is the source's own
`NULL`/non-`NULL`.
-/

namespace TclOO

/-! ## Data model -/

/-- Address of a `Class` in the store. -/
abbrev ClassPtr := Nat

/-- Address of a `Method` in the store; two chain entries hold the same method
exactly when they hold the same address. -/
abbrev MethodPtr := Nat

/-- Address of an `Object` in the store. -/
abbrev ObjectPtr := Nat

/-- Method names (`Tcl_Obj *` keys of the object hash tables, compared by their
string value). -/
abbrev Name := String

/-- Modelled from the spec: the flag constants `PUBLIC_METHOD`, `PRIVATE_METHOD`,
`OO_UNKNOWN_METHOD`, `CONSTRUCTOR`, `DESTRUCTOR` and `FILTER_HANDLING` are declared
in `tclOOInt.h`, which is not among the sources; the spec describes every flag
word as a bitset over these names, so an `int flags` word is one Boolean per
named bit (`DEFINITE_PROTECTED` and `DEFINITE_PUBLIC` are the two bits the source
file defines itself), and `otherBits` holds whatever else the word carries.
`w & X` is the field `w.X`, `w |= X` sets it. -/
structure FlagWord where
  PUBLIC_METHOD : Bool := false
  PRIVATE_METHOD : Bool := false
  OO_UNKNOWN_METHOD : Bool := false
  CONSTRUCTOR : Bool := false
  DESTRUCTOR : Bool := false
  FILTER_HANDLING : Bool := false
  DEFINITE_PROTECTED : Bool := false
  DEFINITE_PUBLIC : Bool := false
  otherBits : Nat := 0
deriving DecidableEq, Repr

/-- The test `flags & KNOWN_STATE`, with
`KNOWN_STATE = DEFINITE_PROTECTED | DEFINITE_PUBLIC`. -/
def FlagWord.KNOWN_STATE (w : FlagWord) : Bool :=
  w.DEFINITE_PROTECTED || w.DEFINITE_PUBLIC

/-- The test `flags & SPECIAL`, with `SPECIAL = CONSTRUCTOR | DESTRUCTOR`. -/
def FlagWord.SPECIAL (w : FlagWord) : Bool :=
  w.CONSTRUCTOR || w.DESTRUCTOR

/-- The word `flags & (PUBLIC_METHOD|PRIVATE_METHOD|SPECIAL|FILTER_HANDLING)`. -/
def FlagWord.callBits (w : FlagWord) : FlagWord :=
  { PUBLIC_METHOD := w.PUBLIC_METHOD, PRIVATE_METHOD := w.PRIVATE_METHOD,
    CONSTRUCTOR := w.CONSTRUCTOR, DESTRUCTOR := w.DESTRUCTOR,
    FILTER_HANDLING := w.FILTER_HANDLING }

/-- Modelled from the spec: `Method` is declared in `tclOOInt.h`, which is not
among the sources; the fields are those the source reads, as the spec describes
them: the flag word, the class that declared the method (`NULL` for a method
declared on an object) and the type pointer (`NULL` for an entry that only
records visibility). -/
structure Method where
  flags : FlagWord := {}
  declaringClassPtr : Option ClassPtr := none
  typePtr : Option Nat := none
deriving DecidableEq, Repr

/-- Modelled from the spec: `Class` is declared in `tclOOInt.h`, which is not
among the sources; the fields are those the call-chain code reads, as the spec
describes them.  The hash table `classMethods` is the list of its entries,
looked up by name. -/
structure Class where
  classMethods : List (Name × MethodPtr) := []
  superclasses : List ClassPtr := []
  mixins : List ClassPtr := []
  filters : List Name := []
  constructorPtr : Option MethodPtr := none
  destructorPtr : Option MethodPtr := none
  classHierarchy : List ClassPtr := []
  classHierarchyEpoch : Int := 0
deriving DecidableEq, Repr

/-- Modelled from the spec: `Object` is declared in `tclOOInt.h`, which is not
among the sources; the fields are those the call-chain code reads, as the spec
describes them. -/
structure Object where
  selfCls : ClassPtr := 0
  methods : List (Name × MethodPtr) := []
  mixins : List ClassPtr := []
  filters : List Name := []
  flags : FlagWord := {}
  epoch : Int := 0
deriving DecidableEq, Repr

/-- Modelled from the spec: `Foundation` is declared in `tclOOInt.h`, which is
not among the sources; the fields are those the call-chain code reads: the root
class, the global epoch and the unknown-method name. -/
structure Foundation where
  objectCls : ClassPtr
  epoch : Int
  unknownMethodNameObj : Name
deriving DecidableEq, Repr

/-- The memory the pointers point into. -/
structure Store where
  classes : ClassPtr → Class
  methods : MethodPtr → Method
  objects : ObjectPtr → Object

/-- Modelled from the spec: one entry of a call chain (`struct MInvoke` of
`tclOOInt.h`, which is not among the sources), with the three fields the source
writes. -/
structure MInvoke where
  mPtr : MethodPtr
  isFilter : Bool
  filterDeclarer : Option ClassPtr
deriving DecidableEq, Repr

/-- Modelled from the spec: `CallContext` is declared in `tclOOInt.h`, which is
not among the sources; the fields are those the source writes.  The chain is a
list (`numCallChain` is its length); the switch from the static buffer of
`CALL_CHAIN_STATIC_SIZE` entries to allocated storage is not modelled. -/
structure CallContext where
  oPtr : ObjectPtr
  globalEpoch : Int
  localEpoch : Int
  flags : FlagWord
  index : Nat
  skip : Nat
  callChain : List MInvoke
deriving DecidableEq, Repr

/-- The source's `struct ChainBuilder`. -/
structure ChainBuilder where
  contextPtr : CallContext
  filterLength : Nat
deriving DecidableEq, Repr

/-- The field `numCallChain` of the context being built. -/
def ChainBuilder.numCallChain (cb : ChainBuilder) : Nat :=
  cb.contextPtr.callChain.length

/-- A per-object context cache: `none` when the name has no hash entry,
`some none` for an entry whose value is `NULL`, `some (some c)` for an entry
holding the context `c`. -/
abbrev ContextCache := Name → Option (Option CallContext)

/-- The effect of `Tcl_SetHashValue(hPtr, v)` on the entry of `key` (created
first when it does not exist). -/
def ContextCache.set (cache : ContextCache) (key : Name) (v : Option CallContext) :
    ContextCache :=
  fun k => if k = key then some v else cache k

/-! ## The class hierarchy cache -/

/-- The deduplication loops of `InitClassHierarchy` (lines 218-235): the slot
`j` is cleared when a later slot holds the same class, and the surviving slots
are copied in order. -/
def dedupHierarchy : List ClassPtr → List ClassPtr
  | [] => []
  | c :: rest => if c ∈ rest then dedupHierarchy rest else c :: dedupHierarchy rest

/-- The source's `InitClassHierarchy`.  After a `FOREACH` loop (a macro of
`tclOOInt.h` that runs over a list in order) the index `i` is the length of the
list, so the test `i == 1` is "exactly one superclass".  The work space of the
other branch is sized with the cached list of `objectCls` counted in although
that list is not copied; the model takes the slots that are written, which is
the whole work space when the cached list of `objectCls` is empty (this
function never fills it). -/
def InitClassHierarchy (F : Foundation) : Nat → Store → ClassPtr → Option Store
  | 0, _, _ => none
  | fuel + 1, S, classPtr =>
    if classPtr = F.objectCls then some S
    else if (S.classes classPtr).classHierarchyEpoch ≠ F.epoch then
      let supers := (S.classes classPtr).superclasses
      match supers.foldlM (fun S1 superPtr => InitClassHierarchy F fuel S1 superPtr) S with
      | none => none
      | some S1 =>
        match supers with
        | [superPtr] =>
          let cls : Class :=
            { S1.classes classPtr with
              classHierarchy := superPtr :: (S1.classes superPtr).classHierarchy,
              classHierarchyEpoch := F.epoch }
          some { S1 with classes := Function.update S1.classes classPtr cls }
        | _ =>
          let hierlist := supers.flatMap (fun superPtr =>
            if superPtr = F.objectCls then [superPtr]
            else superPtr :: (S1.classes superPtr).classHierarchy)
          let cls : Class :=
            { S1.classes classPtr with classHierarchy := dedupHierarchy hierlist }
          some { S1 with classes := Function.update S1.classes classPtr cls }
    else some S

/-! ## The chain builder -/

/-- The scan of `AddMethodToCallChain` (lines 849-851): the first index `i`
with `start ≤ i < numCallChain` whose entry holds `mPtr` with the given
`isFilter`. -/
def findInCallChain (callChain : List MInvoke) (mPtr : MethodPtr) (isFilter : Bool)
    (start : Nat) : Option Nat :=
  ((callChain.drop start).findIdx? (fun e => e.mPtr == mPtr && e.isFilter == isFilter)).map
    (fun i => i + start)

/-- The source's `AddMethodToCallChain`; `doneFilters` is the test
`doneFilters != NULL`. -/
def AddMethodToCallChain (S : Store) (mPtr : Option MethodPtr) (cb : ChainBuilder)
    (doneFilters : Bool) (filterDecl : Option ClassPtr) : ChainBuilder :=
  match mPtr with
  | none => cb
  | some m =>
    if (S.methods m).typePtr = none then cb
    else if !cb.contextPtr.flags.PRIVATE_METHOD
        && (S.methods m).flags.PRIVATE_METHOD
        && (S.methods m).declaringClassPtr != none
        && (S.methods m).declaringClassPtr
            != some (S.objects cb.contextPtr.oPtr).selfCls then cb
    else
      match findInCallChain cb.contextPtr.callChain m doneFilters cb.filterLength with
      | some i =>
        let declCls := (cb.contextPtr.callChain.get? i).bind (fun e => e.filterDeclarer)
        { cb with contextPtr := { cb.contextPtr with
            callChain := cb.contextPtr.callChain.eraseIdx i ++ [⟨m, doneFilters, declCls⟩] } }
      | none =>
        { cb with contextPtr := { cb.contextPtr with
            callChain := cb.contextPtr.callChain ++ [⟨m, doneFilters, filterDecl⟩] } }

/-- What `AddSimpleClassChainToCallContext` does at one class before it moves
to the superclasses (lines 740-766): `none` is the early `return`, otherwise
the method handed to `AddMethodToCallChain` (if any) and the flags to go on
with. -/
def classChainStep (S : Store) (methodNameObj : Name) (classPtr : ClassPtr)
    (flags : FlagWord) : Option (Option MethodPtr × FlagWord) :=
  if flags.CONSTRUCTOR then some ((S.classes classPtr).constructorPtr, flags)
  else if flags.DESTRUCTOR then some ((S.classes classPtr).destructorPtr, flags)
  else
    match (S.classes classPtr).classMethods.lookup methodNameObj with
    | none => some (none, flags)
    | some m =>
      if !flags.KNOWN_STATE then
        if flags.PUBLIC_METHOD then
          if (S.methods m).flags.PUBLIC_METHOD then
            some (some m, { flags with DEFINITE_PUBLIC := true })
          else none
        else some (some m, { flags with DEFINITE_PROTECTED := true })
      else some (some m, flags)

/-- The source's `AddSimpleClassChainToCallContext`. -/
def AddSimpleClassChainToCallContext (S : Store) (methodNameObj : Name)
    (doneFilters : Bool) (filterDecl : Option ClassPtr) :
    Nat → ClassPtr → ChainBuilder → FlagWord → Option ChainBuilder
  | 0, _, _, _ => none
  | fuel + 1, classPtr, cb, flags =>
    match classChainStep S methodNameObj classPtr flags with
    | none => some cb
    | some (mPtr, flags1) =>
      let cb1 := AddMethodToCallChain S mPtr cb doneFilters filterDecl
      match (S.classes classPtr).superclasses with
      | [] => some cb1
      | [superPtr] =>
        AddSimpleClassChainToCallContext S methodNameObj doneFilters filterDecl
          fuel superPtr cb1 flags1
      | supers =>
        supers.foldlM (fun cb2 superPtr =>
          AddSimpleClassChainToCallContext S methodNameObj doneFilters filterDecl
            fuel superPtr cb2 flags1) cb1

/-- The probe of the object's own method table at the head of
`AddSimpleChainToCallContext` (lines 660-677): `none` is the early `return`,
otherwise the flags to go on with. -/
def simpleChainProbe (S : Store) (oPtr : ObjectPtr) (methodNameObj : Name)
    (flags : FlagWord) : Option FlagWord :=
  if !(flags.KNOWN_STATE || flags.SPECIAL) then
    match (S.objects oPtr).methods.lookup methodNameObj with
    | some m =>
      if flags.PUBLIC_METHOD then
        if !(S.methods m).flags.PUBLIC_METHOD then none
        else some { flags with DEFINITE_PUBLIC := true }
      else some { flags with DEFINITE_PROTECTED := true }
    | none => some flags
  else some flags

/-- A `FOREACH` loop that runs `AddSimpleClassChainToCallContext` on each class
of a list in turn. -/
def addClassChains (S : Store) (methodNameObj : Name) (doneFilters : Bool)
    (filterDecl : Option ClassPtr) (fuel : Nat) (flags : FlagWord)
    (classPtrs : List ClassPtr) (cb : ChainBuilder) : Option ChainBuilder :=
  classPtrs.foldlM (fun cb1 mixinPtr =>
    AddSimpleClassChainToCallContext S methodNameObj doneFilters filterDecl
      fuel mixinPtr cb1 flags) cb

/-- The source's `AddSimpleChainToCallContext`. -/
def AddSimpleChainToCallContext (S : Store) (fuel : Nat) (oPtr : ObjectPtr)
    (methodNameObj : Name) (cb : ChainBuilder) (doneFilters : Bool) (flags : FlagWord)
    (filterDecl : Option ClassPtr) : Option ChainBuilder :=
  match simpleChainProbe S oPtr methodNameObj flags with
  | none => some cb
  | some flags1 =>
    let o := S.objects oPtr
    let walk := addClassChains S methodNameObj doneFilters filterDecl fuel flags1
    if !flags1.SPECIAL then
      (walk o.mixins cb).bind fun cb1 =>
      (walk (S.classes o.selfCls).mixins cb1).bind fun cb2 =>
      ((S.classes o.selfCls).classHierarchy.foldlM
        (fun cb3 superPtr => walk (S.classes superPtr).mixins cb3) cb2).bind fun cb4 =>
      let cb5 := match o.methods.lookup methodNameObj with
        | some m => AddMethodToCallChain S (some m) cb4 doneFilters filterDecl
        | none => cb4
      AddSimpleClassChainToCallContext S methodNameObj doneFilters filterDecl
        fuel o.selfCls cb5 flags1
    else
      AddSimpleClassChainToCallContext S methodNameObj doneFilters filterDecl
        fuel o.selfCls cb flags1

/-- The loop over the filters of one class in `AddClassFiltersToCallContext`
(lines 605-613); the second component is the `doneFilters` table. -/
def addFiltersOfClass (S : Store) (fuel : Nat) (oPtr : ObjectPtr) (clsPtr : ClassPtr)
    (filters : List Name) (st : ChainBuilder × List Name) :
    Option (ChainBuilder × List Name) :=
  filters.foldlM (fun st1 filterObj =>
    if filterObj ∈ st1.2 then some st1
    else
      (AddSimpleChainToCallContext S fuel oPtr filterObj st1.1 true {} (some clsPtr)).map
        fun cb1 => (cb1, filterObj :: st1.2)) st

/-- The source's `AddClassFiltersToCallContext`; `walkFuel` bounds the chain
builds it starts, the recursion argument its own walk. The class pointers it is
given are never `NULL`. -/
def AddClassFiltersToCallContext (S : Store) (walkFuel : Nat) (oPtr : ObjectPtr) :
    Nat → ClassPtr → ChainBuilder × List Name → Option (ChainBuilder × List Name)
  | 0, _, _ => none
  | fuel + 1, clsPtr, st =>
    match addFiltersOfClass S walkFuel oPtr clsPtr (S.classes clsPtr).filters st with
    | none => none
    | some st1 =>
      match (S.classes clsPtr).superclasses with
      | [] => some st1
      | [superPtr] => AddClassFiltersToCallContext S walkFuel oPtr fuel superPtr st1
      | supers =>
        supers.foldlM (fun st2 superPtr =>
          AddClassFiltersToCallContext S walkFuel oPtr fuel superPtr st2) st1

/-- The filter part of `TclOOGetCallContext` (lines 511-526). -/
def addAllFilters (S : Store) (fuel : Nat) (oPtr : ObjectPtr) (cb : ChainBuilder) :
    Option ChainBuilder :=
  let o := S.objects oPtr
  (o.mixins.foldlM (fun st mixinPtr =>
      AddClassFiltersToCallContext S fuel oPtr fuel mixinPtr st) (cb, [])).bind fun st1 =>
  (o.filters.foldlM (fun cb1 filterObj =>
      AddSimpleChainToCallContext S fuel oPtr filterObj cb1 true {} none) st1.1).bind fun cb2 =>
  (AddClassFiltersToCallContext S fuel oPtr fuel o.selfCls (cb2, st1.2)).map fun st3 => st3.1

/-- What `TclOOGetCallContext` leaves behind: the store (with the hierarchy
cache of the object's class filled in), the context cache, and the returned
context (`none` for `NULL`). -/
structure GetResult where
  store : Store
  cache : ContextCache
  context : Option CallContext

/-- The context as `TclOOGetCallContext` sets it up before any entry is added
(lines 484-497). -/
def newCallContext (F : Foundation) (S : Store) (oPtr : ObjectPtr) (flags : FlagWord) :
    CallContext :=
  { oPtr := oPtr, globalEpoch := F.epoch, localEpoch := (S.objects oPtr).epoch,
    flags := flags.callBits, index := 0, skip := 2, callChain := [] }

/-- Lines 484-566 of `TclOOGetCallContext`: the construction of a fresh
context.  `doFilters` is the source's variable; `cache` is the cache as the
lookup left it. -/
def buildCallContext (fuel : Nat) (F : Foundation) (S : Store) (oPtr : ObjectPtr)
    (methodNameObj : Name) (flags : FlagWord) (doFilters : Bool) (cache : ContextCache) :
    Option GetResult :=
  let cb0 : ChainBuilder := { contextPtr := newCallContext F S oPtr flags, filterLength := 0 }
  (InitClassHierarchy F fuel S (S.objects oPtr).selfCls).bind fun S1 =>
  (if doFilters then addAllFilters S1 fuel oPtr cb0 else some cb0).bind fun cbF =>
  let count := cbF.numCallChain
  let cb1 : ChainBuilder := { cbF with filterLength := count }
  (AddSimpleChainToCallContext S1 fuel oPtr methodNameObj cb1 false flags none).bind fun cb2 =>
  if count = cb2.numCallChain then
    if flags.SPECIAL then some { store := S1, cache := cache, context := none }
    else
      (AddSimpleChainToCallContext S1 fuel oPtr F.unknownMethodNameObj cb2 false {} none).bind
      fun cb3 =>
      let ctx : CallContext :=
        { cb3.contextPtr with
          flags := { cb3.contextPtr.flags with OO_UNKNOWN_METHOD := true },
          globalEpoch := -1 }
      if count = cb3.numCallChain then some { store := S1, cache := cache, context := none }
      else some { store := S1, cache := cache, context := some ctx }
  else if doFilters then
    some { store := S1, cache := cache.set methodNameObj none, context := some cb2.contextPtr }
  else some { store := S1, cache := cache, context := some cb2.contextPtr }

/-- The source's `TclOOGetCallContext`. -/
def TclOOGetCallContext (fuel : Nat) (F : Foundation) (S : Store) (oPtr : ObjectPtr)
    (methodNameObj : Name) (flags : FlagWord) (cache : ContextCache) : Option GetResult :=
  if flags.SPECIAL || flags.FILTER_HANDLING || (S.objects oPtr).flags.FILTER_HANDLING then
    buildCallContext fuel F S oPtr methodNameObj flags false cache
  else
    match cache methodNameObj with
    | some (some c) =>
      if c.globalEpoch = F.epoch ∧ c.localEpoch = (S.objects oPtr).epoch then
        some { store := S, cache := cache.set methodNameObj none, context := some c }
      else
        buildCallContext fuel F S oPtr methodNameObj flags true (cache.set methodNameObj none)
    | _ => buildCallContext fuel F S oPtr methodNameObj flags true cache

/-! ## The invoker -/

/-- The state a step of a call chain runs in: the store, and for every method
the number of `Tcl_Preserve` calls not yet matched by a `Tcl_Release`. -/
structure InterpState where
  store : Store
  preserved : MethodPtr → Nat

/-- Modelled from the spec: the implementation of a method
(`mPtr->typePtr->callProc` applied to `mPtr->clientData`) lives outside the
sources; it is an arbitrary transformer of the state that returns a status
code.  It is handed the method, the context and the arguments. -/
abbrev CallProc := MethodPtr → CallContext → List Name → InterpState → InterpState × Int

/-- The assignments `oPtr->flags |= FILTER_HANDLING` (for `true`) and
`oPtr->flags &= ~FILTER_HANDLING` (for `false`). -/
def setFilterHandling (S : Store) (oPtr : ObjectPtr) (b : Bool) : Store :=
  { S with objects := (Function.update S.objects oPtr
      { S.objects oPtr with flags := { (S.objects oPtr).flags with FILTER_HANDLING := b } }) }

/-- Modelled from the spec: the loop of `Tcl_Preserve` calls over the chain
(the pinning primitive of the host runtime). -/
def preserveChain (chain : List MInvoke) (preserved : MethodPtr → Nat) : MethodPtr → Nat :=
  chain.foldl (fun p e => Function.update p e.mPtr (p e.mPtr + 1)) preserved

/-- Modelled from the spec: the loop of `Tcl_Release` calls over the chain. -/
def releaseChain (chain : List MInvoke) (preserved : MethodPtr → Nat) : MethodPtr → Nat :=
  chain.foldl (fun p e => Function.update p e.mPtr (p e.mPtr - 1)) preserved

/-- The source's `TclOOInvokeContext`.  The answer is `none` where the source
reads outside the chain (`index` is no position of it) or calls through a
`NULL` type pointer.  The context is handed to the implementation by value: the
fields this function reads after the call (`oPtr` and the chain) are written by
the chain builder only. -/
def TclOOInvokeContext (callProc : CallProc) (st : InterpState) (contextPtr : CallContext)
    (objv : List Name) : Option (InterpState × Int) :=
  match contextPtr.callChain.get? contextPtr.index with
  | none => none
  | some entry =>
    let isFirst := contextPtr.index == 0
    let isFilter := entry.isFilter
    let st1 : InterpState :=
      if isFirst then { st with preserved := preserveChain contextPtr.callChain st.preserved }
      else st
    let wasFilter := (st1.store.objects contextPtr.oPtr).flags.FILTER_HANDLING
    let st2 : InterpState :=
      { st1 with store := (setFilterHandling st1.store contextPtr.oPtr
          (isFilter || contextPtr.flags.FILTER_HANDLING)) }
    match (st2.store.methods entry.mPtr).typePtr with
    | none => none
    | some _ =>
      let out := callProc entry.mPtr contextPtr objv st2
      let st3 : InterpState :=
        { out.1 with store := setFilterHandling out.1.store contextPtr.oPtr wasFilter }
      let st4 : InterpState :=
        if isFirst then { st3 with preserved := releaseChain contextPtr.callChain st3.preserved }
        else st3
      some (st4, out.2)

/-! ## The name enumerator -/

/-- The `names` hash table of `TclOOGetSortedMethodList`: the method names
entered so far, each with its "wanted in list" value, in the order of entry. -/
abbrev NameTable := List (Name × Bool)

/-- The pair `Tcl_CreateHashEntry(names, name, &isNew)`, `if (isNew)
Tcl_SetHashValue(hPtr, isWanted)`: a name that is in the table keeps its
value. -/
def NameTable.insertNew (names : NameTable) (namePtr : Name) (isWanted : Bool) : NameTable :=
  if (names.lookup namePtr).isSome then names else names ++ [(namePtr, isWanted)]

/-- The loop over the method table of a class in `AddClassMethodNames`
(lines 410-420). -/
def addClassTableNames (S : Store) (flags : FlagWord) (classMethods : List (Name × MethodPtr))
    (names : NameTable) : NameTable :=
  classMethods.foldl (fun t e =>
    t.insertNew e.1 (!flags.PUBLIC_METHOD || (S.methods e.2).flags.PUBLIC_METHOD)) names

/-- The `while (1)` loop of `AddClassMethodNames` (lines 405-426): the names of
the class are entered, and the loop moves on to the superclass as long as there
is exactly one.  The answer is the class the loop stops at and the table. -/
def classMethodNamesLoop (S : Store) (flags : FlagWord) :
    Nat → ClassPtr → NameTable → Option (ClassPtr × NameTable)
  | 0, _, _ => none
  | fuel + 1, clsPtr, names =>
    let names1 := addClassTableNames S flags (S.classes clsPtr).classMethods names
    match (S.classes clsPtr).superclasses with
    | [superPtr] => classMethodNamesLoop S flags fuel superPtr names1
    | _ => some (clsPtr, names1)

/-- The source's `AddClassMethodNames`. -/
def AddClassMethodNames (S : Store) (flags : FlagWord) :
    Nat → ClassPtr → NameTable → Option NameTable
  | 0, _, _ => none
  | fuel + 1, clsPtr, names =>
    match (S.classes clsPtr).mixins.foldlM
        (fun t mixinPtr => AddClassMethodNames S flags fuel mixinPtr t) names with
    | none => none
    | some names1 =>
      match classMethodNamesLoop S flags (fuel + 1) clsPtr names1 with
      | none => none
      | some (lastPtr, names2) =>
        (S.classes lastPtr).superclasses.foldlM
          (fun t superPtr => AddClassMethodNames S flags fuel superPtr t) names2

/-- Modelled from the spec: the byte-wise comparison done by `TclpUtfNcmp2`
(a function of the host runtime) on two strings and their terminating null
bytes.  A string is given by the numbers of its characters; for UTF-8 the
order of the bytes is the order of these numbers, and the string that ends
first is the smaller one. -/
def cmpBytes : List Nat → List Nat → Ordering
  | [], [] => Ordering.eq
  | [], _ :: _ => Ordering.lt
  | _ :: _, [] => Ordering.gt
  | a :: as, b :: bs =>
    if a < b then Ordering.lt else if b < a then Ordering.gt else cmpBytes as bs

/-- The source's `CmpStr`: the comparison handed to `qsort`. -/
def CmpStr (strPtr1 strPtr2 : Name) : Ordering :=
  cmpBytes (strPtr1.data.map Char.toNat) (strPtr2.data.map Char.toNat)

/-- Modelled from the spec: `qsort` (C library) with the comparison `CmpStr`
rearranges the names into ascending order. -/
def qsortNames (strings : List Name) : List Name :=
  strings.insertionSort (fun a b => CmpStr a b ≠ Ordering.gt)

/-- The first loop of `TclOOGetSortedMethodList` (lines 274-286): the methods
of the object itself. -/
def addObjectMethodNames (S : Store) (flags : FlagWord) (methods : List (Name × MethodPtr))
    (names : NameTable) : NameTable :=
  methods.foldl (fun t e =>
    if (S.methods e.2).flags.PRIVATE_METHOD && !flags.PRIVATE_METHOD then t
    else t.insertNew e.1 (!flags.PUBLIC_METHOD || (S.methods e.2).flags.PUBLIC_METHOD)) names

/-- The second loop of `TclOOGetSortedMethodList` (lines 292-304): the private
methods of the object's class, when `PRIVATE_METHOD` is asked for. -/
def addPrivateClassNames (S : Store) (flags : FlagWord) (classMethods : List (Name × MethodPtr))
    (names : NameTable) : NameTable :=
  if flags.PRIVATE_METHOD then
    classMethods.foldl (fun t e =>
      if (S.methods e.2).flags.PRIVATE_METHOD then t.insertNew e.1 true else t) names
  else names

/-- The names table that `TclOOGetSortedMethodList` has built when it comes to
the sorting (lines 268-314). -/
def methodNameTable (S : Store) (fuel : Nat) (oPtr : ObjectPtr) (flags : FlagWord) :
    Option NameTable :=
  let o := S.objects oPtr
  let names0 := addObjectMethodNames S flags o.methods []
  let names1 := addPrivateClassNames S flags (S.classes o.selfCls).classMethods names0
  (AddClassMethodNames S flags fuel o.selfCls names1).bind fun names2 =>
  o.mixins.foldlM (fun t mixinPtr => AddClassMethodNames S flags fuel mixinPtr t) names2

/-- The source's `TclOOGetSortedMethodList`: the list written to `stringsPtr`
(the returned count is its length).  The names table is run through in the
order of entry; the sort makes the order of that run immaterial. -/
def TclOOGetSortedMethodList (S : Store) (fuel : Nat) (oPtr : ObjectPtr) (flags : FlagWord) :
    Option (List Name) :=
  (methodNameTable S fuel oPtr flags).map fun names =>
    qsortNames ((names.filter fun e => !flags.PUBLIC_METHOD || e.2).map fun e => e.1)

/-! ## Auxiliary notions used to state and prove the properties -/

/-- The methods handed to `AddMethodToCallChain`, in order, by a loop that
collects what each element of a list contributes. -/
def collectEvents {σ : Type} (ev : σ → Option (List MethodPtr)) (ss : List σ)
    (acc : List MethodPtr) : Option (List MethodPtr) :=
  ss.foldlM (fun acc1 s => (ev s).map (fun es => acc1 ++ es)) acc

/-- The methods that `AddSimpleClassChainToCallContext` hands to
`AddMethodToCallChain`, in the order of the calls. -/
def classChainEvents (S : Store) (methodNameObj : Name) :
    Nat → ClassPtr → FlagWord → Option (List MethodPtr)
  | 0, _, _ => none
  | fuel + 1, classPtr, flags =>
    match classChainStep S methodNameObj classPtr flags with
    | none => some []
    | some (mPtr, flags1) =>
      collectEvents (fun superPtr => classChainEvents S methodNameObj fuel superPtr flags1)
        (S.classes classPtr).superclasses mPtr.toList

/-- The classes whose mixins `AddSimpleChainToCallContext` walks before the
object's own method, in the order of the walk: the object's mixins, the mixins
of its class, the mixins of each class of the cached hierarchy. -/
def mixinWalkList (S : Store) (oPtr : ObjectPtr) : List ClassPtr :=
  (S.objects oPtr).mixins ++ (S.classes (S.objects oPtr).selfCls).mixins ++
    (S.classes (S.objects oPtr).selfCls).classHierarchy.flatMap
      (fun superPtr => (S.classes superPtr).mixins)

/-- The methods that `AddSimpleChainToCallContext` hands to
`AddMethodToCallChain`, in the order of the calls. -/
def simpleChainEvents (S : Store) (fuel : Nat) (oPtr : ObjectPtr) (methodNameObj : Name)
    (flags : FlagWord) : Option (List MethodPtr) :=
  match simpleChainProbe S oPtr methodNameObj flags with
  | none => some []
  | some flags1 =>
    let ev := fun c => classChainEvents S methodNameObj fuel c flags1
    if !flags1.SPECIAL then
      (collectEvents ev (mixinWalkList S oPtr) []).bind fun e1 =>
      (ev (S.objects oPtr).selfCls).map fun e2 =>
        e1 ++ ((S.objects oPtr).methods.lookup methodNameObj).toList ++ e2
    else ev (S.objects oPtr).selfCls

/-- The two tests at the head of `AddMethodToCallChain` (lines 821 and 837):
whether a method gets past them in a context with the given flags for an
object of class `selfCls`. -/
def passesTests (S : Store) (ctxFlags : FlagWord) (selfCls : ClassPtr) (m : MethodPtr) :
    Bool :=
  (S.methods m).typePtr != none &&
  !(!ctxFlags.PRIVATE_METHOD && (S.methods m).flags.PRIVATE_METHOD
      && (S.methods m).declaringClassPtr != none
      && (S.methods m).declaringClassPtr != some selfCls)

/-- What `AddMethodToCallChain` does to the part of the chain it scans, for a
method that passes its tests. -/
def sectionAdd (sec : List MInvoke) (m : MethodPtr) (isFilter : Bool)
    (filterDecl : Option ClassPtr) : List MInvoke :=
  match sec.findIdx? (fun e => e.mPtr == m && e.isFilter == isFilter) with
  | some i =>
    sec.eraseIdx i ++ [⟨m, isFilter, (sec.get? i).bind (fun e => e.filterDeclarer)⟩]
  | none => sec ++ [⟨m, isFilter, filterDecl⟩]

/-- A run of `AddMethodToCallChain` over a list of methods. -/
def addAll (S : Store) (doneFilters : Bool) (filterDecl : Option ClassPtr)
    (cb : ChainBuilder) (es : List MethodPtr) : ChainBuilder :=
  es.foldl (fun cb1 m => AddMethodToCallChain S (some m) cb1 doneFilters filterDecl) cb

/-- The late-binding move on a list of method identities: the method leaves
its place (if it has one) and goes to the end. -/
def pushLate (l : List MethodPtr) (m : MethodPtr) : List MethodPtr :=
  l.erase m ++ [m]

/-- The builder `TclOOGetCallContext` starts from. -/
def emptyBuilder (F : Foundation) (S : Store) (oPtr : ObjectPtr) (flags : FlagWord) :
    ChainBuilder :=
  { contextPtr := newCallContext F S oPtr flags, filterLength := 0 }

/-- The entries that the simple chain build for a name puts into an empty
chain of the context that `TclOOGetCallContext` sets up for `ctxFlags`. -/
def simpleChainEntries (F : Foundation) (S : Store) (fuel : Nat) (oPtr : ObjectPtr)
    (ctxFlags : FlagWord) (methodNameObj : Name) (flags : FlagWord) : Option (List MInvoke) :=
  (AddSimpleChainToCallContext S fuel oPtr methodNameObj (emptyBuilder F S oPtr ctxFlags)
    false flags none).map fun cb => cb.contextPtr.callChain

/-- The superclass relation of a store: `superOf S X Y` when `Y` is a direct
superclass of `X`. -/
def superOf (S : Store) (X Y : ClassPtr) : Prop :=
  Y ∈ (S.classes X).superclasses

/-- The superclass graph has no cycle: some measure drops along every
superclass link. -/
def Acyclic (S : Store) : Prop :=
  ∃ rank : ClassPtr → Nat, ∀ X Y, superOf S X Y → rank Y < rank X

/-- The back-references of methods are in order: a method found in the table
of a class, or installed as its constructor or destructor, names that class as
its declaring class, and a method found in the table of an object names none. -/
structure BackRefsOk (S : Store) : Prop where
  classMethod : ∀ c n m, (S.classes c).classMethods.lookup n = some m →
    (S.methods m).declaringClassPtr = some c
  ctor : ∀ c m, (S.classes c).constructorPtr = some m →
    (S.methods m).declaringClassPtr = some c
  dtor : ∀ c m, (S.classes c).destructorPtr = some m →
    (S.methods m).declaringClassPtr = some c
  objectMethod : ∀ o n m, (S.objects o).methods.lookup n = some m →
    (S.methods m).declaringClassPtr = none

/-- The cache holds no context under the name: the resolution has to build
the context. -/
def CacheFree (cache : ContextCache) (methodNameObj : Name) : Prop :=
  ∀ c, cache methodNameObj ≠ some (some c)

/-- The builder `cb` with another chain. -/
def withChain (cb : ChainBuilder) (chain : List MInvoke) : ChainBuilder :=
  { cb with contextPtr := { cb.contextPtr with callChain := chain } }

/-- The entries that a run of `AddMethodToCallChain` over `es`, outside filter
processing, leaves in an empty scanned part. -/
def entriesOf (S : Store) (ctxFlags : FlagWord) (selfCls : ClassPtr) (es : List MethodPtr) :
    List MInvoke :=
  (es.filter (passesTests S ctxFlags selfCls)).foldl (fun sec m => sectionAdd sec m false none) []

/-- Two stores that differ at most in the hierarchy caches of their classes. -/
structure SameButHierarchy (S S1 : Store) : Prop where
  methods : S1.methods = S.methods
  objects : S1.objects = S.objects
  classMethods : ∀ c, (S1.classes c).classMethods = (S.classes c).classMethods
  superclasses : ∀ c, (S1.classes c).superclasses = (S.classes c).superclasses
  mixins : ∀ c, (S1.classes c).mixins = (S.classes c).mixins
  filters : ∀ c, (S1.classes c).filters = (S.classes c).filters
  constructorPtr : ∀ c, (S1.classes c).constructorPtr = (S.classes c).constructorPtr
  destructorPtr : ∀ c, (S1.classes c).destructorPtr = (S.classes c).destructorPtr

/-- What holds of the builder all through the filter phase: only the chain has
changed, and every entry is a filter entry that passed the tests. -/
def FilterPhaseInv (S : Store) (cb0 cb : ChainBuilder) : Prop :=
  ∃ X : List MInvoke, cb = withChain cb0 X ∧
    ∀ e ∈ X, e.isFilter = true ∧
      passesTests S cb0.contextPtr.flags (S.objects cb0.contextPtr.oPtr).selfCls e.mPtr = true

/-- The value of the source's `doFilters` after the test of line 468. -/
def doFiltersOf (S : Store) (oPtr : ObjectPtr) (flags : FlagWord) : Bool :=
  !(flags.SPECIAL || flags.FILTER_HANDLING || (S.objects oPtr).flags.FILTER_HANDLING)

/-- The resolution does not hand back a context found in the cache: the cache
is not looked at, or holds no context under the name, or holds a stale one. -/
def BuildsContext (F : Foundation) (S : Store) (oPtr : ObjectPtr) (methodNameObj : Name)
    (flags : FlagWord) (cache : ContextCache) : Prop :=
  doFiltersOf S oPtr flags = false ∨
    ∀ c, cache methodNameObj = some (some c) →
      ¬ (c.globalEpoch = F.epoch ∧ c.localEpoch = (S.objects oPtr).epoch)

/-- The context that `TclOOGetCallContext` returns, when it returns one. -/
def resolve (fuel : Nat) (F : Foundation) (S : Store) (oPtr : ObjectPtr) (methodNameObj : Name)
    (flags : FlagWord) (cache : ContextCache) : Option CallContext :=
  (TclOOGetCallContext fuel F S oPtr methodNameObj flags cache).bind fun r => r.context

/-- The method that `AddSimpleClassChainToCallContext` looks at in a class: its
constructor, its destructor, or its method of the given name. -/
def classCandidate (S : Store) (methodNameObj : Name) (flags : FlagWord) (c : ClassPtr) :
    Option MethodPtr :=
  if flags.CONSTRUCTOR then (S.classes c).constructorPtr
  else if flags.DESTRUCTOR then (S.classes c).destructorPtr
  else (S.classes c).classMethods.lookup methodNameObj

/-- In the list, every occurrence of `a` has an occurrence of `b` after it. -/
def FollowedBy (a b : MethodPtr) : List MethodPtr → Prop
  | [] => True
  | x :: l => (x = a → b ∈ l) ∧ FollowedBy a b l

/-- In the list, `a` occurs with `b` somewhere after it. -/
def Before (a b : MethodPtr) (l : List MethodPtr) : Prop :=
  ∃ l1 l2, l = l1 ++ a :: l2 ∧ b ∈ l2

/-- The class `X` is `c` or one of its ancestors. -/
def reaches (S : Store) (c X : ClassPtr) : Prop :=
  Relation.ReflTransGen (superOf S) c X

/-- The cached hierarchy of the class `d` in the store `S` lists every proper
ancestor of `d` in the superclass graph of `G` once, and nothing else. -/
def HierarchyIs (G S : Store) (d : ClassPtr) : Prop :=
  (S.classes d).classHierarchy.Nodup ∧
    ∀ x, x ∈ (S.classes d).classHierarchy ↔ Relation.TransGen (superOf G) d x

/-- The hierarchy caches that are marked as current are right: a class other
than the root class whose cache carries the epoch of the foundation has the
list of its proper ancestors in it. -/
def CachesOk (F : Foundation) (S : Store) : Prop :=
  ∀ d, d ≠ F.objectCls → (S.classes d).classHierarchyEpoch = F.epoch → HierarchyIs S S d

/-- The root class has no superclass and an empty cached hierarchy. -/
def RootBare (F : Foundation) (S : Store) : Prop :=
  (S.classes F.objectCls).superclasses = [] ∧ (S.classes F.objectCls).classHierarchy = []

/-- What holds of the store all through `InitClassHierarchy`, for the
superclass graph of `G`: only hierarchy caches differ from `G`, the cache of
the root class is empty, and the caches marked as current are right. -/
def HierarchyInv (F : Foundation) (G S : Store) : Prop :=
  SameButHierarchy G S ∧ (S.classes F.objectCls).classHierarchy = [] ∧
    ∀ d, d ≠ F.objectCls → (S.classes d).classHierarchyEpoch = F.epoch → HierarchyIs G S d

/-- A run of `NameTable.insertNew` over a list of names with their values. -/
def insertAll (names : NameTable) (evs : List (Name × Bool)) : NameTable :=
  evs.foldl (fun t e => t.insertNew e.1 e.2) names

/-- The names, with their values, that the loop over the method table of a
class in `AddClassMethodNames` hands to the names table. -/
def classTableEvents (S : Store) (flags : FlagWord) (classMethods : List (Name × MethodPtr)) :
    List (Name × Bool) :=
  classMethods.map fun e => (e.1, !flags.PUBLIC_METHOD || (S.methods e.2).flags.PUBLIC_METHOD)

/-- What the `while (1)` loop of `AddClassMethodNames` hands to the names
table, and the class it stops at. -/
def loopNameEvents (S : Store) (flags : FlagWord) :
    Nat → ClassPtr → Option (ClassPtr × List (Name × Bool))
  | 0, _ => none
  | fuel + 1, c =>
    match (S.classes c).superclasses with
    | [s] =>
      (loopNameEvents S flags fuel s).map fun r =>
        (r.1, classTableEvents S flags (S.classes c).classMethods ++ r.2)
    | _ => some (c, classTableEvents S flags (S.classes c).classMethods)

/-- What a loop hands to the names table, when each element of the list
contributes what `ev` says. -/
def collectNames {σ : Type} (ev : σ → Option (List (Name × Bool))) (ss : List σ)
    (acc : List (Name × Bool)) : Option (List (Name × Bool)) :=
  ss.foldlM (fun acc1 s => (ev s).map (fun es => acc1 ++ es)) acc

/-- What `AddClassMethodNames` hands to the names table, in order. -/
def classNameEvents (S : Store) (flags : FlagWord) :
    Nat → ClassPtr → Option (List (Name × Bool))
  | 0, _ => none
  | fuel + 1, c =>
    (collectNames (fun m => classNameEvents S flags fuel m) (S.classes c).mixins []).bind
    fun e1 =>
    (loopNameEvents S flags (fuel + 1) c).bind fun r =>
    (collectNames (fun s => classNameEvents S flags fuel s)
      (S.classes r.1).superclasses []).map fun e3 => e1 ++ r.2 ++ e3

/-- What the first loop of `TclOOGetSortedMethodList` hands to the names
table. -/
def objectNameEvents (S : Store) (flags : FlagWord) (methods : List (Name × MethodPtr)) :
    List (Name × Bool) :=
  (methods.filter fun e => !((S.methods e.2).flags.PRIVATE_METHOD && !flags.PRIVATE_METHOD)).map
    fun e => (e.1, !flags.PUBLIC_METHOD || (S.methods e.2).flags.PUBLIC_METHOD)

/-- What the second loop of `TclOOGetSortedMethodList` hands to the names
table. -/
def privateNameEvents (S : Store) (flags : FlagWord) (classMethods : List (Name × MethodPtr)) :
    List (Name × Bool) :=
  if flags.PRIVATE_METHOD then
    (classMethods.filter fun e => (S.methods e.2).flags.PRIVATE_METHOD).map fun e => (e.1, true)
  else []

/-- What `TclOOGetSortedMethodList` hands to the names table, in order. -/
def methodNameEvents (S : Store) (fuel : Nat) (oPtr : ObjectPtr) (flags : FlagWord) :
    Option (List (Name × Bool)) :=
  (classNameEvents S flags fuel (S.objects oPtr).selfCls).bind fun e2 =>
  (collectNames (fun m => classNameEvents S flags fuel m) (S.objects oPtr).mixins []).map
    fun e3 =>
      objectNameEvents S flags (S.objects oPtr).methods ++
        privateNameEvents S flags (S.classes (S.objects oPtr).selfCls).classMethods ++ e2 ++ e3

/-- The first occurrences of the names of a list added to a list of keys. -/
def keysAdd (ks : List Name) (ns : List Name) : List Name :=
  ns.foldl (fun ks1 n => if n ∈ ks1 then ks1 else ks1 ++ [n]) ks

/-- The graph of superclass and mixin links has no cycle: some measure drops
along every such link. -/
def AcyclicMixins (S : Store) : Prop :=
  ∃ rank : ClassPtr → Nat, ∀ X Y,
    (Y ∈ (S.classes X).superclasses ∨ Y ∈ (S.classes X).mixins) → rank Y < rank X

/-- One name is strictly below the other in the order of `CmpStr`. -/
def nameLt (a b : Name) : Prop := CmpStr a b = Ordering.lt

/-- A context cache with no entry. -/
def noCache : ContextCache := fun _ => none

/-- The foundation of the scenarios: class `0` is the root class, the epoch is
`1` (the hierarchy caches of all classes, at epoch `0`, are stale), and the
unknown-method name is `unknown`. -/
def scenarioFoundation : Foundation :=
  { objectCls := 0, epoch := 1, unknownMethodNameObj := "unknown" }

/-- A public method with an implementation, declared by the class `c`. -/
def publicMethodOf (c : ClassPtr) : Method :=
  { flags := { PUBLIC_METHOD := true }, declaringClassPtr := some c, typePtr := some 1 }

/-- Linear override: class `1` (`A`) defines public `m` (method `10`), class
`2` (`B`) extends `A` and redefines public `m` (method `20`); the object is of
class `B` and has no mixins, filters or methods of its own. -/
def linearStore : Store where
  classes := fun c =>
    match c with
    | 1 => { classMethods := [("m", 10)] }
    | 2 => { classMethods := [("m", 20)], superclasses := [1] }
    | _ => {}
  methods := fun m =>
    match m with
    | 10 => publicMethodOf 1
    | 20 => publicMethodOf 2
    | _ => {}
  objects := fun _ => { selfCls := 2 }

/-- Filter ordering: class `1` (`F`) declares the filter `trace` and defines
the method `trace` (method `10`); class `2` (`B`) extends `F` and defines public
`work` (method `20`); the object is of class `B`, with the `FILTER_HANDLING` bit
of its flags as given. -/
def filterStore (inFilter : Bool) : Store where
  classes := fun c =>
    match c with
    | 1 => { classMethods := [("trace", 10)], filters := ["trace"] }
    | 2 => { classMethods := [("work", 20)], superclasses := [1] }
    | _ => {}
  methods := fun m =>
    match m with
    | 10 => publicMethodOf 1
    | 20 => publicMethodOf 2
    | _ => {}
  objects := fun _ => { selfCls := 2, flags := { FILTER_HANDLING := inFilter } }

/-- The context expected in the filter ordering scenario for a plain call of
`work`: the filter entry of `trace`, declared by `F`, then `B.work`. -/
def filterScenarioContext : CallContext :=
  { oPtr := 0, globalEpoch := 1, localEpoch := 0, flags := {}, index := 0, skip := 2,
    callChain := [⟨10, true, some 1⟩, ⟨20, false, none⟩] }

/-- The context expected in the linear override scenario for a plain call of
`m`: `B.m`, then `A.m`. -/
def linearScenarioContext : CallContext :=
  { oPtr := 0, globalEpoch := 1, localEpoch := 0, flags := {}, index := 0, skip := 2,
    callChain := [⟨20, false, none⟩, ⟨10, false, none⟩] }

/-- A method with an implementation, declared by the class `c`, public or not. -/
def methodOf (c : ClassPtr) (isPublic : Bool) : Method :=
  { flags := { PUBLIC_METHOD := isPublic }, declaringClassPtr := some c, typePtr := some 1 }

/-- The table of a class that defines `m` as the method `mPtr`, or does not. -/
def tableOfM (defines : Bool) (mPtr : MethodPtr) : List (Name × MethodPtr) :=
  if defines then [("m", mPtr)] else []

/-- Diamond: class `4` (`D`) extends `2` (`B`) and `3` (`C`), which both extend
`1` (`A`); `A` has no superclass.  `A`, `B` and `C` define `m` (methods `10`,
`20`, `30`) or not, as the arguments say, all with the same visibility; `D`
does not.  The object is of class `D` and has no mixins, filters or methods of
its own. -/
def diamondStore (inA inB inC isPublic : Bool) : Store where
  classes := fun c =>
    match c with
    | 1 => { classMethods := tableOfM inA 10 }
    | 2 => { classMethods := tableOfM inB 20, superclasses := [1] }
    | 3 => { classMethods := tableOfM inC 30, superclasses := [1] }
    | 4 => { superclasses := [2, 3] }
    | _ => {}
  methods := fun m =>
    match m with
    | 10 => methodOf 1 isPublic
    | 20 => methodOf 2 isPublic
    | 30 => methodOf 3 isPublic
    | _ => {}
  objects := fun _ => { selfCls := 4 }

/-- The non-filter entry of a method. -/
def plainEntry (mPtr : MethodPtr) : MInvoke := ⟨mPtr, false, none⟩

/-- The entries, in order, of the methods of a list that are present. -/
def presentEntries (l : List (Bool × MethodPtr)) : List MInvoke :=
  (l.filter fun p => p.1).map fun p => plainEntry p.2

/-- The context expected in the filter ordering scenario when `work` is
resolved from within the filter: `B.work` alone; the context carries the
`FILTER_HANDLING` bit when the call asked for it. -/
def insideFilterContext (asked : Bool) : CallContext :=
  { oPtr := 0, globalEpoch := 1, localEpoch := 0, flags := { FILTER_HANDLING := asked },
    index := 0, skip := 2, callChain := [plainEntry 20] }

/-- A cache whose only entry holds the context `c` under the name `key`. -/
def cacheWith (key : Name) (c : CallContext) : ContextCache :=
  fun k => if k = key then some (some c) else none

/-- Private hiding: class `1` (`A`) defines the private method `secret`
(method `10`, with an implementation, not marked public) and, when
`hasUnknown` is set, a public method `unknown` (method `11`); the object is of
class `A` and has no mixins, filters or methods of its own. -/
def privateStore (hasUnknown : Bool) : Store where
  classes := fun c =>
    match c with
    | 1 => { classMethods := ("secret", 10) :: (if hasUnknown then [("unknown", 11)] else []) }
    | _ => {}
  methods := fun m =>
    match m with
    | 10 => { flags := { PRIVATE_METHOD := true }, declaringClassPtr := some 1,
              typePtr := some 1 }
    | 11 => publicMethodOf 1
    | _ => {}
  objects := fun _ => { selfCls := 1 }

/-- What the code answers in the private hiding scenario for a call of
`secret` with no flag at all: an ordinary context whose chain is `[A.secret]`. -/
def privateScenarioContext : CallContext :=
  { oPtr := 0, globalEpoch := 1, localEpoch := 0, flags := {}, index := 0, skip := 2,
    callChain := [plainEntry 10] }

/-- Unknown fallback: no class defines `m`; class `1` (`A`) defines `unknown`
(method `10`); the object is of class `A`. -/
def unknownStore : Store where
  classes := fun c =>
    match c with
    | 1 => { classMethods := [("unknown", 10)] }
    | _ => {}
  methods := fun m =>
    match m with
    | 10 => publicMethodOf 1
    | _ => {}
  objects := fun _ => { selfCls := 1 }

/-- The context expected in the unknown fallback scenario: the chain
`[A.unknown]`, the `OO_UNKNOWN_METHOD` bit, and the global epoch `-1`. -/
def unknownScenarioContext : CallContext :=
  { oPtr := 0, globalEpoch := -1, localEpoch := 0, flags := { OO_UNKNOWN_METHOD := true },
    index := 0, skip := 2, callChain := [plainEntry 10] }

/-- What the private hiding scenario answers, when `A` has an `unknown`
method, for a call of `secret` restricted to public methods: the fallback
chain `[A.unknown]`. -/
def privateFallbackContext : CallContext :=
  { oPtr := 0, globalEpoch := -1, localEpoch := 0,
    flags := { PUBLIC_METHOD := true, OO_UNKNOWN_METHOD := true },
    index := 0, skip := 2, callChain := [plainEntry 11] }

/-- Mixin precedence: class `1` (`M`) provides `m` (method `10`), class `2`
(`A`) provides `m` (method `20`); the object is of class `A` with the mixins
`[M]` and, when `own` is set, a method `m` of its own (method `30`). -/
def mixinStore (own : Bool) : Store where
  classes := fun c =>
    match c with
    | 1 => { classMethods := [("m", 10)] }
    | 2 => { classMethods := [("m", 20)] }
    | _ => {}
  methods := fun m =>
    match m with
    | 10 => publicMethodOf 1
    | 20 => publicMethodOf 2
    | 30 => { flags := { PUBLIC_METHOD := true }, declaringClassPtr := none, typePtr := some 1 }
    | _ => {}
  objects := fun _ =>
    { selfCls := 2, mixins := [1], methods := if own then [("m", 30)] else [] }

/-- The context expected in the mixin precedence scenario when the object has
its own `m`: `M.m`, then `o.m`, then `A.m`. -/
def mixinOwnContext : CallContext :=
  { oPtr := 0, globalEpoch := 1, localEpoch := 0, flags := {}, index := 0, skip := 2,
    callChain := [plainEntry 10, plainEntry 30, plainEntry 20] }

/-- Mixin of a superclass: class `1` (`M`) defines `m` (method `10`); class `2`
(`A`) has the mixin `M`; class `3` (`B`) has the single superclass `A`; the
object is of class `B`. -/
def superMixinStore : Store where
  classes := fun c =>
    match c with
    | 1 => { classMethods := [("m", 10)] }
    | 2 => { mixins := [1] }
    | 3 => { superclasses := [2] }
    | _ => {}
  methods := fun m =>
    match m with
    | 10 => publicMethodOf 1
    | _ => {}
  objects := fun _ => { selfCls := 3 }

/-- An implementation that sets the `FILTER_HANDLING` bit of every object,
changes another flag bit of theirs, and answers with the status `7`. -/
def meddlingCallProc : CallProc :=
  fun _ _ _ st =>
    ({ st with store := { st.store with objects := fun o =>
        { st.store.objects o with
          flags := { (st.store.objects o).flags with
            FILTER_HANDLING := true, otherBits := 5 } } } }, 7)

/-- The state of the linear override scenario with nothing preserved. -/
def linearState : InterpState := { store := linearStore, preserved := fun _ => 0 }

/-- Placeholder: class `1` (`A`) defines public `m` (method `10`); class `2`
(`B`) extends `A` and has for `m` an entry without implementation (method
`20`, type pointer `NULL`) that records it as public; the object is of class
`B`. -/
def placeholderStore : Store where
  classes := fun c =>
    match c with
    | 1 => { classMethods := [("m", 10)] }
    | 2 => { classMethods := [("m", 20)], superclasses := [1] }
    | _ => {}
  methods := fun m =>
    match m with
    | 10 => publicMethodOf 1
    | 20 => { flags := { PUBLIC_METHOD := true }, declaringClassPtr := some 2, typePtr := none }
    | _ => {}
  objects := fun _ => { selfCls := 2 }

/-- The context expected in the placeholder scenario for a public call of `m`:
`A.m` alone. -/
def placeholderContext : CallContext :=
  { oPtr := 0, globalEpoch := 1, localEpoch := 0, flags := { PUBLIC_METHOD := true },
    index := 0, skip := 2, callChain := [⟨10, false, none⟩] }

/-- The context that a call of `m` with `PRIVATE_METHOD` builds in the linear
override scenario: the chain of `linearScenarioContext`, with the flag in the
snapshot. -/
def linearPrivateContext : CallContext :=
  { linearScenarioContext with flags := { PRIVATE_METHOD := true } }

/-- Rooted classes: class `1` has the root class `0` as its only superclass,
class `2` has the superclasses `1` and `0`. -/
def rootedStore : Store where
  classes := fun c =>
    match c with
    | 1 => { superclasses := [0] }
    | 2 => { superclasses := [1, 0] }
    | _ => {}
  methods := fun _ => {}
  objects := fun _ => { selfCls := 2 }

/-- The context expected in the diamond where `A`, `B` and `C` all define `m`,
for a plain call of `m`: `B.m`, `C.m`, `A.m` (the entry of `A.m`, first placed
behind `B.m`, has moved to the end). -/
def diamondScenarioContext : CallContext :=
  { oPtr := 0, globalEpoch := 1, localEpoch := 0, flags := {}, index := 0, skip := 2,
    callChain := [⟨20, false, none⟩, ⟨30, false, none⟩, ⟨10, false, none⟩] }

/-- Private methods on both sides: class `1` (`A`) defines the private method
`secret` (method `10`), and the object, of class `A`, has a private method
`hidden` of its own (method `12`); neither is marked public. -/
def privateBothStore : Store where
  classes := fun c =>
    match c with
    | 1 => { classMethods := [("secret", 10)] }
    | _ => {}
  methods := fun m =>
    match m with
    | 10 => { flags := { PRIVATE_METHOD := true }, declaringClassPtr := some 1,
              typePtr := some 1 }
    | 12 => { flags := { PRIVATE_METHOD := true }, declaringClassPtr := none,
              typePtr := some 1 }
    | _ => {}
  objects := fun _ => { selfCls := 1, methods := [("hidden", 12)] }

/-! ## Unfolding the class walk -/

theorem AddSimpleClassChain_succ (S : Store) (n : Name) (dF : Bool) (decl : Option ClassPtr)
    (fuel : Nat) (c : ClassPtr) (cb : ChainBuilder) (flags : FlagWord) :
    AddSimpleClassChainToCallContext S n dF decl (fuel + 1) c cb flags =
      match classChainStep S n c flags with
      | none => some cb
      | some (mPtr, flags1) =>
        (S.classes c).superclasses.foldlM (fun cb2 s =>
          AddSimpleClassChainToCallContext S n dF decl fuel s cb2 flags1)
          (AddMethodToCallChain S mPtr cb dF decl) := by
  rw [AddSimpleClassChainToCallContext]
  cases hstep : classChainStep S n c flags with
  | none => rfl
  | some p =>
    obtain ⟨mPtr, flags1⟩ := p
    simp only
    cases hs : (S.classes c).superclasses with
    | nil => simp
    | cons s ss =>
      cases ss with
      | nil => simp
      | cons s2 ss2 => simp

/-! ## One call of `AddMethodToCallChain` -/

theorem sectionAdd_nil (m : MethodPtr) (isF : Bool) (decl : Option ClassPtr) :
    sectionAdd [] m isF decl = [⟨m, isF, decl⟩] := by
  simp [sectionAdd]

theorem sectionAdd_cons (e : MInvoke) (sec : List MInvoke) (m : MethodPtr) (isF : Bool)
    (decl : Option ClassPtr) :
    sectionAdd (e :: sec) m isF decl =
      if (e.mPtr == m && e.isFilter == isF) = true then sec ++ [⟨m, isF, e.filterDeclarer⟩]
      else e :: sectionAdd sec m isF decl := by
  unfold sectionAdd
  rw [List.findIdx?_cons]
  by_cases h : (e.mPtr == m && e.isFilter == isF) = true
  · simp [h]
  · simp only [h, if_false, Bool.false_eq_true]
    rw [List.findIdx?_succ]
    cases hf : List.findIdx? (fun e => e.mPtr == m && e.isFilter == isF) sec 0 with
    | none => simp
    | some i => simp

theorem sectionAdd_ne_nil (sec : List MInvoke) (m : MethodPtr) (isF : Bool)
    (decl : Option ClassPtr) : sectionAdd sec m isF decl ≠ [] := by
  induction sec with
  | nil => simp [sectionAdd_nil]
  | cons e sec _ =>
    rw [sectionAdd_cons]
    split <;> simp

theorem sectionAdd_mem (sec : List MInvoke) (m : MethodPtr) (isF : Bool)
    (decl : Option ClassPtr) (x : MInvoke) (hx : x ∈ sectionAdd sec m isF decl) :
    x ∈ sec ∨ (x.mPtr = m ∧ x.isFilter = isF) := by
  induction sec with
  | nil =>
    rw [sectionAdd_nil] at hx
    simp at hx
    subst hx
    simp
  | cons e sec ih =>
    rw [sectionAdd_cons] at hx
    split at hx
    · simp only [List.mem_append, List.mem_singleton] at hx
      rcases hx with hx | hx
      · exact Or.inl (List.mem_cons_of_mem _ hx)
      · subst hx
        simp
    · rcases List.mem_cons.1 hx with hx | hx
      · subst hx
        exact Or.inl (List.mem_cons_self _ _)
      · rcases ih hx with h | h
        · exact Or.inl (List.mem_cons_of_mem _ h)
        · exact Or.inr h

theorem sectionAdd_map_mPtr (sec : List MInvoke) (m : MethodPtr) (isF : Bool)
    (decl : Option ClassPtr) (hu : ∀ e ∈ sec, e.isFilter = isF) :
    (sectionAdd sec m isF decl).map (fun e => e.mPtr) = pushLate (sec.map fun e => e.mPtr) m := by
  induction sec with
  | nil => simp [sectionAdd_nil, pushLate]
  | cons e sec ih =>
    have he : e.isFilter = isF := hu e (List.mem_cons_self _ _)
    have hu1 : ∀ e ∈ sec, e.isFilter = isF := fun x hx => hu x (List.mem_cons_of_mem _ hx)
    rw [sectionAdd_cons]
    by_cases hm : e.mPtr = m
    · simp [hm, he, pushLate]
    · have hne : (e.mPtr == m) = false := by simpa using hm
      simp only [hne, Bool.false_and, Bool.false_eq_true, if_false, List.map_cons, ih hu1]
      simp [pushLate, List.erase_cons_tail, hne]

theorem sectionAdd_uniform (sec : List MInvoke) (m : MethodPtr) (isF : Bool)
    (decl : Option ClassPtr) (hu : ∀ e ∈ sec, e.isFilter = isF) :
    ∀ e ∈ sectionAdd sec m isF decl, e.isFilter = isF := by
  intro e he
  rcases sectionAdd_mem sec m isF decl e he with h | h
  · exact hu e h
  · exact h.2

/-- `AddMethodToCallChain` on a builder whose chain is a part `pre` it skips
followed by a part `sec` it scans. -/
theorem AddMethodToCallChain_eq (S : Store) (m : MethodPtr) (cb : ChainBuilder) (dF : Bool)
    (decl : Option ClassPtr) (pre sec : List MInvoke)
    (hc : cb.contextPtr.callChain = pre ++ sec) (hfl : cb.filterLength = pre.length) :
    AddMethodToCallChain S (some m) cb dF decl =
      if passesTests S cb.contextPtr.flags (S.objects cb.contextPtr.oPtr).selfCls m = true then
        { cb with contextPtr :=
            { cb.contextPtr with callChain := pre ++ sectionAdd sec m dF decl } }
      else cb := by
  unfold AddMethodToCallChain passesTests
  by_cases ht : (S.methods m).typePtr = none
  · simp [ht]
  · by_cases hp : (!cb.contextPtr.flags.PRIVATE_METHOD
        && (S.methods m).flags.PRIVATE_METHOD
        && (S.methods m).declaringClassPtr != none
        && (S.methods m).declaringClassPtr
            != some (S.objects cb.contextPtr.oPtr).selfCls) = true
    · simp only [ht, if_false, hp, if_true]
      simp
    · simp only [ht, if_false, hp]
      have hdrop : List.drop pre.length (pre ++ sec) = sec := List.drop_left' rfl
      simp only [findInCallChain, hc, hfl, hdrop, sectionAdd]
      cases hf : List.findIdx? (fun e => e.mPtr == m && e.isFilter == dF) sec with
      | none => simp [ht]
      | some i =>
        have he : (pre ++ sec).eraseIdx (i + pre.length) = pre ++ sec.eraseIdx i := by
          rw [List.eraseIdx_append_of_length_le (by omega)]
          simp
        have hg : (pre ++ sec)[i + pre.length]? = sec[i]? := by
          rw [List.getElem?_append_right (by omega)]
          simp
        simp [he, hg, ht]

theorem AddMethodToCallChain_none (S : Store) (cb : ChainBuilder) (dF : Bool)
    (decl : Option ClassPtr) : AddMethodToCallChain S none cb dF decl = cb := rfl

theorem AddMethodToCallChain_toList (S : Store) (mPtr : Option MethodPtr) (cb : ChainBuilder)
    (dF : Bool) (decl : Option ClassPtr) :
    AddMethodToCallChain S mPtr cb dF decl = addAll S dF decl cb mPtr.toList := by
  cases mPtr <;> rfl

/-- A run of `AddMethodToCallChain` in terms of the scanned part of the chain. -/
theorem addAll_eq (S : Store) (dF : Bool) (decl : Option ClassPtr) (es : List MethodPtr) :
    ∀ (cb : ChainBuilder) (pre sec : List MInvoke),
      cb.contextPtr.callChain = pre ++ sec → cb.filterLength = pre.length →
      addAll S dF decl cb es =
        { cb with contextPtr := { cb.contextPtr with
            callChain := pre ++
              (es.filter (passesTests S cb.contextPtr.flags
                (S.objects cb.contextPtr.oPtr).selfCls)).foldl
                (fun sec1 m => sectionAdd sec1 m dF decl) sec } } := by
  induction es with
  | nil =>
    intro cb pre sec hc _
    simp [addAll, ← hc]
  | cons m es ih =>
    intro cb pre sec hc hfl
    have h1 := AddMethodToCallChain_eq S m cb dF decl pre sec hc hfl
    show addAll S dF decl (AddMethodToCallChain S (some m) cb dF decl) es = _
    by_cases hp : passesTests S cb.contextPtr.flags (S.objects cb.contextPtr.oPtr).selfCls m = true
    · rw [h1, if_pos hp]
      have h2 := ih { cb with contextPtr :=
        { cb.contextPtr with callChain := pre ++ sectionAdd sec m dF decl } }
        pre (sectionAdd sec m dF decl) rfl hfl
      rw [h2]
      simp [List.filter_cons, hp]
    · rw [h1, if_neg hp]
      rw [ih cb pre sec hc hfl]
      simp [List.filter_cons, hp]

theorem addAll_append (S : Store) (dF : Bool) (decl : Option ClassPtr) (cb : ChainBuilder)
    (es1 es2 : List MethodPtr) :
    addAll S dF decl cb (es1 ++ es2) = addAll S dF decl (addAll S dF decl cb es1) es2 := by
  simp [addAll, List.foldl_append]

/-! ## The walks as runs of `AddMethodToCallChain` -/

theorem collectEvents_nil {σ : Type} (ev : σ → Option (List MethodPtr)) (acc : List MethodPtr) :
    collectEvents ev [] acc = some acc := rfl

theorem collectEvents_cons {σ : Type} (ev : σ → Option (List MethodPtr)) (s : σ) (ss : List σ)
    (acc : List MethodPtr) :
    collectEvents ev (s :: ss) acc = (ev s).bind fun es => collectEvents ev ss (acc ++ es) := by
  unfold collectEvents
  rw [List.foldlM_cons]
  cases ev s <;> rfl

theorem collectEvents_acc {σ : Type} (ev : σ → Option (List MethodPtr)) (ss : List σ) :
    ∀ acc : List MethodPtr,
      collectEvents ev ss acc = (collectEvents ev ss []).map fun es => acc ++ es := by
  induction ss with
  | nil => intro acc; simp [collectEvents_nil]
  | cons s ss ih =>
    intro acc
    rw [collectEvents_cons, collectEvents_cons]
    cases hs : ev s with
    | none => rfl
    | some es =>
      simp only [Option.some_bind, List.nil_append]
      rw [ih (acc ++ es), ih es]
      cases collectEvents ev ss [] <;> simp

theorem collectEvents_append {σ : Type} (ev : σ → Option (List MethodPtr)) (s1 s2 : List σ)
    (acc : List MethodPtr) :
    collectEvents ev (s1 ++ s2) acc =
      (collectEvents ev s1 acc).bind fun acc1 => collectEvents ev s2 acc1 := by
  unfold collectEvents
  rw [List.foldlM_append]
  rfl

theorem collectEvents_cons_some {σ : Type} (ev : σ → Option (List MethodPtr)) (s : σ)
    (ss : List σ) (r : List MethodPtr) (h : collectEvents ev (s :: ss) [] = some r) :
    ∃ es rest, ev s = some es ∧ collectEvents ev ss [] = some rest ∧ r = es ++ rest := by
  rw [collectEvents_cons] at h
  cases hs : ev s with
  | none => simp [hs] at h
  | some es =>
    simp only [hs, Option.some_bind, List.nil_append] at h
    rw [collectEvents_acc] at h
    cases hr : collectEvents ev ss [] with
    | none => simp [hr] at h
    | some rest =>
      simp only [hr, Option.map_some', Option.some.injEq] at h
      exact ⟨es, rest, rfl, rfl, h.symm⟩

theorem addAll_nil (S : Store) (dF : Bool) (decl : Option ClassPtr) (cb : ChainBuilder) :
    addAll S dF decl cb [] = cb := rfl

/-- A loop whose every round is a run of `AddMethodToCallChain` is such a run. -/
theorem foldlM_events {σ : Type} (S : Store) (dF : Bool) (decl : Option ClassPtr)
    (g : ChainBuilder → σ → Option ChainBuilder) (ev : σ → Option (List MethodPtr))
    (hg : ∀ cb s, g cb s = (ev s).map fun es => addAll S dF decl cb es) :
    ∀ (ss : List σ) (cb : ChainBuilder) (acc : List MethodPtr),
      ss.foldlM g (addAll S dF decl cb acc) =
        (collectEvents ev ss acc).map fun es => addAll S dF decl cb es := by
  intro ss
  induction ss with
  | nil => intro cb acc; simp [collectEvents_nil]
  | cons s ss ih =>
    intro cb acc
    rw [List.foldlM_cons, collectEvents_cons, hg]
    cases hs : ev s with
    | none => rfl
    | some es =>
      simp only [Option.map_some', Option.some_bind]
      rw [← addAll_append]
      exact ih cb (acc ++ es)

/-- The class walk is a run of `AddMethodToCallChain` over its events. -/
theorem classChain_events (S : Store) (n : Name) (dF : Bool) (decl : Option ClassPtr) :
    ∀ (fuel : Nat) (c : ClassPtr) (cb : ChainBuilder) (flags : FlagWord),
      AddSimpleClassChainToCallContext S n dF decl fuel c cb flags =
        (classChainEvents S n fuel c flags).map fun es => addAll S dF decl cb es := by
  intro fuel
  induction fuel with
  | zero => intro c cb flags; rfl
  | succ fuel ih =>
    intro c cb flags
    rw [AddSimpleClassChain_succ, classChainEvents]
    cases hstep : classChainStep S n c flags with
    | none => rfl
    | some p =>
      obtain ⟨mPtr, flags1⟩ := p
      simp only
      rw [AddMethodToCallChain_toList]
      exact foldlM_events S dF decl _ _ (fun cb s => ih s cb flags1) _ cb _

theorem addClassChains_events (S : Store) (n : Name) (dF : Bool) (decl : Option ClassPtr)
    (fuel : Nat) (flags : FlagWord) (l : List ClassPtr) (cb : ChainBuilder) :
    addClassChains S n dF decl fuel flags l cb =
      (collectEvents (fun c => classChainEvents S n fuel c flags) l []).map
        fun es => addAll S dF decl cb es := by
  unfold addClassChains
  exact foldlM_events S dF decl _ _ (fun cb s => classChain_events S n dF decl fuel s cb flags)
    l cb []

theorem addClassChains_append (S : Store) (n : Name) (dF : Bool) (decl : Option ClassPtr)
    (fuel : Nat) (flags : FlagWord) (l1 l2 : List ClassPtr) (cb : ChainBuilder) :
    addClassChains S n dF decl fuel flags (l1 ++ l2) cb =
      (addClassChains S n dF decl fuel flags l1 cb).bind
        fun cb1 => addClassChains S n dF decl fuel flags l2 cb1 := by
  unfold addClassChains
  rw [List.foldlM_append]
  rfl

theorem addClassChains_flatMap (S : Store) (n : Name) (dF : Bool) (decl : Option ClassPtr)
    (fuel : Nat) (flags : FlagWord) (f : ClassPtr → List ClassPtr) :
    ∀ (hier : List ClassPtr) (cb : ChainBuilder),
      hier.foldlM (fun cb3 superPtr => addClassChains S n dF decl fuel flags (f superPtr) cb3) cb
        = addClassChains S n dF decl fuel flags (hier.flatMap f) cb := by
  intro hier
  induction hier with
  | nil => intro cb; rfl
  | cons h hier ih =>
    intro cb
    rw [List.foldlM_cons, List.flatMap_cons, addClassChains_append]
    cases addClassChains S n dF decl fuel flags (f h) cb with
    | none => rfl
    | some cb1 => exact ih cb1

/-- The simple chain build is a run of `AddMethodToCallChain` over its events. -/
theorem simpleChain_events (S : Store) (fuel : Nat) (oPtr : ObjectPtr) (n : Name)
    (cb : ChainBuilder) (dF : Bool) (flags : FlagWord) (decl : Option ClassPtr) :
    AddSimpleChainToCallContext S fuel oPtr n cb dF flags decl =
      (simpleChainEvents S fuel oPtr n flags).map fun es => addAll S dF decl cb es := by
  unfold AddSimpleChainToCallContext simpleChainEvents
  cases hp : simpleChainProbe S oPtr n flags with
  | none => rfl
  | some flags1 =>
    simp only
    have hself : ∀ cb1 : ChainBuilder,
        AddSimpleClassChainToCallContext S n dF decl fuel (S.objects oPtr).selfCls cb1 flags1 =
          (classChainEvents S n fuel (S.objects oPtr).selfCls flags1).map
            fun es => addAll S dF decl cb1 es :=
      fun cb1 => classChain_events S n dF decl fuel _ cb1 flags1
    by_cases hsp : flags1.SPECIAL = true
    · simp only [hsp, Bool.not_true, Bool.false_eq_true, if_false]
      exact hself cb
    · simp only [hsp, Bool.not_false, if_true]
      simp only [addClassChains_flatMap S n dF decl fuel flags1
        (fun superPtr => (S.classes superPtr).mixins)]
      have hjoin : ∀ (K : ChainBuilder → Option ChainBuilder),
          ((addClassChains S n dF decl fuel flags1 (S.objects oPtr).mixins cb).bind fun cb1 =>
            (addClassChains S n dF decl fuel flags1
              (S.classes (S.objects oPtr).selfCls).mixins cb1).bind fun cb2 =>
            (addClassChains S n dF decl fuel flags1
              ((S.classes (S.objects oPtr).selfCls).classHierarchy.flatMap
                fun superPtr => (S.classes superPtr).mixins) cb2).bind K) =
          (addClassChains S n dF decl fuel flags1 (mixinWalkList S oPtr) cb).bind K := by
        intro K
        unfold mixinWalkList
        rw [addClassChains_append, addClassChains_append]
        cases addClassChains S n dF decl fuel flags1 (S.objects oPtr).mixins cb with
        | none => rfl
        | some cb1 =>
          simp only [Option.some_bind]
          cases addClassChains S n dF decl fuel flags1
            (S.classes (S.objects oPtr).selfCls).mixins cb1 <;> rfl
      rw [hjoin, addClassChains_events]
      cases collectEvents (fun c => classChainEvents S n fuel c flags1)
          (mixinWalkList S oPtr) [] with
      | none => rfl
      | some e1 =>
        simp only [Option.map_some', Option.some_bind]
        rw [hself]
        have hown : (match (S.objects oPtr).methods.lookup n with
            | some m => AddMethodToCallChain S (some m) (addAll S dF decl cb e1) dF decl
            | none => addAll S dF decl cb e1) =
            addAll S dF decl (addAll S dF decl cb e1)
              ((S.objects oPtr).methods.lookup n).toList := by
          cases (S.objects oPtr).methods.lookup n <;> rfl
        rw [hown]
        cases classChainEvents S n fuel (S.objects oPtr).selfCls flags1 with
        | none => rfl
        | some e2 => simp [addAll_append]

/-! ## What the hierarchy cache leaves alone -/

theorem foldlM_preserves {α σ : Type} (Q : α → Prop) (g : α → σ → Option α)
    (hg : ∀ a s a1, Q a → g a s = some a1 → Q a1) :
    ∀ (ss : List σ) (a a1 : α), Q a → ss.foldlM g a = some a1 → Q a1 := by
  intro ss
  induction ss with
  | nil =>
    intro a a1 ha h
    simp only [List.foldlM_nil] at h
    cases h
    exact ha
  | cons s ss ih =>
    intro a a1 ha h
    rw [List.foldlM_cons] at h
    cases hs : g a s with
    | none => simp [hs] at h
    | some a2 =>
      simp only [hs] at h
      exact ih a2 a1 (hg a s a2 ha hs) h

theorem SameButHierarchy.refl (S : Store) : SameButHierarchy S S :=
  ⟨rfl, rfl, fun _ => rfl, fun _ => rfl, fun _ => rfl, fun _ => rfl, fun _ => rfl, fun _ => rfl⟩

theorem SameButHierarchy.trans {S S1 S2 : Store} (h1 : SameButHierarchy S S1)
    (h2 : SameButHierarchy S1 S2) : SameButHierarchy S S2 :=
  ⟨h2.methods.trans h1.methods, h2.objects.trans h1.objects,
    fun c => (h2.classMethods c).trans (h1.classMethods c),
    fun c => (h2.superclasses c).trans (h1.superclasses c),
    fun c => (h2.mixins c).trans (h1.mixins c),
    fun c => (h2.filters c).trans (h1.filters c),
    fun c => (h2.constructorPtr c).trans (h1.constructorPtr c),
    fun c => (h2.destructorPtr c).trans (h1.destructorPtr c)⟩

theorem SameButHierarchy.update (S : Store) (c : ClassPtr) (hier : List ClassPtr) (ep : Int) :
    SameButHierarchy S { S with classes := (Function.update S.classes c
      { S.classes c with classHierarchy := hier, classHierarchyEpoch := ep }) } := by
  constructor <;> first
    | rfl
    | (intro d
       by_cases hd : d = c
       · subst hd; simp
       · simp [Function.update_noteq hd])

/-- `InitClassHierarchy` changes nothing but hierarchy caches. -/
theorem InitClassHierarchy_frame (F : Foundation) :
    ∀ (fuel : Nat) (S : Store) (c : ClassPtr) (S1 : Store),
      InitClassHierarchy F fuel S c = some S1 → SameButHierarchy S S1 := by
  intro fuel
  induction fuel with
  | zero => intro S c S1 h; simp [InitClassHierarchy] at h
  | succ fuel ih =>
    intro S c S1 h
    rw [InitClassHierarchy] at h
    by_cases hc : c = F.objectCls
    · simp only [hc, if_true, Option.some.injEq] at h
      subst h
      exact SameButHierarchy.refl S
    · simp only [hc, if_false] at h
      by_cases he : (S.classes c).classHierarchyEpoch ≠ F.epoch
      · simp only [he, if_true, ne_eq, not_false_eq_true] at h
        cases hf : List.foldlM (fun S1 superPtr => InitClassHierarchy F fuel S1 superPtr) S
            (S.classes c).superclasses with
        | none => simp [hf] at h
        | some S2 =>
          have h2 : SameButHierarchy S S2 :=
            foldlM_preserves (fun X => SameButHierarchy S X) _
              (fun a s a1 ha hs => ha.trans (ih a s a1 hs)) _ S S2 (SameButHierarchy.refl S) hf
          simp only [hf] at h
          split at h
          · simp only [Option.some.injEq] at h
            subst h
            exact h2.trans (SameButHierarchy.update S2 c _ _)
          · simp only [Option.some.injEq] at h
            subst h
            exact h2.trans (SameButHierarchy.update S2 c _ _)
      · simp only [he, if_false] at h
        cases h
        exact SameButHierarchy.refl S

/-! ## Invariants of the filter phase -/

theorem addAll_withChain (S : Store) (dF : Bool) (decl : Option ClassPtr) (es : List MethodPtr)
    (cb : ChainBuilder) (pre sec : List MInvoke)
    (hc : cb.contextPtr.callChain = pre ++ sec) (hfl : cb.filterLength = pre.length) :
    addAll S dF decl cb es =
      withChain cb (pre ++
        (es.filter (passesTests S cb.contextPtr.flags (S.objects cb.contextPtr.oPtr).selfCls)).foldl
          (fun sec1 m => sectionAdd sec1 m dF decl) sec) :=
  addAll_eq S dF decl es cb pre sec hc hfl

theorem addAll_preserves (S : Store) (dF : Bool) (decl : Option ClassPtr)
    (P : ChainBuilder → Prop)
    (hP : ∀ m cb, P cb → P (AddMethodToCallChain S (some m) cb dF decl)) :
    ∀ (es : List MethodPtr) (cb : ChainBuilder), P cb → P (addAll S dF decl cb es) := by
  intro es
  induction es with
  | nil => intro cb h; exact h
  | cons m es ih => intro cb h; exact ih _ (hP m cb h)

theorem simpleChain_preserves (S : Store) (fuel : Nat) (oPtr : ObjectPtr) (n : Name)
    (dF : Bool) (flags : FlagWord) (decl : Option ClassPtr) (P : ChainBuilder → Prop)
    (hP : ∀ m cb, P cb → P (AddMethodToCallChain S (some m) cb dF decl))
    (cb cb1 : ChainBuilder) (hcb : P cb)
    (h : AddSimpleChainToCallContext S fuel oPtr n cb dF flags decl = some cb1) : P cb1 := by
  rw [simpleChain_events] at h
  cases hes : simpleChainEvents S fuel oPtr n flags with
  | none => simp [hes] at h
  | some es =>
    simp only [hes, Option.map_some', Option.some.injEq] at h
    subst h
    exact addAll_preserves S dF decl P hP es cb hcb

theorem addFiltersOfClass_preserves (S : Store) (fuel : Nat) (oPtr : ObjectPtr)
    (P : ChainBuilder → Prop)
    (hP : ∀ m cb decl, P cb → P (AddMethodToCallChain S (some m) cb true decl))
    (c : ClassPtr) (filters : List Name) (st st1 : ChainBuilder × List Name) (hst : P st.1)
    (h : addFiltersOfClass S fuel oPtr c filters st = some st1) : P st1.1 := by
  unfold addFiltersOfClass at h
  refine foldlM_preserves (fun x : ChainBuilder × List Name => P x.1) _ ?_ filters st st1 hst h
  intro a s a1 ha hs
  by_cases hmem : s ∈ a.2
  · simp only [hmem, if_true, Option.some.injEq] at hs
    subst hs
    exact ha
  · simp only [hmem, if_false] at hs
    cases hb : AddSimpleChainToCallContext S fuel oPtr s a.1 true {} (some c) with
    | none => simp [hb] at hs
    | some cb1 =>
      simp only [hb, Option.map_some', Option.some.injEq] at hs
      subst hs
      exact simpleChain_preserves S fuel oPtr s true {} (some c) P (fun m cb => hP m cb _)
        a.1 cb1 ha hb

theorem AddClassFilters_succ (S : Store) (walkFuel : Nat) (oPtr : ObjectPtr) (fuel : Nat)
    (c : ClassPtr) (st : ChainBuilder × List Name) :
    AddClassFiltersToCallContext S walkFuel oPtr (fuel + 1) c st =
      (addFiltersOfClass S walkFuel oPtr c (S.classes c).filters st).bind fun st1 =>
        (S.classes c).superclasses.foldlM (fun st2 superPtr =>
          AddClassFiltersToCallContext S walkFuel oPtr fuel superPtr st2) st1 := by
  rw [AddClassFiltersToCallContext]
  cases hstep : addFiltersOfClass S walkFuel oPtr c (S.classes c).filters st with
  | none => rfl
  | some st1 =>
    simp only [Option.some_bind]
    cases hs : (S.classes c).superclasses with
    | nil => simp
    | cons s ss =>
      cases ss with
      | nil => simp
      | cons s2 ss2 => simp

theorem AddClassFilters_preserves (S : Store) (walkFuel : Nat) (oPtr : ObjectPtr)
    (P : ChainBuilder → Prop)
    (hP : ∀ m cb decl, P cb → P (AddMethodToCallChain S (some m) cb true decl)) :
    ∀ (fuel : Nat) (c : ClassPtr) (st st1 : ChainBuilder × List Name), P st.1 →
      AddClassFiltersToCallContext S walkFuel oPtr fuel c st = some st1 → P st1.1 := by
  intro fuel
  induction fuel with
  | zero => intro c st st1 _ h; simp [AddClassFiltersToCallContext] at h
  | succ fuel ih =>
    intro c st st1 hst h
    rw [AddClassFilters_succ] at h
    cases hf : addFiltersOfClass S walkFuel oPtr c (S.classes c).filters st with
    | none => simp [hf] at h
    | some st2 =>
      simp only [hf, Option.some_bind] at h
      have h2 : P st2.1 := addFiltersOfClass_preserves S walkFuel oPtr P hP c _ st st2 hst hf
      exact foldlM_preserves (fun x : ChainBuilder × List Name => P x.1) _
        (fun a s a1 ha hs => ih s a a1 ha hs) _ st2 st1 h2 h

theorem addAllFilters_preserves (S : Store) (fuel : Nat) (oPtr : ObjectPtr)
    (P : ChainBuilder → Prop)
    (hP : ∀ m cb decl, P cb → P (AddMethodToCallChain S (some m) cb true decl))
    (cb cb1 : ChainBuilder) (hcb : P cb) (h : addAllFilters S fuel oPtr cb = some cb1) :
    P cb1 := by
  unfold addAllFilters at h
  simp only at h
  cases h1 : List.foldlM (fun st mixinPtr =>
      AddClassFiltersToCallContext S fuel oPtr fuel mixinPtr st) (cb, [])
      (S.objects oPtr).mixins with
  | none => simp [h1] at h
  | some st1 =>
    have hp1 : P st1.1 :=
      foldlM_preserves (fun x : ChainBuilder × List Name => P x.1) _
        (fun a s a1 ha hs => AddClassFilters_preserves S fuel oPtr P hP fuel s a a1 ha hs)
        _ (cb, []) st1 hcb h1
    simp only [h1, Option.some_bind] at h
    cases h2 : List.foldlM (fun cb1 filterObj =>
        AddSimpleChainToCallContext S fuel oPtr filterObj cb1 true {} none) st1.1
        (S.objects oPtr).filters with
    | none => simp [h2] at h
    | some cb2 =>
      have hp2 : P cb2 :=
        foldlM_preserves P _
          (fun a s a1 ha hs =>
            simpleChain_preserves S fuel oPtr s true {} none P (fun m cb => hP m cb _) a a1 ha hs)
          _ st1.1 cb2 hp1 h2
      simp only [h2, Option.some_bind] at h
      cases h3 : AddClassFiltersToCallContext S fuel oPtr fuel (S.objects oPtr).selfCls
          (cb2, st1.2) with
      | none => simp [h3] at h
      | some st3 =>
        simp only [h3, Option.map_some', Option.some.injEq] at h
        subst h
        exact AddClassFilters_preserves S fuel oPtr P hP fuel _ (cb2, st1.2) st3 hp2 h3


theorem FilterPhaseInv_step (S : Store) (cb0 : ChainBuilder) (h0 : cb0.filterLength = 0)
    (m : MethodPtr) (cb : ChainBuilder) (decl : Option ClassPtr)
    (h : FilterPhaseInv S cb0 cb) :
    FilterPhaseInv S cb0 (AddMethodToCallChain S (some m) cb true decl) := by
  obtain ⟨X, hX, hall⟩ := h
  subst hX
  have h1 := AddMethodToCallChain_eq S m (withChain cb0 X) true decl [] X rfl h0
  rw [h1]
  by_cases hp : passesTests S (withChain cb0 X).contextPtr.flags
      (S.objects (withChain cb0 X).contextPtr.oPtr).selfCls m = true
  · rw [if_pos hp]
    refine ⟨sectionAdd X m true decl, rfl, ?_⟩
    intro e he
    rcases sectionAdd_mem X m true decl e he with h | h
    · exact hall e h
    · exact ⟨h.2, by rw [h.1]; exact hp⟩
  · rw [if_neg hp]
    exact ⟨X, rfl, hall⟩

/-! ## More fuel changes no answer -/

theorem foldlM_mono {α σ : Type} (g g1 : α → σ → Option α)
    (hg : ∀ a s a1, g a s = some a1 → g1 a s = some a1) :
    ∀ (ss : List σ) (a r : α), ss.foldlM g a = some r → ss.foldlM g1 a = some r := by
  intro ss
  induction ss with
  | nil => intro a r h; exact h
  | cons s ss ih =>
    intro a r h
    rw [List.foldlM_cons] at h ⊢
    cases hs : g a s with
    | none => simp [hs] at h
    | some a2 =>
      simp only [hs] at h
      rw [hg a s a2 hs]
      exact ih a2 r h

theorem collectEvents_mono {σ : Type} (ev ev1 : σ → Option (List MethodPtr))
    (h : ∀ s es, ev s = some es → ev1 s = some es) (ss : List σ) (acc r : List MethodPtr)
    (hr : collectEvents ev ss acc = some r) : collectEvents ev1 ss acc = some r := by
  unfold collectEvents at hr ⊢
  refine foldlM_mono _ _ ?_ ss acc r hr
  intro a s a1 hs
  cases he : ev s with
  | none => simp [he] at hs
  | some es =>
    rw [h s es he]
    simpa [he] using hs

theorem classChainEvents_mono (S : Store) (n : Name) :
    ∀ (fuel fuel1 : Nat) (c : ClassPtr) (flags : FlagWord) (es : List MethodPtr),
      fuel ≤ fuel1 → classChainEvents S n fuel c flags = some es →
      classChainEvents S n fuel1 c flags = some es := by
  intro fuel
  induction fuel with
  | zero => intro fuel1 c flags es _ h; simp [classChainEvents] at h
  | succ fuel ih =>
    intro fuel1 c flags es hle h
    cases fuel1 with
    | zero => omega
    | succ fuel1 =>
      rw [classChainEvents] at h ⊢
      cases hstep : classChainStep S n c flags with
      | none => simpa [hstep] using h
      | some p =>
        obtain ⟨mPtr, flags1⟩ := p
        simp only [hstep] at h ⊢
        exact collectEvents_mono _ _
          (fun s es1 hs => ih fuel1 s flags1 es1 (by omega) hs) _ _ _ h

theorem simpleChainEvents_mono (S : Store) (fuel fuel1 : Nat) (oPtr : ObjectPtr) (n : Name)
    (flags : FlagWord) (es : List MethodPtr) (hle : fuel ≤ fuel1)
    (h : simpleChainEvents S fuel oPtr n flags = some es) :
    simpleChainEvents S fuel1 oPtr n flags = some es := by
  unfold simpleChainEvents at h ⊢
  cases hp : simpleChainProbe S oPtr n flags with
  | none => simpa [hp] using h
  | some flags1 =>
    simp only [hp] at h ⊢
    by_cases hsp : flags1.SPECIAL = true
    · simp only [hsp, Bool.not_true, Bool.false_eq_true, if_false] at h ⊢
      exact classChainEvents_mono S n fuel fuel1 _ flags1 es hle h
    · simp only [hsp, Bool.not_false, if_true] at h ⊢
      cases h1 : collectEvents (fun c => classChainEvents S n fuel c flags1)
          (mixinWalkList S oPtr) [] with
      | none => simp [h1] at h
      | some e1 =>
        rw [collectEvents_mono _ (fun c => classChainEvents S n fuel1 c flags1)
          (fun s es1 hs => classChainEvents_mono S n fuel fuel1 s flags1 es1 hle hs) _ _ _ h1]
        simp only [h1, Option.some_bind] at h ⊢
        cases h2 : classChainEvents S n fuel (S.objects oPtr).selfCls flags1 with
        | none => simp [h2] at h
        | some e2 =>
          rw [classChainEvents_mono S n fuel fuel1 _ flags1 e2 hle h2]
          simpa [h2] using h

theorem AddSimpleChain_mono (S : Store) (fuel fuel1 : Nat) (oPtr : ObjectPtr) (n : Name)
    (cb : ChainBuilder) (dF : Bool) (flags : FlagWord) (decl : Option ClassPtr)
    (cb1 : ChainBuilder) (hle : fuel ≤ fuel1)
    (h : AddSimpleChainToCallContext S fuel oPtr n cb dF flags decl = some cb1) :
    AddSimpleChainToCallContext S fuel1 oPtr n cb dF flags decl = some cb1 := by
  rw [simpleChain_events] at h ⊢
  cases hes : simpleChainEvents S fuel oPtr n flags with
  | none => simp [hes] at h
  | some es =>
    rw [simpleChainEvents_mono S fuel fuel1 oPtr n flags es hle hes]
    simpa [hes] using h

theorem InitClassHierarchy_mono (F : Foundation) :
    ∀ (fuel fuel1 : Nat) (S : Store) (c : ClassPtr) (S1 : Store),
      fuel ≤ fuel1 → InitClassHierarchy F fuel S c = some S1 →
      InitClassHierarchy F fuel1 S c = some S1 := by
  intro fuel
  induction fuel with
  | zero => intro fuel1 S c S1 _ h; simp [InitClassHierarchy] at h
  | succ fuel ih =>
    intro fuel1 S c S1 hle h
    cases fuel1 with
    | zero => omega
    | succ fuel1 =>
      rw [InitClassHierarchy] at h ⊢
      by_cases hc : c = F.objectCls
      · simpa [hc] using h
      · simp only [hc, if_false] at h ⊢
        by_cases he : (S.classes c).classHierarchyEpoch ≠ F.epoch
        · simp only [he, if_true, ne_eq, not_false_eq_true] at h ⊢
          cases hf : List.foldlM (fun S1 superPtr => InitClassHierarchy F fuel S1 superPtr) S
              (S.classes c).superclasses with
          | none => simp [hf] at h
          | some S2 =>
            rw [foldlM_mono _ (fun S1 superPtr => InitClassHierarchy F fuel1 S1 superPtr)
              (fun a s a1 hs => ih fuel1 a s a1 (by omega) hs) _ _ _ hf]
            simpa [hf] using h
        · simpa [he] using h

theorem addFiltersOfClass_mono (S : Store) (fuel fuel1 : Nat) (oPtr : ObjectPtr) (c : ClassPtr)
    (filters : List Name) (st st1 : ChainBuilder × List Name) (hle : fuel ≤ fuel1)
    (h : addFiltersOfClass S fuel oPtr c filters st = some st1) :
    addFiltersOfClass S fuel1 oPtr c filters st = some st1 := by
  unfold addFiltersOfClass at h ⊢
  refine foldlM_mono _ _ ?_ filters st st1 h
  intro a s a1 hs
  by_cases hmem : s ∈ a.2
  · simpa [hmem] using hs
  · simp only [hmem, if_false] at hs ⊢
    cases hb : AddSimpleChainToCallContext S fuel oPtr s a.1 true {} (some c) with
    | none => simp [hb] at hs
    | some cb1 =>
      rw [AddSimpleChain_mono S fuel fuel1 oPtr s a.1 true {} (some c) cb1 hle hb]
      simpa [hb] using hs

theorem AddClassFilters_mono (S : Store) (wf wf1 : Nat) (oPtr : ObjectPtr) (hwf : wf ≤ wf1) :
    ∀ (fuel fuel1 : Nat) (c : ClassPtr) (st st1 : ChainBuilder × List Name),
      fuel ≤ fuel1 → AddClassFiltersToCallContext S wf oPtr fuel c st = some st1 →
      AddClassFiltersToCallContext S wf1 oPtr fuel1 c st = some st1 := by
  intro fuel
  induction fuel with
  | zero => intro fuel1 c st st1 _ h; simp [AddClassFiltersToCallContext] at h
  | succ fuel ih =>
    intro fuel1 c st st1 hle h
    cases fuel1 with
    | zero => omega
    | succ fuel1 =>
      rw [AddClassFilters_succ] at h ⊢
      cases hf : addFiltersOfClass S wf oPtr c (S.classes c).filters st with
      | none => simp [hf] at h
      | some st2 =>
        rw [addFiltersOfClass_mono S wf wf1 oPtr c _ st st2 hwf hf]
        simp only [hf, Option.some_bind] at h ⊢
        exact foldlM_mono _ _ (fun a s a1 hs => ih fuel1 s a a1 (by omega) hs) _ _ _ h

theorem addAllFilters_mono (S : Store) (fuel fuel1 : Nat) (oPtr : ObjectPtr)
    (cb cb1 : ChainBuilder) (hle : fuel ≤ fuel1)
    (h : addAllFilters S fuel oPtr cb = some cb1) :
    addAllFilters S fuel1 oPtr cb = some cb1 := by
  unfold addAllFilters at h ⊢
  simp only at h ⊢
  cases h1 : List.foldlM (fun st mixinPtr =>
      AddClassFiltersToCallContext S fuel oPtr fuel mixinPtr st) (cb, [])
      (S.objects oPtr).mixins with
  | none => simp [h1] at h
  | some st1 =>
    rw [foldlM_mono _ (fun st mixinPtr =>
      AddClassFiltersToCallContext S fuel1 oPtr fuel1 mixinPtr st)
      (fun a s a1 hs => AddClassFilters_mono S fuel fuel1 oPtr hle fuel fuel1 s a a1 hle hs)
      _ _ _ h1]
    simp only [h1, Option.some_bind] at h ⊢
    cases h2 : List.foldlM (fun cb1 filterObj =>
        AddSimpleChainToCallContext S fuel oPtr filterObj cb1 true {} none) st1.1
        (S.objects oPtr).filters with
    | none => simp [h2] at h
    | some cb2 =>
      rw [foldlM_mono _ (fun cb1 filterObj =>
        AddSimpleChainToCallContext S fuel1 oPtr filterObj cb1 true {} none)
        (fun a s a1 hs => AddSimpleChain_mono S fuel fuel1 oPtr s a true {} none a1 hle hs)
        _ _ _ h2]
      simp only [h2, Option.some_bind] at h ⊢
      cases h3 : AddClassFiltersToCallContext S fuel oPtr fuel (S.objects oPtr).selfCls
          (cb2, st1.2) with
      | none => simp [h3] at h
      | some st3 =>
        rw [AddClassFilters_mono S fuel fuel1 oPtr hle fuel fuel1 _ _ st3 hle h3]
        simpa [h3] using h

theorem buildCallContext_mono (fuel fuel1 : Nat) (F : Foundation) (S : Store) (oPtr : ObjectPtr)
    (n : Name) (flags : FlagWord) (doF : Bool) (cache : ContextCache) (r : GetResult)
    (hle : fuel ≤ fuel1) (h : buildCallContext fuel F S oPtr n flags doF cache = some r) :
    buildCallContext fuel1 F S oPtr n flags doF cache = some r := by
  unfold buildCallContext at h ⊢
  simp only at h ⊢
  cases hI : InitClassHierarchy F fuel S (S.objects oPtr).selfCls with
  | none => simp [hI] at h
  | some S1 =>
    rw [InitClassHierarchy_mono F fuel fuel1 S _ S1 hle hI]
    simp only [hI, Option.some_bind] at h ⊢
    cases hFl : (if doF = true then
        addAllFilters S1 fuel oPtr { contextPtr := newCallContext F S oPtr flags, filterLength := 0 }
        else some { contextPtr := newCallContext F S oPtr flags, filterLength := 0 }) with
    | none => simp [hFl] at h
    | some cbF =>
      have hFl1 : (if doF = true then
          addAllFilters S1 fuel1 oPtr
            { contextPtr := newCallContext F S oPtr flags, filterLength := 0 }
          else some { contextPtr := newCallContext F S oPtr flags, filterLength := 0 })
            = some cbF := by
        cases doF with
        | true => exact addAllFilters_mono S1 fuel fuel1 oPtr _ cbF hle (by simpa using hFl)
        | false => simpa using hFl
      rw [hFl1]
      simp only [hFl, Option.some_bind] at h ⊢
      cases h2 : AddSimpleChainToCallContext S1 fuel oPtr n
          { contextPtr := cbF.contextPtr, filterLength := cbF.numCallChain } false flags none with
      | none => simp [h2] at h
      | some cb2 =>
        rw [AddSimpleChain_mono S1 fuel fuel1 oPtr n _ false flags none cb2 hle h2]
        simp only [h2, Option.some_bind] at h ⊢
        by_cases hcount : cbF.numCallChain = cb2.numCallChain
        · simp only [hcount, if_true] at h ⊢
          by_cases hsp : flags.SPECIAL = true
          · simpa [hsp] using h
          · simp only [hsp, if_false, Bool.false_eq_true] at h ⊢
            cases h3 : AddSimpleChainToCallContext S1 fuel oPtr F.unknownMethodNameObj cb2
                false {} none with
            | none => simp [h3] at h
            | some cb3 =>
              rw [AddSimpleChain_mono S1 fuel fuel1 oPtr _ cb2 false {} none cb3 hle h3]
              simpa [h3] using h
        · simpa [hcount] using h

/-- An answer of `TclOOGetCallContext` does not change when more fuel is given. -/
theorem TclOOGetCallContext_mono (fuel fuel1 : Nat) (F : Foundation) (S : Store)
    (oPtr : ObjectPtr) (n : Name) (flags : FlagWord) (cache : ContextCache) (r : GetResult)
    (hle : fuel ≤ fuel1) (h : TclOOGetCallContext fuel F S oPtr n flags cache = some r) :
    TclOOGetCallContext fuel1 F S oPtr n flags cache = some r := by
  unfold TclOOGetCallContext at h ⊢
  split
  · rename_i hd
    rw [if_pos hd] at h
    exact buildCallContext_mono fuel fuel1 F S oPtr n flags _ cache r hle h
  · rename_i hd
    rw [if_neg hd] at h
    split
    · rename_i c hc
      simp only [hc] at h
      split
      · rename_i hv
        simpa [hv] using h
      · rename_i hv
        simp only [hv, if_false] at h
        exact buildCallContext_mono fuel fuel1 F S oPtr n flags _ _ r hle h
    · rename_i x hx
      have : (match cache n with
          | some (some c) =>
            if c.globalEpoch = F.epoch ∧ c.localEpoch = (S.objects oPtr).epoch then
              some { store := S, cache := cache.set n none, context := some c }
            else buildCallContext fuel F S oPtr n flags true (cache.set n none)
          | _ => buildCallContext fuel F S oPtr n flags true cache) =
          buildCallContext fuel F S oPtr n flags true cache := by
        split
        · rename_i c hc
          exact absurd hc (hx c)
        · rfl
      rw [this] at h
      exact buildCallContext_mono fuel fuel1 F S oPtr n flags _ _ r hle h

/-! ## Enough fuel gives an answer when the superclass graph has no cycle -/

theorem foldlM_total {α σ : Type} (Q : α → Prop) (g : α → σ → Option α) :
    ∀ (ss : List σ) (a : α),
      (∀ a s, s ∈ ss → Q a → ∃ a1, g a s = some a1 ∧ Q a1) → Q a →
      ∃ r, ss.foldlM g a = some r ∧ Q r := by
  intro ss
  induction ss with
  | nil => intro a _ ha; exact ⟨a, rfl, ha⟩
  | cons s ss ih =>
    intro a hstep ha
    obtain ⟨a1, hs, ha1⟩ := hstep a s (List.mem_cons_self _ _) ha
    obtain ⟨r, hr, hq⟩ := ih a1 (fun a s hs hq => hstep a s (List.mem_cons_of_mem _ hs) hq) ha1
    exact ⟨r, by rw [List.foldlM_cons, hs]; exact hr, hq⟩

theorem collectEvents_total {σ : Type} (ev : σ → Option (List MethodPtr)) (ss : List σ)
    (acc : List MethodPtr) (h : ∀ s ∈ ss, ∃ es, ev s = some es) :
    ∃ r, collectEvents ev ss acc = some r := by
  unfold collectEvents
  obtain ⟨r, hr, _⟩ := foldlM_total (fun _ => True)
    (fun acc1 s => (ev s).map (fun es => acc1 ++ es)) ss acc
    (fun a s hs _ => by
      obtain ⟨es, he⟩ := h s hs
      exact ⟨a ++ es, by simp [he], trivial⟩) trivial
  exact ⟨r, hr⟩

theorem classChainEvents_total (S : Store) (n : Name) (rank : ClassPtr → Nat)
    (hrank : ∀ X Y, superOf S X Y → rank Y < rank X) :
    ∀ (fuel : Nat) (c : ClassPtr) (flags : FlagWord), rank c < fuel →
      ∃ es, classChainEvents S n fuel c flags = some es := by
  intro fuel
  induction fuel with
  | zero => intro c flags h; omega
  | succ fuel ih =>
    intro c flags h
    rw [classChainEvents]
    cases hstep : classChainStep S n c flags with
    | none => exact ⟨[], rfl⟩
    | some p =>
      obtain ⟨mPtr, flags1⟩ := p
      simp only
      apply collectEvents_total
      intro s hs
      exact ih s flags1 (by have := hrank c s hs; omega)

theorem simpleChainEvents_total (S : Store) (fuel : Nat) (oPtr : ObjectPtr) (n : Name)
    (flags : FlagWord) (rank : ClassPtr → Nat)
    (hrank : ∀ X Y, superOf S X Y → rank Y < rank X)
    (hfuel : ∀ c ∈ mixinWalkList S oPtr ++ [(S.objects oPtr).selfCls], rank c < fuel) :
    ∃ es, simpleChainEvents S fuel oPtr n flags = some es := by
  unfold simpleChainEvents
  cases hp : simpleChainProbe S oPtr n flags with
  | none => exact ⟨[], rfl⟩
  | some flags1 =>
    simp only
    obtain ⟨e2, he2⟩ := classChainEvents_total S n rank hrank fuel (S.objects oPtr).selfCls flags1
      (hfuel _ (by simp))
    by_cases hsp : flags1.SPECIAL = true
    · simp only [hsp, Bool.not_true, Bool.false_eq_true, if_false]
      exact ⟨e2, he2⟩
    · simp only [hsp, Bool.not_false, if_true]
      obtain ⟨e1, he1⟩ := collectEvents_total
        (fun c => classChainEvents S n fuel c flags1) (mixinWalkList S oPtr) []
        (fun s hs => classChainEvents_total S n rank hrank fuel s flags1
          (hfuel s (List.mem_append_left _ hs)))
      rw [he1, he2]
      exact ⟨_, rfl⟩

theorem AddSimpleChain_total (S : Store) (fuel : Nat) (oPtr : ObjectPtr) (n : Name)
    (cb : ChainBuilder) (dF : Bool) (flags : FlagWord) (decl : Option ClassPtr)
    (rank : ClassPtr → Nat) (hrank : ∀ X Y, superOf S X Y → rank Y < rank X)
    (hfuel : ∀ c ∈ mixinWalkList S oPtr ++ [(S.objects oPtr).selfCls], rank c < fuel) :
    ∃ cb1, AddSimpleChainToCallContext S fuel oPtr n cb dF flags decl = some cb1 := by
  rw [simpleChain_events]
  obtain ⟨es, hes⟩ := simpleChainEvents_total S fuel oPtr n flags rank hrank hfuel
  rw [hes]
  exact ⟨_, rfl⟩

theorem InitClassHierarchy_total (F : Foundation) (S0 : Store) (rank : ClassPtr → Nat)
    (hrank : ∀ X Y, superOf S0 X Y → rank Y < rank X) :
    ∀ (fuel : Nat) (S : Store) (c : ClassPtr), SameButHierarchy S0 S → rank c < fuel →
      ∃ S1, InitClassHierarchy F fuel S c = some S1 := by
  intro fuel
  induction fuel with
  | zero => intro S c _ h; omega
  | succ fuel ih =>
    intro S c hS h
    rw [InitClassHierarchy]
    by_cases hc : c = F.objectCls
    · exact ⟨S, by simp [hc]⟩
    · simp only [hc, if_false]
      by_cases he : (S.classes c).classHierarchyEpoch ≠ F.epoch
      · simp only [he, if_true, ne_eq, not_false_eq_true]
        obtain ⟨S2, hS2, _⟩ := foldlM_total (fun X => SameButHierarchy S0 X)
          (fun S1 superPtr => InitClassHierarchy F fuel S1 superPtr)
          (S.classes c).superclasses S
          (fun a s hs ha => by
            have hsup : superOf S0 c s := by
              unfold superOf
              rw [← hS.superclasses c]
              exact hs
            obtain ⟨a1, ha1⟩ := ih a s ha (by have := hrank c s hsup; omega)
            exact ⟨a1, ha1, ha.trans (InitClassHierarchy_frame F fuel a s a1 ha1)⟩) hS
        rw [hS2]
        simp only
        split
        · exact ⟨_, rfl⟩
        · exact ⟨_, rfl⟩
      · exact ⟨S, by simp [he]⟩

theorem addFiltersOfClass_total (S : Store) (fuel : Nat) (oPtr : ObjectPtr) (c : ClassPtr)
    (filters : List Name) (st : ChainBuilder × List Name)
    (hw : ∀ n cb dF flags decl,
      ∃ cb1, AddSimpleChainToCallContext S fuel oPtr n cb dF flags decl = some cb1) :
    ∃ st1, addFiltersOfClass S fuel oPtr c filters st = some st1 := by
  unfold addFiltersOfClass
  obtain ⟨r, hr, _⟩ := foldlM_total (fun _ => True)
    (fun (st1 : ChainBuilder × List Name) filterObj =>
      if filterObj ∈ st1.2 then some st1
      else
        (AddSimpleChainToCallContext S fuel oPtr filterObj st1.1 true {} (some c)).map
          fun cb1 => (cb1, filterObj :: st1.2)) filters st
    (fun a s _ _ => by
      by_cases hmem : s ∈ a.2
      · exact ⟨a, by simp [hmem], trivial⟩
      · obtain ⟨cb1, h1⟩ := hw s a.1 true {} (some c)
        exact ⟨(cb1, s :: a.2), by simp [hmem, h1], trivial⟩) trivial
  exact ⟨r, hr⟩

theorem AddClassFilters_total (S : Store) (wf : Nat) (oPtr : ObjectPtr) (rank : ClassPtr → Nat)
    (hrank : ∀ X Y, superOf S X Y → rank Y < rank X)
    (hw : ∀ n cb dF flags decl,
      ∃ cb1, AddSimpleChainToCallContext S wf oPtr n cb dF flags decl = some cb1) :
    ∀ (fuel : Nat) (c : ClassPtr) (st : ChainBuilder × List Name), rank c < fuel →
      ∃ st1, AddClassFiltersToCallContext S wf oPtr fuel c st = some st1 := by
  intro fuel
  induction fuel with
  | zero => intro c st h; omega
  | succ fuel ih =>
    intro c st h
    rw [AddClassFilters_succ]
    obtain ⟨st1, h1⟩ := addFiltersOfClass_total S wf oPtr c (S.classes c).filters st hw
    rw [h1]
    simp only [Option.some_bind]
    obtain ⟨r, hr, _⟩ := foldlM_total (fun _ => True)
      (fun st2 superPtr => AddClassFiltersToCallContext S wf oPtr fuel superPtr st2)
      (S.classes c).superclasses st1
      (fun a s hs _ => by
        obtain ⟨a1, ha1⟩ := ih s a (by have := hrank c s hs; omega)
        exact ⟨a1, ha1, trivial⟩) trivial
    exact ⟨r, hr⟩

theorem addAllFilters_total (S : Store) (fuel : Nat) (oPtr : ObjectPtr) (cb : ChainBuilder)
    (rank : ClassPtr → Nat) (hrank : ∀ X Y, superOf S X Y → rank Y < rank X)
    (hw : ∀ n cb dF flags decl,
      ∃ cb1, AddSimpleChainToCallContext S fuel oPtr n cb dF flags decl = some cb1)
    (hfuel : ∀ c ∈ (S.objects oPtr).mixins ++ [(S.objects oPtr).selfCls], rank c < fuel) :
    ∃ cb1, addAllFilters S fuel oPtr cb = some cb1 := by
  unfold addAllFilters
  simp only
  obtain ⟨st1, h1, _⟩ := foldlM_total (fun _ => True)
    (fun st mixinPtr => AddClassFiltersToCallContext S fuel oPtr fuel mixinPtr st)
    (S.objects oPtr).mixins (cb, [])
    (fun a s hs _ => by
      obtain ⟨a1, ha1⟩ := AddClassFilters_total S fuel oPtr rank hrank hw fuel s a
        (hfuel s (List.mem_append_left _ hs))
      exact ⟨a1, ha1, trivial⟩) trivial
  rw [h1]
  simp only [Option.some_bind]
  obtain ⟨cb2, h2, _⟩ := foldlM_total (fun _ => True)
    (fun cb1 filterObj => AddSimpleChainToCallContext S fuel oPtr filterObj cb1 true {} none)
    (S.objects oPtr).filters st1.1
    (fun a s _ _ => by
      obtain ⟨a1, ha1⟩ := hw s a true {} none
      exact ⟨a1, ha1, trivial⟩) trivial
  rw [h2]
  simp only [Option.some_bind]
  obtain ⟨st3, h3⟩ := AddClassFilters_total S fuel oPtr rank hrank hw fuel
    (S.objects oPtr).selfCls (cb2, st1.2) (hfuel _ (by simp))
  rw [h3]
  exact ⟨_, rfl⟩

theorem buildCallContext_total (fuel : Nat) (F : Foundation) (S S1 : Store) (oPtr : ObjectPtr)
    (n : Name) (flags : FlagWord) (doF : Bool) (cache : ContextCache)
    (hI : InitClassHierarchy F fuel S (S.objects oPtr).selfCls = some S1)
    (hF : ∀ cb, ∃ cb1, addAllFilters S1 fuel oPtr cb = some cb1)
    (hw : ∀ n cb dF flags decl,
      ∃ cb1, AddSimpleChainToCallContext S1 fuel oPtr n cb dF flags decl = some cb1) :
    ∃ r, buildCallContext fuel F S oPtr n flags doF cache = some r := by
  unfold buildCallContext
  simp only [hI, Option.some_bind]
  have hFl : ∃ cbF, (if doF = true then
      addAllFilters S1 fuel oPtr { contextPtr := newCallContext F S oPtr flags, filterLength := 0 }
      else some { contextPtr := newCallContext F S oPtr flags, filterLength := 0 })
        = some cbF := by
    cases doF with
    | true => simpa using hF _
    | false => exact ⟨_, rfl⟩
  obtain ⟨cbF, hcbF⟩ := hFl
  rw [hcbF]
  simp only [Option.some_bind]
  obtain ⟨cb2, h2⟩ := hw n { contextPtr := cbF.contextPtr, filterLength := cbF.numCallChain }
    false flags none
  rw [h2]
  simp only [Option.some_bind]
  by_cases hcount : cbF.numCallChain = cb2.numCallChain
  · simp only [hcount, if_true]
    by_cases hsp : flags.SPECIAL = true
    · simp only [hsp, if_true]
      exact ⟨_, rfl⟩
    · simp only [hsp, if_false, Bool.false_eq_true]
      obtain ⟨cb3, h3⟩ := hw F.unknownMethodNameObj cb2 false {} none
      rw [h3]
      simp only [Option.some_bind]
      split
      · exact ⟨_, rfl⟩
      · exact ⟨_, rfl⟩
  · simp only [hcount, if_false]
    split
    · exact ⟨_, rfl⟩
    · exact ⟨_, rfl⟩

theorem list_rank_bound (rank : ClassPtr → Nat) (l : List ClassPtr) :
    ∃ B, ∀ c ∈ l, rank c < B := by
  induction l with
  | nil => exact ⟨0, by simp⟩
  | cons c l ih =>
    obtain ⟨B, hB⟩ := ih
    refine ⟨max B (rank c + 1), ?_⟩
    intro x hx
    rcases List.mem_cons.1 hx with h | h
    · subst h
      omega
    · have := hB x h
      omega

/-- With an acyclic superclass graph, `TclOOGetCallContext` answers for every
fuel from some bound on. -/
theorem TclOOGetCallContext_total (F : Foundation) (S : Store) (oPtr : ObjectPtr) (n : Name)
    (flags : FlagWord) (cache : ContextCache) (hac : Acyclic S) :
    ∃ N, ∀ fuel, N ≤ fuel → ∃ r, TclOOGetCallContext fuel F S oPtr n flags cache = some r := by
  obtain ⟨rank, hrank⟩ := hac
  obtain ⟨S1, hS1⟩ := InitClassHierarchy_total F S rank hrank (rank (S.objects oPtr).selfCls + 1)
    S (S.objects oPtr).selfCls (SameButHierarchy.refl S) (by omega)
  have hsame := InitClassHierarchy_frame F _ S _ S1 hS1
  have hrank1 : ∀ X Y, superOf S1 X Y → rank Y < rank X := by
    intro X Y h
    apply hrank X Y
    unfold superOf at h ⊢
    rw [← hsame.superclasses X]
    exact h
  obtain ⟨B, hB⟩ := list_rank_bound rank
    ((S1.objects oPtr).mixins ++ mixinWalkList S1 oPtr ++ [(S1.objects oPtr).selfCls])
  refine ⟨max (rank (S.objects oPtr).selfCls + 1) B, ?_⟩
  intro fuel hfuel
  have hI : InitClassHierarchy F fuel S (S.objects oPtr).selfCls = some S1 :=
    InitClassHierarchy_mono F _ fuel S _ S1 (by omega) hS1
  have hw : ∀ n cb dF flags decl,
      ∃ cb1, AddSimpleChainToCallContext S1 fuel oPtr n cb dF flags decl = some cb1 := by
    intro n cb dF flags decl
    apply AddSimpleChain_total S1 fuel oPtr n cb dF flags decl rank hrank1
    intro c hc
    have := hB c (by
      simp only [List.mem_append, List.mem_singleton] at hc ⊢
      rcases hc with hc | hc
      · exact Or.inl (Or.inr hc)
      · exact Or.inr hc)
    omega
  have hF : ∀ cb, ∃ cb1, addAllFilters S1 fuel oPtr cb = some cb1 := by
    intro cb
    apply addAllFilters_total S1 fuel oPtr cb rank hrank1 hw
    intro c hc
    have := hB c (by
      simp only [List.mem_append, List.mem_singleton] at hc ⊢
      rcases hc with hc | hc
      · exact Or.inl (Or.inl hc)
      · exact Or.inr hc)
    omega
  have hbuild : ∀ doF cache1, ∃ r, buildCallContext fuel F S oPtr n flags doF cache1 = some r :=
    fun doF cache1 => buildCallContext_total fuel F S S1 oPtr n flags doF cache1 hI hF hw
  unfold TclOOGetCallContext
  split
  · exact hbuild _ _
  · split
    · split
      · exact ⟨_, rfl⟩
      · exact hbuild _ _
    · exact hbuild _ _

/-! ## The construction of a context, phase by phase -/

theorem entriesOf_eq_nil (S : Store) (ctxFlags : FlagWord) (selfCls : ClassPtr)
    (es : List MethodPtr) :
    entriesOf S ctxFlags selfCls es = [] ↔ es.filter (passesTests S ctxFlags selfCls) = [] := by
  unfold entriesOf
  constructor
  · intro h
    rcases List.eq_nil_or_concat (es.filter (passesTests S ctxFlags selfCls)) with h1 | ⟨l, m, h1⟩
    · exact h1
    · rw [h1, List.concat_eq_append, List.foldl_append] at h
      simp only [List.foldl_cons, List.foldl_nil] at h
      exact absurd h (sectionAdd_ne_nil _ _ _ _)
  · intro h
    rw [h]
    rfl

/-- The simple chain build on a builder whose chain is all skipped. -/
theorem simpleChain_on_skipped (S : Store) (fuel : Nat) (oPtr : ObjectPtr) (n : Name)
    (flags : FlagWord) (cb : ChainBuilder) (hfl : cb.filterLength = cb.contextPtr.callChain.length) :
    AddSimpleChainToCallContext S fuel oPtr n cb false flags none =
      (simpleChainEvents S fuel oPtr n flags).map fun es =>
        withChain cb (cb.contextPtr.callChain ++
          entriesOf S cb.contextPtr.flags (S.objects cb.contextPtr.oPtr).selfCls es) := by
  rw [simpleChain_events]
  cases simpleChainEvents S fuel oPtr n flags with
  | none => rfl
  | some es =>
    simp only [Option.map_some', Option.some.injEq]
    exact addAll_withChain S false none es cb cb.contextPtr.callChain [] (by simp) hfl

theorem buildCallContext_spec (fuel : Nat) (F : Foundation) (S : Store) (oPtr : ObjectPtr)
    (n : Name) (flags : FlagWord) (doF : Bool) (cache : ContextCache) (r : GetResult)
    (h : buildCallContext fuel F S oPtr n flags doF cache = some r) :
    ∃ (S1 : Store) (pre : List MInvoke) (es1 : List MethodPtr),
      InitClassHierarchy F fuel S (S.objects oPtr).selfCls = some S1 ∧ r.store = S1 ∧
      (if doF = true then addAllFilters S1 fuel oPtr (emptyBuilder F S oPtr flags)
        else some (emptyBuilder F S oPtr flags))
          = some (withChain (emptyBuilder F S oPtr flags) pre) ∧
      (∀ e ∈ pre, e.isFilter = true ∧
        passesTests S1 flags.callBits (S1.objects oPtr).selfCls e.mPtr = true) ∧
      simpleChainEvents S1 fuel oPtr n flags = some es1 ∧
      ((entriesOf S1 flags.callBits (S1.objects oPtr).selfCls es1 ≠ [] ∧
          r.context = some { newCallContext F S oPtr flags with
            callChain := pre ++ entriesOf S1 flags.callBits (S1.objects oPtr).selfCls es1 } ∧
          r.cache = (if doF = true then cache.set n none else cache)) ∨
        (entriesOf S1 flags.callBits (S1.objects oPtr).selfCls es1 = [] ∧
          flags.SPECIAL = true ∧ r.context = none ∧ r.cache = cache) ∨
        (entriesOf S1 flags.callBits (S1.objects oPtr).selfCls es1 = [] ∧
          flags.SPECIAL = false ∧ r.cache = cache ∧
          ∃ es2, simpleChainEvents S1 fuel oPtr F.unknownMethodNameObj {} = some es2 ∧
            ((entriesOf S1 flags.callBits (S1.objects oPtr).selfCls es2 = [] ∧
                r.context = none) ∨
              (entriesOf S1 flags.callBits (S1.objects oPtr).selfCls es2 ≠ [] ∧
                r.context = some { newCallContext F S oPtr flags with
                  flags := { flags.callBits with OO_UNKNOWN_METHOD := true },
                  globalEpoch := -1,
                  callChain :=
                    pre ++ entriesOf S1 flags.callBits (S1.objects oPtr).selfCls es2 })))) := by
  unfold buildCallContext at h
  simp only at h
  cases hI : InitClassHierarchy F fuel S (S.objects oPtr).selfCls with
  | none => simp [hI] at h
  | some S1 =>
    simp only [hI, Option.some_bind] at h
    have hfold : emptyBuilder F S oPtr flags =
        { contextPtr := newCallContext F S oPtr flags, filterLength := 0 } := rfl
    rw [← hfold] at h
    cases hFl : (if doF = true then addAllFilters S1 fuel oPtr (emptyBuilder F S oPtr flags)
        else some (emptyBuilder F S oPtr flags)) with
    | none => simp [hFl] at h
    | some cbF =>
      simp only [hFl, Option.some_bind] at h
      have hinv : FilterPhaseInv S1 (emptyBuilder F S oPtr flags) cbF := by
        by_cases hd : doF = true
        · simp only [hd, if_true] at hFl
          exact addAllFilters_preserves S1 fuel oPtr _
            (fun m cb decl hcb => FilterPhaseInv_step S1 _ rfl m cb decl hcb) _ cbF
            ⟨[], rfl, by simp⟩ hFl
        · simp only [hd, if_false, Option.some.injEq, Bool.false_eq_true] at hFl
          subst hFl
          exact ⟨[], rfl, by simp⟩
      obtain ⟨pre, hpre, hall⟩ := hinv
      subst hpre
      have hcb1 := simpleChain_on_skipped S1 fuel oPtr n flags
        { contextPtr := (withChain (emptyBuilder F S oPtr flags) pre).contextPtr,
          filterLength := (withChain (emptyBuilder F S oPtr flags) pre).numCallChain } rfl
      rw [hcb1] at h
      cases hes1 : simpleChainEvents S1 fuel oPtr n flags with
      | none => simp [hes1] at h
      | some es1 =>
        simp only [hes1, Option.map_some', Option.some_bind] at h
        have h1 : (if pre.length =
              (pre ++ entriesOf S1 flags.callBits (S1.objects oPtr).selfCls es1).length then
            if flags.SPECIAL = true then
              some ({ store := S1, cache := cache, context := none } : GetResult)
            else
              (AddSimpleChainToCallContext S1 fuel oPtr F.unknownMethodNameObj
                { contextPtr := { newCallContext F S oPtr flags with
                    callChain := pre ++ entriesOf S1 flags.callBits (S1.objects oPtr).selfCls es1 },
                  filterLength := pre.length } false {} none).bind fun a =>
                if pre.length = a.numCallChain then
                  some ({ store := S1, cache := cache, context := none } : GetResult)
                else
                  some { store := S1, cache := cache,
                         context := some { a.contextPtr with
                           flags := { a.contextPtr.flags with OO_UNKNOWN_METHOD := true },
                           globalEpoch := -1 } }
          else if doF = true then
            some { store := S1, cache := cache.set n none,
                   context := some { newCallContext F S oPtr flags with
                     callChain :=
                       pre ++ entriesOf S1 flags.callBits (S1.objects oPtr).selfCls es1 } }
          else
            some { store := S1, cache := cache,
                   context := some { newCallContext F S oPtr flags with
                     callChain :=
                       pre ++ entriesOf S1 flags.callBits (S1.objects oPtr).selfCls es1 } })
            = some r := h
        clear h hcb1
        by_cases hsec : entriesOf S1 flags.callBits (S1.objects oPtr).selfCls es1 = []
        · rw [hsec] at h1
          simp only [List.append_nil, if_true] at h1
          by_cases hsp : flags.SPECIAL = true
          · simp only [hsp, if_true, Option.some.injEq] at h1
            subst h1
            exact ⟨S1, pre, es1, rfl, rfl, hFl, hall, hes1, Or.inr (Or.inl ⟨hsec, hsp, rfl, rfl⟩)⟩
          · simp only [hsp, if_false, Bool.false_eq_true] at h1
            have hcb2 := simpleChain_on_skipped S1 fuel oPtr F.unknownMethodNameObj {}
              { contextPtr := { newCallContext F S oPtr flags with callChain := pre },
                filterLength := pre.length } rfl
            rw [hcb2] at h1
            cases hes2 : simpleChainEvents S1 fuel oPtr F.unknownMethodNameObj {} with
            | none => simp [hes2] at h1
            | some es2 =>
              simp only [hes2, Option.map_some', Option.some_bind] at h1
              have h2 : (if pre.length =
                    (pre ++ entriesOf S1 flags.callBits (S1.objects oPtr).selfCls es2).length then
                  some ({ store := S1, cache := cache, context := none } : GetResult)
                else
                  some { store := S1, cache := cache,
                         context := some { newCallContext F S oPtr flags with
                           flags := { flags.callBits with OO_UNKNOWN_METHOD := true },
                           globalEpoch := -1,
                           callChain :=
                             pre ++ entriesOf S1 flags.callBits (S1.objects oPtr).selfCls es2 } })
                  = some r := h1
              clear h1 hcb2
              have hsp1 : flags.SPECIAL = false := by simpa using hsp
              by_cases hsec2 : entriesOf S1 flags.callBits (S1.objects oPtr).selfCls es2 = []
              · rw [hsec2] at h2
                simp only [List.append_nil, if_true, Option.some.injEq] at h2
                subst h2
                exact ⟨S1, pre, es1, rfl, rfl, hFl, hall, hes1,
                  Or.inr (Or.inr ⟨hsec, hsp1, rfl, es2, hes2, Or.inl ⟨hsec2, rfl⟩⟩)⟩
              · have hlen : ¬ pre.length =
                    (pre ++ entriesOf S1 flags.callBits (S1.objects oPtr).selfCls es2).length := by
                  intro hl
                  rw [List.length_append] at hl
                  exact hsec2 (List.length_eq_zero.1 (by omega))
                simp only [hlen, if_false, Option.some.injEq] at h2
                subst h2
                exact ⟨S1, pre, es1, rfl, rfl, hFl, hall, hes1,
                  Or.inr (Or.inr ⟨hsec, hsp1, rfl, es2, hes2, Or.inr ⟨hsec2, rfl⟩⟩)⟩
        · have hlen : ¬ pre.length =
              (pre ++ entriesOf S1 flags.callBits (S1.objects oPtr).selfCls es1).length := by
            intro hl
            rw [List.length_append] at hl
            exact hsec (List.length_eq_zero.1 (by omega))
          simp only [hlen, if_false] at h1
          cases doF with
          | true =>
            simp only [if_true, Option.some.injEq] at h1
            subst h1
            exact ⟨S1, pre, es1, rfl, rfl, hFl, hall, hes1, Or.inl ⟨hsec, rfl, by simp⟩⟩
          | false =>
            simp only [if_false, Option.some.injEq, Bool.false_eq_true] at h1
            subst h1
            exact ⟨S1, pre, es1, rfl, rfl, hFl, hall, hes1, Or.inl ⟨hsec, rfl, by simp⟩⟩

/-! ## The shape of a freshly built chain -/

theorem foldl_sectionAdd_props (l : List MethodPtr) :
    ∀ sec : List MInvoke, (∀ e ∈ sec, e.isFilter = false) →
      (∀ e ∈ l.foldl (fun sec1 m => sectionAdd sec1 m false none) sec,
        e.isFilter = false ∧ (e ∈ sec ∨ e.mPtr ∈ l)) ∧
      (l.foldl (fun sec1 m => sectionAdd sec1 m false none) sec).map (fun e => e.mPtr) =
        l.foldl pushLate (sec.map fun e => e.mPtr) := by
  induction l with
  | nil =>
    intro sec hu
    exact ⟨fun e he => ⟨hu e he, Or.inl he⟩, rfl⟩
  | cons m l ih =>
    intro sec hu
    have hu1 := sectionAdd_uniform sec m false none hu
    obtain ⟨h1, h2⟩ := ih (sectionAdd sec m false none) hu1
    constructor
    · intro e he
      obtain ⟨hf, hm⟩ := h1 e he
      refine ⟨hf, ?_⟩
      rcases hm with hm | hm
      · rcases sectionAdd_mem sec m false none e hm with h | h
        · exact Or.inl h
        · exact Or.inr (by rw [h.1]; exact List.mem_cons_self _ _)
      · exact Or.inr (List.mem_cons_of_mem _ hm)
    · simp only [List.foldl_cons]
      rw [h2, sectionAdd_map_mPtr sec m false none hu]

theorem entriesOf_mem (S : Store) (ctxFlags : FlagWord) (selfCls : ClassPtr)
    (es : List MethodPtr) (e : MInvoke) (he : e ∈ entriesOf S ctxFlags selfCls es) :
    e.isFilter = false ∧ e.mPtr ∈ es ∧ passesTests S ctxFlags selfCls e.mPtr = true := by
  obtain ⟨hf, hm⟩ := (foldl_sectionAdd_props (es.filter (passesTests S ctxFlags selfCls)) []
    (by simp)).1 e he
  rcases hm with hm | hm
  · simp at hm
  · exact ⟨hf, (List.mem_filter.1 hm).1, (List.mem_filter.1 hm).2⟩

theorem entriesOf_map_mPtr (S : Store) (ctxFlags : FlagWord) (selfCls : ClassPtr)
    (es : List MethodPtr) :
    (entriesOf S ctxFlags selfCls es).map (fun e => e.mPtr) =
      (es.filter (passesTests S ctxFlags selfCls)).foldl pushLate [] :=
  (foldl_sectionAdd_props (es.filter (passesTests S ctxFlags selfCls)) [] (by simp)).2

theorem pushLate_nodup (l : List MethodPtr) (m : MethodPtr) (h : l.Nodup) :
    (pushLate l m).Nodup := by
  unfold pushLate
  rw [List.nodup_append]
  refine ⟨h.erase m, List.nodup_singleton m, ?_⟩
  intro x hx hx1
  rw [List.mem_singleton] at hx1
  subst hx1
  exact (List.Nodup.not_mem_erase h) hx

theorem foldl_pushLate_nodup (es : List MethodPtr) :
    ∀ l : List MethodPtr, l.Nodup → (es.foldl pushLate l).Nodup := by
  induction es with
  | nil => intro l h; exact h
  | cons m es ih => intro l h; exact ih _ (pushLate_nodup l m h)

theorem entriesOf_nodup (S : Store) (ctxFlags : FlagWord) (selfCls : ClassPtr)
    (es : List MethodPtr) :
    ((entriesOf S ctxFlags selfCls es).map fun e => e.mPtr).Nodup := by
  rw [entriesOf_map_mPtr]
  exact foldl_pushLate_nodup _ [] List.nodup_nil

/-- When no cached context is handed back, `TclOOGetCallContext` is the
construction of a context. -/
theorem getCallContext_builds (fuel : Nat) (F : Foundation) (S : Store) (oPtr : ObjectPtr)
    (n : Name) (flags : FlagWord) (cache : ContextCache)
    (hb : BuildsContext F S oPtr n flags cache) :
    ∃ cache1, (cache1 = cache ∨ (cache1 = cache.set n none ∧ ∃ c, cache n = some (some c))) ∧
      (doFiltersOf S oPtr flags = false → cache1 = cache) ∧
      TclOOGetCallContext fuel F S oPtr n flags cache =
        buildCallContext fuel F S oPtr n flags (doFiltersOf S oPtr flags) cache1 := by
  unfold TclOOGetCallContext
  by_cases hd : (flags.SPECIAL || flags.FILTER_HANDLING ||
      (S.objects oPtr).flags.FILTER_HANDLING) = true
  · have hdo : doFiltersOf S oPtr flags = false := by simp [doFiltersOf, hd]
    rw [if_pos hd, hdo]
    exact ⟨cache, Or.inl rfl, fun _ => rfl, rfl⟩
  · have hdo : doFiltersOf S oPtr flags = true := by
      simp only [doFiltersOf]
      simpa using hd
    rw [if_neg hd, hdo]
    rcases hb with hb | hb
    · rw [hdo] at hb
      cases hb
    · cases hc : cache n with
      | none => exact ⟨cache, Or.inl rfl, (fun h => Bool.noConfusion h), rfl⟩
      | some v =>
        cases v with
        | none => exact ⟨cache, Or.inl rfl, (fun h => Bool.noConfusion h), rfl⟩
        | some c =>
          simp only [hb c hc, if_false]
          exact ⟨cache.set n none, Or.inr ⟨rfl, c, rfl⟩, (fun h => Bool.noConfusion h), rfl⟩

/-- The shape of a context that `TclOOGetCallContext` builds: a part of filter
entries, then the entries of one simple chain build, for the requested name or
for the unknown method name. -/
theorem getCallContext_shape (fuel : Nat) (F : Foundation) (S : Store) (oPtr : ObjectPtr)
    (n : Name) (flags : FlagWord) (cache : ContextCache) (r : GetResult) (ctx : CallContext)
    (hb : BuildsContext F S oPtr n flags cache)
    (h : TclOOGetCallContext fuel F S oPtr n flags cache = some r)
    (hctx : r.context = some ctx) :
    ∃ (S1 : Store) (pre : List MInvoke) (es : List MethodPtr) (unk : Bool),
      InitClassHierarchy F fuel S (S.objects oPtr).selfCls = some S1 ∧
      (∀ e ∈ pre, e.isFilter = true ∧
        passesTests S1 flags.callBits (S1.objects oPtr).selfCls e.mPtr = true) ∧
      (doFiltersOf S oPtr flags = false → pre = []) ∧
      simpleChainEvents S1 fuel oPtr (if unk = true then F.unknownMethodNameObj else n)
        (if unk = true then {} else flags) = some es ∧
      entriesOf S1 flags.callBits (S1.objects oPtr).selfCls es ≠ [] ∧
      ctx = { newCallContext F S oPtr flags with
        flags := { flags.callBits with OO_UNKNOWN_METHOD := unk },
        globalEpoch := if unk = true then -1 else F.epoch,
        callChain := pre ++ entriesOf S1 flags.callBits (S1.objects oPtr).selfCls es } := by
  obtain ⟨cache1, _, hc1, heq⟩ := getCallContext_builds fuel F S oPtr n flags cache hb
  rw [heq] at h
  obtain ⟨S1, pre, es1, hI, _, hFl, hall, hes1, hout⟩ :=
    buildCallContext_spec fuel F S oPtr n flags _ cache1 r h
  have hpre : doFiltersOf S oPtr flags = false → pre = [] := by
    intro hd
    rw [hd] at hFl
    simp only [Bool.false_eq_true, if_false, Option.some.injEq] at hFl
    have := congrArg (fun cb : ChainBuilder => cb.contextPtr.callChain) hFl
    simpa [withChain, emptyBuilder, newCallContext] using this.symm
  rcases hout with ⟨hne, hc, _⟩ | ⟨_, _, hc, _⟩ | ⟨_, _, _, es2, hes2, hc⟩
  · rw [hctx] at hc
    refine ⟨S1, pre, es1, false, hI, hall, hpre, by simpa using hes1, hne, ?_⟩
    simp only [Option.some.injEq] at hc
    rw [hc]
    simp [newCallContext, FlagWord.callBits]
  · rw [hctx] at hc
    cases hc
  · rcases hc with ⟨_, hc⟩ | ⟨hne, hc⟩
    · rw [hctx] at hc
      cases hc
    · rw [hctx] at hc
      refine ⟨S1, pre, es2, true, hI, hall, hpre, by simpa using hes2, hne, ?_⟩
      simp only [Option.some.injEq] at hc
      rw [hc]
      simp [newCallContext]

/-! ## The outcomes of a resolution that builds its context -/

theorem simpleChainEntries_eq (F : Foundation) (S : Store) (fuel : Nat) (oPtr : ObjectPtr)
    (ctxFlags : FlagWord) (n : Name) (flags : FlagWord) :
    simpleChainEntries F S fuel oPtr ctxFlags n flags =
      (simpleChainEvents S fuel oPtr n flags).map fun es =>
        entriesOf S ctxFlags.callBits (S.objects oPtr).selfCls es := by
  unfold simpleChainEntries
  rw [simpleChain_on_skipped S fuel oPtr n flags (emptyBuilder F S oPtr ctxFlags) rfl]
  cases simpleChainEvents S fuel oPtr n flags with
  | none => rfl
  | some es => rfl

theorem ContextCache.set_set (cache : ContextCache) (n : Name) (v : Option CallContext) :
    (cache.set n v).set n v = cache.set n v := by
  funext k
  unfold ContextCache.set
  split <;> rfl

/-- The outcomes of `TclOOGetCallContext` when it builds the context, in terms
of what the simple chain builds for the requested name and for the unknown
method name put into an empty chain. -/
theorem getCallContext_outcome (fuel : Nat) (F : Foundation) (S : Store) (oPtr : ObjectPtr)
    (n : Name) (flags : FlagWord) (cache : ContextCache) (r : GetResult)
    (hb : BuildsContext F S oPtr n flags cache)
    (h : TclOOGetCallContext fuel F S oPtr n flags cache = some r) :
    ∃ (pre sec1 : List MInvoke),
      SameButHierarchy S r.store ∧
      InitClassHierarchy F fuel S (S.objects oPtr).selfCls = some r.store ∧
      (if doFiltersOf S oPtr flags = true then
          addAllFilters r.store fuel oPtr (emptyBuilder F S oPtr flags)
        else some (emptyBuilder F S oPtr flags))
          = some (withChain (emptyBuilder F S oPtr flags) pre) ∧
      (∀ e ∈ pre, e.isFilter = true) ∧
      simpleChainEntries F r.store fuel oPtr flags n flags = some sec1 ∧
      (∀ e ∈ sec1, e.isFilter = false) ∧
      ((sec1 ≠ [] ∧
          r.context = some { newCallContext F S oPtr flags with callChain := pre ++ sec1 } ∧
          r.cache = (if doFiltersOf S oPtr flags = true then cache.set n none else cache)) ∨
        (sec1 = [] ∧ flags.SPECIAL = true ∧ r.context = none ∧ r.cache = cache) ∨
        (sec1 = [] ∧ flags.SPECIAL = false ∧
          (r.cache = cache ∨ (r.cache = cache.set n none ∧ ∃ c, cache n = some (some c))) ∧
          ∃ sec2, simpleChainEntries F r.store fuel oPtr flags F.unknownMethodNameObj {}
              = some sec2 ∧
            (∀ e ∈ sec2, e.isFilter = false) ∧
            ((sec2 = [] ∧ r.context = none) ∨
              (sec2 ≠ [] ∧
                r.context = some { newCallContext F S oPtr flags with
                  flags := { flags.callBits with OO_UNKNOWN_METHOD := true },
                  globalEpoch := -1,
                  callChain := pre ++ sec2 })))) := by
  obtain ⟨cache1, hc1, hc0, heq⟩ := getCallContext_builds fuel F S oPtr n flags cache hb
  rw [heq] at h
  obtain ⟨S1, pre, es1, hI, hstore, hFl, hall, hes1, hout⟩ :=
    buildCallContext_spec fuel F S oPtr n flags _ cache1 r h
  subst hstore
  have hent : ∀ es, ∀ e ∈ entriesOf r.store flags.callBits (r.store.objects oPtr).selfCls es,
      e.isFilter = false := fun es e he => (entriesOf_mem _ _ _ es e he).1
  refine ⟨pre, entriesOf r.store flags.callBits (r.store.objects oPtr).selfCls es1,
    InitClassHierarchy_frame F fuel S _ _ hI, hI, hFl, fun e he => (hall e he).1, ?_,
    hent es1, ?_⟩
  · rw [simpleChainEntries_eq, hes1]
    rfl
  · rcases hout with ⟨hne, hc, hca⟩ | ⟨hnil, hsp, hc, hca⟩ | ⟨hnil, hsp, hca, es2, hes2, hc⟩
    · refine Or.inl ⟨hne, hc, ?_⟩
      rw [hca]
      by_cases hd : doFiltersOf S oPtr flags = true
      · simp only [hd, if_true]
        rcases hc1 with h1 | ⟨h1, _⟩
        · rw [h1]
        · rw [h1, ContextCache.set_set]
      · simp only [hd, if_false]
        exact hc0 (by simpa using hd)
    · refine Or.inr (Or.inl ⟨hnil, hsp, hc, ?_⟩)
      rw [hca]
      apply hc0
      simp [doFiltersOf, hsp]
    · refine Or.inr (Or.inr ⟨hnil, hsp, ?_, ?_⟩)
      · rw [hca]
        exact hc1
      · refine ⟨entriesOf r.store flags.callBits (r.store.objects oPtr).selfCls es2, ?_,
          hent es2, hc⟩
        rw [simpleChainEntries_eq, hes2]
        rfl

/-! ## The order of the entries of a chain -/

theorem collectEvents_mem {σ : Type} (ev : σ → Option (List MethodPtr)) (ss : List σ) :
    ∀ (acc r : List MethodPtr), collectEvents ev ss acc = some r →
      ∀ x, x ∈ r ↔ x ∈ acc ∨ ∃ s ∈ ss, ∃ es, ev s = some es ∧ x ∈ es := by
  induction ss with
  | nil =>
    intro acc r h x
    rw [collectEvents_nil] at h
    cases h
    simp
  | cons s ss ih =>
    intro acc r h x
    rw [collectEvents_cons] at h
    cases hs : ev s with
    | none => simp [hs] at h
    | some es =>
      simp only [hs, Option.some_bind] at h
      rw [ih (acc ++ es) r h x]
      constructor
      · rintro (hx | ⟨s1, hs1, es1, he1, hx⟩)
        · rcases List.mem_append.1 hx with hx | hx
          · exact Or.inl hx
          · exact Or.inr ⟨s, List.mem_cons_self _ _, es, hs, hx⟩
        · exact Or.inr ⟨s1, List.mem_cons_of_mem _ hs1, es1, he1, hx⟩
      · rintro (hx | ⟨s1, hs1, es1, he1, hx⟩)
        · exact Or.inl (List.mem_append_left _ hx)
        · rcases List.mem_cons.1 hs1 with h1 | h1
          · subst h1
            rw [hs] at he1
            cases he1
            exact Or.inl (List.mem_append_right _ hx)
          · exact Or.inr ⟨s1, h1, es1, he1, hx⟩

theorem collectEvents_defined {σ : Type} (ev : σ → Option (List MethodPtr)) (ss : List σ) :
    ∀ (acc r : List MethodPtr), collectEvents ev ss acc = some r →
      ∀ s ∈ ss, ∃ es, ev s = some es := by
  induction ss with
  | nil => intro acc r _ s hs; simp at hs
  | cons s ss ih =>
    intro acc r h s1 hs1
    rw [collectEvents_cons] at h
    cases hs : ev s with
    | none => simp [hs] at h
    | some es =>
      simp only [hs, Option.some_bind] at h
      rcases List.mem_cons.1 hs1 with h1 | h1
      · subst h1
        exact ⟨es, hs⟩
      · exact ih (acc ++ es) r h s1 h1

theorem collectEvents_split {σ : Type} (ev : σ → Option (List MethodPtr)) (ss : List σ)
    (acc r : List MethodPtr) (h : collectEvents ev ss acc = some r) :
    ∃ rest, collectEvents ev ss [] = some rest ∧ r = acc ++ rest := by
  rw [collectEvents_acc] at h
  cases hr : collectEvents ev ss [] with
  | none => simp [hr] at h
  | some rest =>
    simp only [hr, Option.map_some', Option.some.injEq] at h
    exact ⟨rest, rfl, h.symm⟩

theorem FollowedBy_append (a b : MethodPtr) (l1 l2 : List MethodPtr)
    (h1 : FollowedBy a b l1) (h2 : FollowedBy a b l2) : FollowedBy a b (l1 ++ l2) := by
  induction l1 with
  | nil => exact h2
  | cons x l ih =>
    obtain ⟨hx, hl⟩ := h1
    exact ⟨fun h => List.mem_append_left _ (hx h), ih hl⟩

theorem FollowedBy_of_not_mem (a b : MethodPtr) (l : List MethodPtr) (h : a ∉ l) :
    FollowedBy a b l := by
  induction l with
  | nil => trivial
  | cons x l ih =>
    exact ⟨fun hx => absurd (hx ▸ List.mem_cons_self x l) h,
      ih (fun hm => h (List.mem_cons_of_mem _ hm))⟩

theorem FollowedBy_filter (a b : MethodPtr) (p : MethodPtr → Bool) (hb : p b = true)
    (l : List MethodPtr) (h : FollowedBy a b l) : FollowedBy a b (l.filter p) := by
  induction l with
  | nil => trivial
  | cons x l ih =>
    obtain ⟨hx, hl⟩ := h
    rw [List.filter_cons]
    split
    · exact ⟨fun hxa => List.mem_filter.2 ⟨hx hxa, hb⟩, ih hl⟩
    · exact ih hl

theorem FollowedBy_snoc (a b : MethodPtr) (l : List MethodPtr) (e : MethodPtr)
    (h : FollowedBy a b (l ++ [e])) : e ≠ a ∧ (e = b ∨ FollowedBy a b l) := by
  induction l with
  | nil =>
    obtain ⟨hx, _⟩ := h
    exact ⟨fun he => by simpa using hx he, Or.inr trivial⟩
  | cons x l ih =>
    obtain ⟨hx, hl⟩ := h
    obtain ⟨hea, hr⟩ := ih hl
    refine ⟨hea, ?_⟩
    by_cases heb : e = b
    · exact Or.inl heb
    · rcases hr with hr | hr
      · exact absurd hr heb
      · refine Or.inr ⟨fun hxa => ?_, hr⟩
        rcases List.mem_append.1 (hx hxa) with hm | hm
        · exact hm
        · exact absurd (List.mem_singleton.1 hm).symm heb

theorem FollowedBy_collect {σ : Type} (a b : MethodPtr) (ev : σ → Option (List MethodPtr))
    (ss : List σ) (hev : ∀ s ∈ ss, ∀ es, ev s = some es → FollowedBy a b es) :
    ∀ rest, collectEvents ev ss [] = some rest → FollowedBy a b rest := by
  induction ss with
  | nil =>
    intro rest h
    rw [collectEvents_nil] at h
    cases h
    trivial
  | cons s ss ih =>
    intro rest h
    obtain ⟨es, rest1, hs, hr, heq⟩ := collectEvents_cons_some ev s ss rest h
    subst heq
    exact FollowedBy_append a b es rest1 (hev s (List.mem_cons_self _ _) es hs)
      (ih (fun s1 hs1 => hev s1 (List.mem_cons_of_mem _ hs1)) rest1 hr)

theorem foldl_pushLate_snoc (l : List MethodPtr) (e : MethodPtr) :
    (l ++ [e]).foldl pushLate [] = pushLate (l.foldl pushLate []) e := by
  rw [List.foldl_append]
  rfl

theorem pushLate_def (l : List MethodPtr) (m : MethodPtr) :
    pushLate l m = l.erase m ++ [m] := rfl

theorem mem_foldl_pushLate (l : List MethodPtr) (x : MethodPtr) :
    x ∈ l.foldl pushLate [] ↔ x ∈ l := by
  induction l using List.reverseRecOn with
  | nil => simp
  | append_singleton l e ih =>
    rw [foldl_pushLate_snoc]
    unfold pushLate
    simp only [List.mem_append, List.mem_singleton]
    constructor
    · rintro (h | h)
      · exact Or.inl (ih.1 (List.mem_of_mem_erase h))
      · exact Or.inr h
    · rintro (h | h)
      · by_cases hxe : x = e
        · exact Or.inr hxe
        · exact Or.inl ((List.mem_erase_of_ne hxe).2 (ih.2 h))
      · exact Or.inr h

/-- The late-binding order: when every occurrence of `a` among the methods
added is followed by an occurrence of `b`, then `a` stands before `b` in the
chain. -/
theorem before_of_followedBy (a b : MethodPtr) (hab : a ≠ b) (l : List MethodPtr) :
    FollowedBy a b l → a ∈ l.foldl pushLate [] → Before a b (l.foldl pushLate []) := by
  induction l using List.reverseRecOn with
  | nil => intro _ h; simp at h
  | append_singleton l e ih =>
    intro hfb hmem
    obtain ⟨hea, hr⟩ := FollowedBy_snoc a b l e hfb
    rw [foldl_pushLate_snoc] at hmem ⊢
    rw [pushLate_def] at hmem ⊢
    have ha : a ∈ (l.foldl pushLate []).erase e := by
      rcases List.mem_append.1 hmem with h | h
      · exact h
      · exact absurd (List.mem_singleton.1 h).symm hea
    by_cases heb : e = b
    · subst heb
      obtain ⟨l1, l2, h12⟩ := List.append_of_mem ha
      exact ⟨l1, l2 ++ [e], by rw [h12]; simp, by simp⟩
    · have hfl : FollowedBy a b l := by
        rcases hr with hr | hr
        · exact absurd hr heb
        · exact hr
      obtain ⟨l1, l2, h12, hb2⟩ := ih hfl (List.mem_of_mem_erase ha)
      rw [h12]
      by_cases he1 : e ∈ l1
      · rw [List.erase_append_left _ he1]
        exact ⟨l1.erase e, l2 ++ [e], by simp, List.mem_append_left _ hb2⟩
      · rw [List.erase_append_right _ he1, List.erase_cons_tail (by simpa using Ne.symm hea)]
        refine ⟨l1, l2.erase e ++ [e], by simp, ?_⟩
        exact List.mem_append_left _ ((List.mem_erase_of_ne (Ne.symm heb)).2 hb2)

theorem nodup_index_unique (l : List MethodPtr) (hn : l.Nodup) (i j : Nat) (x : MethodPtr)
    (hi : l[i]? = some x) (hj : l[j]? = some x) : i = j := by
  have hli : i < l.length := by
    by_contra hc
    rw [List.getElem?_eq_none (by omega)] at hi
    cases hi
  have hlj : j < l.length := by
    by_contra hc
    rw [List.getElem?_eq_none (by omega)] at hj
    cases hj
  rw [List.nodup_iff_getElem?_ne_getElem?] at hn
  rcases Nat.lt_trichotomy i j with h | h | h
  · exact absurd (hi.trans hj.symm) (hn i j h hlj)
  · exact h
  · exact absurd (hj.trans hi.symm) (hn j i h hli)

theorem index_lt_of_before (l : List MethodPtr) (hn : l.Nodup) (a b : MethodPtr)
    (hbf : Before a b l) (i j : Nat) (hi : l[i]? = some a) (hj : l[j]? = some b) : i < j := by
  obtain ⟨l1, l2, h12, hb⟩ := hbf
  obtain ⟨k, hk⟩ := List.getElem?_of_mem hb
  have hia : l[l1.length]? = some a := by
    rw [h12, List.getElem?_append_right (le_refl _)]
    simp
  have hjb : l[l1.length + 1 + k]? = some b := by
    rw [h12, List.getElem?_append_right (by omega)]
    have : l1.length + 1 + k - l1.length = k + 1 := by omega
    rw [this]
    simpa using hk
  have h1 := nodup_index_unique l hn i _ a hi hia
  have h2 := nodup_index_unique l hn j _ b hj hjb
  omega

/-! ## What the class walk visits -/

theorem classCandidate_congr (S : Store) (n : Name) (flags flags1 : FlagWord) (c : ClassPtr)
    (h1 : flags1.CONSTRUCTOR = flags.CONSTRUCTOR) (h2 : flags1.DESTRUCTOR = flags.DESTRUCTOR) :
    classCandidate S n flags1 c = classCandidate S n flags c := by
  unfold classCandidate
  rw [h1, h2]

theorem classChainStep_some (S : Store) (n : Name) (c : ClassPtr) (flags : FlagWord)
    (mPtr : Option MethodPtr) (flags1 : FlagWord)
    (h : classChainStep S n c flags = some (mPtr, flags1)) :
    mPtr = classCandidate S n flags c ∧ flags1.CONSTRUCTOR = flags.CONSTRUCTOR ∧
      flags1.DESTRUCTOR = flags.DESTRUCTOR ∧
      (∀ m, mPtr = some m → (flags1.SPECIAL = true ∨ flags1.KNOWN_STATE = true)) := by
  unfold classChainStep at h
  by_cases hc : flags.CONSTRUCTOR = true
  · rw [if_pos hc] at h
    cases h
    exact ⟨by simp [classCandidate, hc], rfl, rfl,
      fun m _ => Or.inl (by simp [FlagWord.SPECIAL, hc])⟩
  · rw [if_neg hc] at h
    by_cases hd : flags.DESTRUCTOR = true
    · rw [if_pos hd] at h
      cases h
      exact ⟨by simp [classCandidate, hc, hd], rfl, rfl,
        fun m _ => Or.inl (by simp [FlagWord.SPECIAL, hd])⟩
    · rw [if_neg hd] at h
      cases hl : List.lookup n (S.classes c).classMethods with
      | none =>
        rw [hl] at h
        cases h
        exact ⟨by simp [classCandidate, hc, hd, hl], rfl, rfl, fun m hm => by cases hm⟩
      | some m =>
        rw [hl] at h
        simp only at h
        by_cases hk : flags.KNOWN_STATE = true
        · simp only [hk, Bool.not_true, Bool.false_eq_true, if_false] at h
          cases h
          exact ⟨by simp [classCandidate, hc, hd, hl], rfl, rfl, fun _ _ => Or.inr hk⟩
        · simp only [hk, Bool.not_false, if_true] at h
          by_cases hp : flags.PUBLIC_METHOD = true
          · simp only [hp, if_true] at h
            by_cases hmp : (S.methods m).flags.PUBLIC_METHOD = true
            · simp only [hmp, if_true] at h
              cases h
              exact ⟨by simp [classCandidate, hc, hd, hl], rfl, rfl,
                fun _ _ => Or.inr (by simp [FlagWord.KNOWN_STATE])⟩
            · simp [hmp] at h
          · simp only [hp, if_false, Bool.false_eq_true] at h
            cases h
            exact ⟨by simp [classCandidate, hc, hd, hl], rfl, rfl,
              fun _ _ => Or.inr (by simp [FlagWord.KNOWN_STATE])⟩

theorem classChainStep_noCut (S : Store) (n : Name) (c : ClassPtr) (flags : FlagWord)
    (hnc : flags.SPECIAL = true ∨ flags.KNOWN_STATE = true) :
    classChainStep S n c flags = some (classCandidate S n flags c, flags) := by
  unfold classChainStep classCandidate
  by_cases hc : flags.CONSTRUCTOR = true
  · simp [hc]
  · by_cases hd : flags.DESTRUCTOR = true
    · simp [hc, hd]
    · have hk : flags.KNOWN_STATE = true := by
        rcases hnc with h | h
        · simp [FlagWord.SPECIAL, hc, hd] at h
        · exact h
      simp only [hc, hd, if_false]
      cases List.lookup n (S.classes c).classMethods with
      | none => rfl
      | some m => simp [hk]

/-- Once the visibility is settled (or for a constructor or destructor chain),
the class walk hands over the method of every class it can reach. -/
theorem classChainEvents_reach (S : Store) (n : Name) :
    ∀ (fuel : Nat) (c : ClassPtr) (flags : FlagWord) (es : List MethodPtr),
      (flags.SPECIAL = true ∨ flags.KNOWN_STATE = true) →
      classChainEvents S n fuel c flags = some es →
      ∀ Y, Relation.ReflTransGen (superOf S) c Y →
        ∀ m, classCandidate S n flags Y = some m → m ∈ es := by
  intro fuel
  induction fuel with
  | zero => intro c flags es _ h; simp [classChainEvents] at h
  | succ fuel ih =>
    intro c flags es hnc h Y hY m hm
    rw [classChainEvents, classChainStep_noCut S n c flags hnc] at h
    simp only at h
    rcases Relation.ReflTransGen.cases_head hY with heq | ⟨s, hs, hsY⟩
    · subst heq
      rw [hm] at h
      exact (collectEvents_mem _ _ _ _ h m).2 (Or.inl (by simp))
    · obtain ⟨es1, hes1⟩ := collectEvents_defined _ _ _ _ h s hs
      exact (collectEvents_mem _ _ _ _ h m).2
        (Or.inr ⟨s, hs, es1, hes1, ih s flags es1 hnc hes1 Y hsY m hm⟩)

/-- Every method the class walk hands over is the method of some class. -/
theorem classChainEvents_origin (S : Store) (n : Name) :
    ∀ (fuel : Nat) (c : ClassPtr) (flags : FlagWord) (es : List MethodPtr),
      classChainEvents S n fuel c flags = some es →
      ∀ m ∈ es, ∃ Z, classCandidate S n flags Z = some m := by
  intro fuel
  induction fuel with
  | zero => intro c flags es h; simp [classChainEvents] at h
  | succ fuel ih =>
    intro c flags es h m hm
    rw [classChainEvents] at h
    cases hstep : classChainStep S n c flags with
    | none =>
      simp only [hstep, Option.some.injEq] at h
      subst h
      simp at hm
    | some p =>
      obtain ⟨mPtr, flags1⟩ := p
      simp only [hstep] at h
      obtain ⟨h1, h2, h3, _⟩ := classChainStep_some S n c flags mPtr flags1 hstep
      rcases (collectEvents_mem _ _ _ _ h m).1 hm with hx | ⟨s, _, es1, hes1, hx⟩
      · refine ⟨c, ?_⟩
        rw [← h1]
        cases mPtr with
        | none => simp at hx
        | some m1 =>
          simp only [Option.toList_some, List.mem_singleton] at hx
          rw [hx]
      · obtain ⟨Z, hZ⟩ := ih s flags1 es1 hes1 m hx
        exact ⟨Z, by rw [← hZ, classCandidate_congr S n flags flags1 Z h2 h3]⟩

/-- In the methods the class walk hands over, the method of a class is always
followed by the method of each of its proper ancestors. -/
theorem classChainEvents_followedBy (S : Store) (n : Name) (a b : MethodPtr) (X Y : ClassPtr)
    (hX : ∀ Z flags, classCandidate S n flags Z = some a → Z = X)
    (hXY : Relation.TransGen (superOf S) X Y) :
    ∀ (fuel : Nat) (c : ClassPtr) (flags : FlagWord) (es : List MethodPtr),
      classCandidate S n flags Y = some b →
      classChainEvents S n fuel c flags = some es → FollowedBy a b es := by
  intro fuel
  induction fuel with
  | zero => intro c flags es _ h; simp [classChainEvents] at h
  | succ fuel ih =>
    intro c flags es hb h
    rw [classChainEvents] at h
    cases hstep : classChainStep S n c flags with
    | none =>
      simp only [hstep, Option.some.injEq] at h
      subst h
      trivial
    | some p =>
      obtain ⟨mPtr, flags1⟩ := p
      simp only [hstep] at h
      obtain ⟨h1, h2, h3, h4⟩ := classChainStep_some S n c flags mPtr flags1 hstep
      have hb1 : classCandidate S n flags1 Y = some b := by
        rw [classCandidate_congr S n flags flags1 Y h2 h3]
        exact hb
      obtain ⟨rest, hrest, heq⟩ := collectEvents_split _ _ _ _ h
      subst heq
      have hfrest : FollowedBy a b rest :=
        FollowedBy_collect a b _ _ (fun s _ es1 hes1 => ih s flags1 es1 hb1 hes1) rest hrest
      cases mPtr with
      | none => simpa using hfrest
      | some m =>
        refine ⟨fun hma => ?_, hfrest⟩
        subst hma
        have hcX : c = X := hX c flags h1.symm
        subst hcX
        obtain ⟨s, hs, hsY⟩ := Relation.TransGen.head'_iff.1 hXY
        obtain ⟨es1, hes1⟩ := collectEvents_defined _ _ _ _ hrest s hs
        have hbs : b ∈ es1 :=
          classChainEvents_reach S n fuel s flags1 es1 (h4 m rfl) hes1 Y hsY b hb1
        exact (collectEvents_mem _ _ _ _ hrest b).2 (Or.inr ⟨s, hs, es1, hes1, hbs⟩)

/-! ## What the simple chain build hands over -/

theorem simpleChainProbe_some (S : Store) (oPtr : ObjectPtr) (n : Name) (flags flags1 : FlagWord)
    (h : simpleChainProbe S oPtr n flags = some flags1) :
    flags1.CONSTRUCTOR = flags.CONSTRUCTOR ∧ flags1.DESTRUCTOR = flags.DESTRUCTOR ∧
      flags1.SPECIAL = flags.SPECIAL := by
  unfold simpleChainProbe at h
  split at h
  · split at h
    · split at h
      · split at h
        · cases h
        · cases h
          exact ⟨rfl, rfl, rfl⟩
      · cases h
        exact ⟨rfl, rfl, rfl⟩
    · cases h
      exact ⟨rfl, rfl, rfl⟩
  · cases h
    exact ⟨rfl, rfl, rfl⟩

/-- The events of the simple chain build, taken apart: the mixin walks, the
object's own method, the walk of the object's class. -/
theorem simpleChainEvents_parts (S : Store) (fuel : Nat) (oPtr : ObjectPtr) (n : Name)
    (flags : FlagWord) (es : List MethodPtr)
    (h : simpleChainEvents S fuel oPtr n flags = some es) :
    es = [] ∨
    ∃ flags1 e1 own e2, simpleChainProbe S oPtr n flags = some flags1 ∧
      es = e1 ++ own ++ e2 ∧
      classChainEvents S n fuel (S.objects oPtr).selfCls flags1 = some e2 ∧
      ((flags1.SPECIAL = true ∧ e1 = [] ∧ own = []) ∨
        (flags1.SPECIAL = false ∧
          collectEvents (fun c => classChainEvents S n fuel c flags1) (mixinWalkList S oPtr) []
            = some e1 ∧
          own = ((S.objects oPtr).methods.lookup n).toList)) := by
  unfold simpleChainEvents at h
  cases hp : simpleChainProbe S oPtr n flags with
  | none =>
    simp only [hp, Option.some.injEq] at h
    exact Or.inl h.symm
  | some flags1 =>
    right
    simp only [hp] at h
    by_cases hsp : flags1.SPECIAL = true
    · simp only [hsp, Bool.not_true, Bool.false_eq_true, if_false] at h
      exact ⟨flags1, [], [], es, rfl, by simp, h, Or.inl ⟨hsp, rfl, rfl⟩⟩
    · simp only [hsp, Bool.not_false, if_true] at h
      cases h1 : collectEvents (fun c => classChainEvents S n fuel c flags1)
          (mixinWalkList S oPtr) [] with
      | none => simp [h1] at h
      | some e1 =>
        simp only [h1, Option.some_bind] at h
        cases h2 : classChainEvents S n fuel (S.objects oPtr).selfCls flags1 with
        | none => simp [h2] at h
        | some e2 =>
          simp only [h2, Option.map_some', Option.some.injEq] at h
          exact ⟨flags1, e1, _, e2, rfl, h.symm, h2,
            Or.inr ⟨by simpa using hsp, h1, rfl⟩⟩

theorem simpleChainEvents_origin (S : Store) (fuel : Nat) (oPtr : ObjectPtr) (n : Name)
    (flags : FlagWord) (es : List MethodPtr)
    (h : simpleChainEvents S fuel oPtr n flags = some es) (m : MethodPtr) (hm : m ∈ es) :
    (∃ Z, classCandidate S n flags Z = some m) ∨
      (S.objects oPtr).methods.lookup n = some m := by
  rcases simpleChainEvents_parts S fuel oPtr n flags es h with h0 | ⟨flags1, e1, own, e2, hp, heq,
    h2, hcase⟩
  · subst h0
    simp at hm
  · obtain ⟨hc, hd, _⟩ := simpleChainProbe_some S oPtr n flags flags1 hp
    have hcand : ∀ Z, classCandidate S n flags1 Z = classCandidate S n flags Z :=
      fun Z => classCandidate_congr S n flags flags1 Z hc hd
    subst heq
    simp only [List.mem_append] at hm
    rcases hm with (hm | hm) | hm
    · rcases hcase with ⟨_, he1, _⟩ | ⟨_, he1, _⟩
      · subst he1
        simp at hm
      · obtain ⟨s, _, es1, hes1, hx⟩ := ((collectEvents_mem _ _ _ _ he1 m).1 hm).resolve_left
          (by simp)
        obtain ⟨Z, hZ⟩ := classChainEvents_origin S n fuel s flags1 es1 hes1 m hx
        exact Or.inl ⟨Z, by rw [← hcand, hZ]⟩
    · rcases hcase with ⟨_, _, ho⟩ | ⟨_, _, ho⟩
      · subst ho
        simp at hm
      · subst ho
        right
        cases hl : List.lookup n (S.objects oPtr).methods with
        | none => simp [hl] at hm
        | some m1 =>
          simp only [hl, Option.toList_some, List.mem_singleton] at hm
          rw [hm]
    · obtain ⟨Z, hZ⟩ := classChainEvents_origin S n fuel _ flags1 e2 h2 m hm
      exact Or.inl ⟨Z, by rw [← hcand, hZ]⟩

theorem simpleChainEvents_followedBy (S : Store) (fuel : Nat) (oPtr : ObjectPtr) (n : Name)
    (a b : MethodPtr) (X Y : ClassPtr)
    (hX : ∀ Z flags, classCandidate S n flags Z = some a → Z = X)
    (hXY : Relation.TransGen (superOf S) X Y)
    (hown : (S.objects oPtr).methods.lookup n ≠ some a)
    (flags : FlagWord) (es : List MethodPtr)
    (hb : classCandidate S n flags Y = some b)
    (h : simpleChainEvents S fuel oPtr n flags = some es) : FollowedBy a b es := by
  rcases simpleChainEvents_parts S fuel oPtr n flags es h with h0 | ⟨flags1, e1, own, e2, hp, heq,
    h2, hcase⟩
  · subst h0
    trivial
  · obtain ⟨hc, hd, _⟩ := simpleChainProbe_some S oPtr n flags flags1 hp
    have hb1 : classCandidate S n flags1 Y = some b := by
      rw [classCandidate_congr S n flags flags1 Y hc hd]
      exact hb
    subst heq
    have hf2 : FollowedBy a b e2 :=
      classChainEvents_followedBy S n a b X Y hX hXY fuel _ flags1 e2 hb1 h2
    have hf1 : FollowedBy a b e1 := by
      rcases hcase with ⟨_, he1, _⟩ | ⟨_, he1, _⟩
      · subst he1
        trivial
      · exact FollowedBy_collect a b _ _
          (fun s _ es1 hes1 =>
            classChainEvents_followedBy S n a b X Y hX hXY fuel s flags1 es1 hb1 hes1) e1 he1
    have hfo : FollowedBy a b own := by
      apply FollowedBy_of_not_mem
      rcases hcase with ⟨_, _, ho⟩ | ⟨_, _, ho⟩
      · subst ho
        simp
      · subst ho
        intro hm
        cases hl : List.lookup n (S.objects oPtr).methods with
        | none => simp [hl] at hm
        | some m1 =>
          simp only [hl, Option.toList_some, List.mem_singleton] at hm
          exact hown (by rw [hl, hm])
    exact FollowedBy_append a b _ _ (FollowedBy_append a b _ _ hf1 hfo) hf2

theorem backRefs_candidate (S : Store) (hbr : BackRefsOk S) (n : Name) (flags : FlagWord)
    (Z : ClassPtr) (m : MethodPtr) (h : classCandidate S n flags Z = some m) :
    (S.methods m).declaringClassPtr = some Z := by
  unfold classCandidate at h
  split at h
  · exact hbr.ctor Z m h
  · split at h
    · exact hbr.dtor Z m h
    · exact hbr.classMethod Z n m h

theorem BackRefsOk.of_same {S S1 : Store} (h : SameButHierarchy S S1) (hbr : BackRefsOk S) :
    BackRefsOk S1 := by
  constructor
  · intro c n m hl
    rw [h.classMethods c] at hl
    rw [h.methods]
    exact hbr.classMethod c n m hl
  · intro c m hl
    rw [h.constructorPtr c] at hl
    rw [h.methods]
    exact hbr.ctor c m hl
  · intro c m hl
    rw [h.destructorPtr c] at hl
    rw [h.methods]
    exact hbr.dtor c m hl
  · intro o n m hl
    rw [h.objects] at hl
    rw [h.methods]
    exact hbr.objectMethod o n m hl

theorem superOf_of_same {S S1 : Store} (h : SameButHierarchy S S1) (X Y : ClassPtr) :
    superOf S1 X Y ↔ superOf S X Y := by
  unfold superOf
  rw [h.superclasses X]

theorem transGen_of_same {S S1 : Store} (h : SameButHierarchy S S1) (X Y : ClassPtr)
    (hXY : Relation.TransGen (superOf S) X Y) : Relation.TransGen (superOf S1) X Y :=
  Relation.TransGen.mono (fun a b hab => (superOf_of_same h a b).2 hab) hXY

theorem rank_lt_of_transGen (S : Store) (rank : ClassPtr → Nat)
    (hrank : ∀ X Y, superOf S X Y → rank Y < rank X) (X Y : ClassPtr)
    (hXY : Relation.TransGen (superOf S) X Y) : rank Y < rank X := by
  induction hXY with
  | single h => exact hrank _ _ h
  | tail _ h ih => have := hrank _ _ h; omega

/-- The order of two non-filter entries of a built chain whose methods belong
to a class and to one of its proper ancestors. -/
theorem entriesOf_order (S : Store) (hbr : BackRefsOk S) (fuel : Nat) (oPtr : ObjectPtr)
    (n : Name) (flags ctxFlags : FlagWord) (es : List MethodPtr)
    (hes : simpleChainEvents S fuel oPtr n flags = some es)
    (i j : Nat) (ea eb : MInvoke) (X Y : ClassPtr)
    (hi : (entriesOf S ctxFlags (S.objects oPtr).selfCls es)[i]? = some ea)
    (hj : (entriesOf S ctxFlags (S.objects oPtr).selfCls es)[j]? = some eb)
    (hX : (S.methods ea.mPtr).declaringClassPtr = some X)
    (hY : (S.methods eb.mPtr).declaringClassPtr = some Y)
    (hne : X ≠ Y) (hXY : Relation.TransGen (superOf S) X Y) : i < j := by
  have hma := entriesOf_mem S ctxFlags _ es ea (List.getElem?_mem hi)
  have hmb := entriesOf_mem S ctxFlags _ es eb (List.getElem?_mem hj)
  have hab : ea.mPtr ≠ eb.mPtr := by
    intro h
    rw [h, hY] at hX
    exact hne (Option.some.inj hX).symm
  have hcb : classCandidate S n flags Y = some eb.mPtr := by
    rcases simpleChainEvents_origin S fuel oPtr n flags es hes eb.mPtr hmb.2.1 with ⟨Z, hZ⟩ | ho
    · have := backRefs_candidate S hbr n flags Z eb.mPtr hZ
      rw [hY] at this
      cases this
      exact hZ
    · have := hbr.objectMethod oPtr n eb.mPtr ho
      rw [hY] at this
      cases this
  have hfb : FollowedBy ea.mPtr eb.mPtr es := by
    apply simpleChainEvents_followedBy S fuel oPtr n ea.mPtr eb.mPtr X Y _ hXY _ flags es hcb hes
    · intro Z fl hZ
      have := backRefs_candidate S hbr n fl Z ea.mPtr hZ
      rw [hX] at this
      exact (Option.some.inj this).symm
    · intro ho
      have := hbr.objectMethod oPtr n ea.mPtr ho
      rw [hX] at this
      cases this
  have hfb1 := FollowedBy_filter ea.mPtr eb.mPtr
    (passesTests S ctxFlags (S.objects oPtr).selfCls) hmb.2.2 es hfb
  have hmap := entriesOf_map_mPtr S ctxFlags (S.objects oPtr).selfCls es
  have hnd := entriesOf_nodup S ctxFlags (S.objects oPtr).selfCls es
  have hia : ((entriesOf S ctxFlags (S.objects oPtr).selfCls es).map fun e => e.mPtr)[i]?
      = some ea.mPtr := by
    rw [List.getElem?_map, hi]
    rfl
  have hjb : ((entriesOf S ctxFlags (S.objects oPtr).selfCls es).map fun e => e.mPtr)[j]?
      = some eb.mPtr := by
    rw [List.getElem?_map, hj]
    rfl
  have hmem : ea.mPtr ∈ (es.filter (passesTests S ctxFlags (S.objects oPtr).selfCls)).foldl
      pushLate [] := by
    rw [← hmap]
    exact List.getElem?_mem hia
  have hbef := before_of_followedBy ea.mPtr eb.mPtr hab _ hfb1 hmem
  rw [← hmap] at hbef
  exact index_lt_of_before _ hnd ea.mPtr eb.mPtr hbef i j hia hjb

/-! ## The order of the groups of a simple chain build -/

/-- Every method the class walk hands over is the method of a class that the
walk can reach. -/
theorem classChainEvents_origin_reach (S : Store) (n : Name) :
    ∀ (fuel : Nat) (c : ClassPtr) (flags : FlagWord) (es : List MethodPtr),
      classChainEvents S n fuel c flags = some es →
      ∀ m ∈ es, ∃ Z, reaches S c Z ∧ classCandidate S n flags Z = some m := by
  intro fuel
  induction fuel with
  | zero => intro c flags es h; simp [classChainEvents] at h
  | succ fuel ih =>
    intro c flags es h m hm
    rw [classChainEvents] at h
    cases hstep : classChainStep S n c flags with
    | none =>
      simp only [hstep, Option.some.injEq] at h
      subst h
      simp at hm
    | some p =>
      obtain ⟨mPtr, flags1⟩ := p
      simp only [hstep] at h
      obtain ⟨h1, h2, h3, _⟩ := classChainStep_some S n c flags mPtr flags1 hstep
      rcases (collectEvents_mem _ _ _ _ h m).1 hm with hx | ⟨s, hs, es1, hes1, hx⟩
      · refine ⟨c, Relation.ReflTransGen.refl, ?_⟩
        rw [← h1]
        cases mPtr with
        | none => simp at hx
        | some m1 =>
          simp only [Option.toList_some, List.mem_singleton] at hx
          rw [hx]
      · obtain ⟨Z, hr, hZ⟩ := ih s flags1 es1 hes1 m hx
        exact ⟨Z, Relation.ReflTransGen.head hs hr,
          by rw [← hZ, classCandidate_congr S n flags flags1 Z h2 h3]⟩

theorem FollowedBy_split (a b : MethodPtr) (L R : List MethodPtr) (ha : a ∉ R) (hb : b ∈ R) :
    FollowedBy a b (L ++ R) := by
  induction L with
  | nil => exact FollowedBy_of_not_mem a b R ha
  | cons x L ih => exact ⟨fun _ => List.mem_append_right _ hb, ih⟩

/-- Two entries of a built chain, the method of the first handed over only in
a first part of the build and the method of the second handed over in the rest
of it: the first stands before the second. -/
theorem entriesOf_order_split (S : Store) (ctxFlags : FlagWord) (selfCls : ClassPtr)
    (L R : List MethodPtr) (i j : Nat) (ea eb : MInvoke)
    (hi : (entriesOf S ctxFlags selfCls (L ++ R))[i]? = some ea)
    (hj : (entriesOf S ctxFlags selfCls (L ++ R))[j]? = some eb)
    (ha : ea.mPtr ∉ R) (hb : eb.mPtr ∈ R) : i < j := by
  have hmb := entriesOf_mem S ctxFlags selfCls (L ++ R) eb (List.getElem?_mem hj)
  have hab : ea.mPtr ≠ eb.mPtr := fun h => ha (h ▸ hb)
  have hfb := FollowedBy_filter ea.mPtr eb.mPtr (passesTests S ctxFlags selfCls) hmb.2.2 _
    (FollowedBy_split ea.mPtr eb.mPtr L R ha hb)
  have hmap := entriesOf_map_mPtr S ctxFlags selfCls (L ++ R)
  have hnd := entriesOf_nodup S ctxFlags selfCls (L ++ R)
  have hia : ((entriesOf S ctxFlags selfCls (L ++ R)).map fun e => e.mPtr)[i]?
      = some ea.mPtr := by
    rw [List.getElem?_map, hi]
    rfl
  have hjb : ((entriesOf S ctxFlags selfCls (L ++ R)).map fun e => e.mPtr)[j]?
      = some eb.mPtr := by
    rw [List.getElem?_map, hj]
    rfl
  have hmem : ea.mPtr ∈ ((L ++ R).filter (passesTests S ctxFlags selfCls)).foldl pushLate [] := by
    rw [← hmap]
    exact List.getElem?_mem hia
  have hbef := before_of_followedBy ea.mPtr eb.mPtr hab _ hfb hmem
  rw [← hmap] at hbef
  exact index_lt_of_before _ hnd ea.mPtr eb.mPtr hbef i j hia hjb

theorem collectEvents_origin (S : Store) (n : Name) (fuel : Nat) (flags : FlagWord)
    (l : List ClassPtr) (es : List MethodPtr)
    (h : collectEvents (fun c => classChainEvents S n fuel c flags) l [] = some es)
    (m : MethodPtr) (hm : m ∈ es) :
    ∃ c ∈ l, ∃ Z, reaches S c Z ∧ classCandidate S n flags Z = some m := by
  obtain ⟨c, hc, es1, hes1, hx⟩ := ((collectEvents_mem _ _ _ _ h m).1 hm).resolve_left (by simp)
  obtain ⟨Z, hr, hZ⟩ := classChainEvents_origin_reach S n fuel c flags es1 hes1 m hx
  exact ⟨c, hc, Z, hr, hZ⟩

theorem collectEvents_take_drop {σ : Type} (ev : σ → Option (List MethodPtr)) (l : List σ)
    (k : Nat) (es : List MethodPtr) (h : collectEvents ev l [] = some es) :
    ∃ ea eb, collectEvents ev (l.take k) [] = some ea ∧
      collectEvents ev (l.drop k) [] = some eb ∧ es = ea ++ eb := by
  rw [← List.take_append_drop k l, collectEvents_append] at h
  cases h1 : collectEvents ev (l.take k) [] with
  | none => simp [h1] at h
  | some ea =>
    simp only [h1, Option.some_bind] at h
    obtain ⟨eb, h2, heq⟩ := collectEvents_split ev _ ea es h
    exact ⟨ea, eb, rfl, h2, heq⟩

/-- The groups of a simple chain build that is not for a constructor or
destructor, with the facts the order of the chain rests on: the methods handed
over by the mixin walks before a cut `k` of the walk list, by those after it,
the object's own method, and the methods handed over by the walk of the
object's class. -/
theorem simpleChainEvents_groups (S : Store) (hbr : BackRefsOk S) (fuel : Nat)
    (oPtr : ObjectPtr) (n : Name) (flags : FlagWord) (es : List MethodPtr)
    (hns : flags.SPECIAL = false)
    (h : simpleChainEvents S fuel oPtr n flags = some es) (k : Nat) :
    ∃ e1a e1b own e2, es = e1a ++ (e1b ++ (own ++ e2)) ∧
      (∀ m ∈ e1a, ∃ c ∈ (mixinWalkList S oPtr).take k, ∃ Z, reaches S c Z ∧
        (S.methods m).declaringClassPtr = some Z) ∧
      (∀ m ∈ e1b, ∃ c ∈ (mixinWalkList S oPtr).drop k, ∃ Z, reaches S c Z ∧
        (S.methods m).declaringClassPtr = some Z) ∧
      (∀ m ∈ own, (S.methods m).declaringClassPtr = none) ∧
      (∀ m ∈ e2, ∃ Z, reaches S (S.objects oPtr).selfCls Z ∧
        (S.methods m).declaringClassPtr = some Z) := by
  rcases simpleChainEvents_parts S fuel oPtr n flags es h with h0 | ⟨flags1, e1, own, e2, hp, heq,
    h2, hcase⟩
  · subst h0
    exact ⟨[], [], [], [], rfl, by simp, by simp, by simp, by simp⟩
  · obtain ⟨_, _, hsp⟩ := simpleChainProbe_some S oPtr n flags flags1 hp
    rcases hcase with ⟨hs, _, _⟩ | ⟨_, he1, ho⟩
    · rw [hsp, hns] at hs
      cases hs
    · obtain ⟨e1a, e1b, ha, hb, hab⟩ := collectEvents_take_drop _ _ k e1 he1
      refine ⟨e1a, e1b, own, e2, by rw [heq, hab]; simp, ?_, ?_, ?_, ?_⟩
      · intro m hm
        obtain ⟨c, hc, Z, hr, hZ⟩ := collectEvents_origin S n fuel flags1 _ e1a ha m hm
        exact ⟨c, hc, Z, hr, backRefs_candidate S hbr n flags1 Z m hZ⟩
      · intro m hm
        obtain ⟨c, hc, Z, hr, hZ⟩ := collectEvents_origin S n fuel flags1 _ e1b hb m hm
        exact ⟨c, hc, Z, hr, backRefs_candidate S hbr n flags1 Z m hZ⟩
      · intro m hm
        subst ho
        cases hl : List.lookup n (S.objects oPtr).methods with
        | none => simp [hl] at hm
        | some m1 =>
          simp only [hl, Option.toList_some, List.mem_singleton] at hm
          subst hm
          exact hbr.objectMethod oPtr n m hl
      · intro m hm
        obtain ⟨Z, hr, hZ⟩ := classChainEvents_origin_reach S n fuel _ flags1 e2 h2 m hm
        exact ⟨Z, hr, backRefs_candidate S hbr n flags1 Z m hZ⟩

/-! ## The hierarchy cache -/

theorem mem_dedupHierarchy (l : List ClassPtr) (x : ClassPtr) :
    x ∈ dedupHierarchy l ↔ x ∈ l := by
  induction l with
  | nil => simp [dedupHierarchy]
  | cons c rest ih =>
    unfold dedupHierarchy
    by_cases hc : c ∈ rest
    · rw [if_pos hc, ih]
      constructor
      · exact fun h => List.mem_cons_of_mem _ h
      · intro h
        rcases List.mem_cons.1 h with h | h
        · rw [h]; exact hc
        · exact h
    · rw [if_neg hc]
      simp [ih]

theorem nodup_dedupHierarchy (l : List ClassPtr) : (dedupHierarchy l).Nodup := by
  induction l with
  | nil => simp [dedupHierarchy]
  | cons c rest ih =>
    unfold dedupHierarchy
    by_cases hc : c ∈ rest
    · rw [if_pos hc]; exact ih
    · rw [if_neg hc]
      exact List.nodup_cons.2 ⟨fun h => hc ((mem_dedupHierarchy rest c).1 h), ih⟩

/-- The loops of the source keep of each class its last occurrence: they
compute what `List.dedup` does. -/
theorem dedupHierarchy_eq_dedup (l : List ClassPtr) : dedupHierarchy l = l.dedup := by
  induction l with
  | nil => rfl
  | cons c rest ih =>
    unfold dedupHierarchy
    by_cases hc : c ∈ rest
    · rw [if_pos hc, List.dedup_cons_of_mem hc, ih]
    · rw [if_neg hc, List.dedup_cons_of_not_mem hc, ih]

theorem foldlM_establish {α σ : Type} (g : α → σ → Option α) (Inv : α → Prop)
    (Good : α → σ → Prop)
    (hstep : ∀ a s a1, Inv a → g a s = some a1 →
      Inv a1 ∧ Good a1 s ∧ ∀ t, Good a t → Good a1 t) :
    ∀ (ss : List σ) (a a1 : α), Inv a → ss.foldlM g a = some a1 →
      Inv a1 ∧ (∀ s ∈ ss, Good a1 s) ∧ ∀ t, Good a t → Good a1 t := by
  intro ss
  induction ss with
  | nil =>
    intro a a1 ha h
    simp only [List.foldlM, Option.pure_def, Option.some.injEq] at h
    subst h
    exact ⟨ha, fun s hs => absurd hs (List.not_mem_nil s), fun t ht => ht⟩
  | cons s ss ih =>
    intro a a1 ha h
    simp only [List.foldlM, Option.bind_eq_bind] at h
    cases hg : g a s with
    | none => rw [hg] at h; cases h
    | some a2 =>
      rw [hg] at h
      simp only [Option.some_bind] at h
      obtain ⟨hi2, hg2, hm2⟩ := hstep a s a2 ha hg
      obtain ⟨hi1, hg1, hm1⟩ := ih a2 a1 hi2 h
      refine ⟨hi1, ?_, fun t ht => hm1 t (hm2 t ht)⟩
      intro t ht
      rcases List.mem_cons.1 ht with ht | ht
      · rw [ht]; exact hm1 s hg2
      · exact hg1 t ht

theorem transGen_super_iff (G : Store) (c x : ClassPtr) :
    Relation.TransGen (superOf G) c x ↔
      ∃ s ∈ (G.classes c).superclasses, x = s ∨ Relation.TransGen (superOf G) s x := by
  constructor
  · intro h
    obtain ⟨b, hb, hbx⟩ := Relation.TransGen.head'_iff.1 h
    rcases Relation.reflTransGen_iff_eq_or_transGen.1 hbx with h1 | h1
    · exact ⟨b, hb, Or.inl h1⟩
    · exact ⟨b, hb, Or.inr h1⟩
  · rintro ⟨s, hs, h | h⟩
    · rw [h]; exact Relation.TransGen.single hs
    · exact Relation.TransGen.head hs h

theorem hierarchy_update (F : Foundation) (G S2 : Store) (c : ClassPtr)
    (newHier : List ClassPtr) (ep : Int) (hc : c ≠ F.objectCls) (hinv : HierarchyInv F G S2)
    (hnd : newHier.Nodup)
    (hmem : ∀ x, x ∈ newHier ↔ Relation.TransGen (superOf G) c x) :
    HierarchyInv F G { S2 with classes := (Function.update S2.classes c
        { S2.classes c with classHierarchy := newHier, classHierarchyEpoch := ep }) } ∧
      HierarchyIs G { S2 with classes := (Function.update S2.classes c
        { S2.classes c with classHierarchy := newHier, classHierarchyEpoch := ep }) } c ∧
      ∀ d, HierarchyIs G S2 d → HierarchyIs G { S2 with classes := (Function.update S2.classes c
        { S2.classes c with classHierarchy := newHier, classHierarchyEpoch := ep }) } d := by
  have hcc : HierarchyIs G { S2 with classes := (Function.update S2.classes c
        { S2.classes c with classHierarchy := newHier, classHierarchyEpoch := ep }) } c := by
    unfold HierarchyIs
    simp only [Function.update_same]
    exact ⟨hnd, hmem⟩
  have hmono : ∀ d, HierarchyIs G S2 d → HierarchyIs G { S2 with classes :=
      (Function.update S2.classes c
        { S2.classes c with classHierarchy := newHier, classHierarchyEpoch := ep }) } d := by
    intro d hd
    by_cases hdc : d = c
    · rw [hdc]; exact hcc
    · unfold HierarchyIs at hd ⊢
      simp only [Function.update_noteq hdc]
      exact hd
  refine ⟨⟨hinv.1.trans (SameButHierarchy.update S2 c _ _), ?_, ?_⟩, hcc, hmono⟩
  · simp only [Function.update_noteq (Ne.symm hc)]
    exact hinv.2.1
  · intro d hd hep
    by_cases hdc : d = c
    · rw [hdc]; exact hcc
    · simp only [Function.update_noteq hdc] at hep
      exact hmono d (hinv.2.2 d hd hep)

theorem InitClassHierarchy_correct (F : Foundation) (G : Store)
    (hac : ∀ X, ¬ Relation.TransGen (superOf G) X X)
    (hroot : (G.classes F.objectCls).superclasses = []) :
    ∀ (fuel : Nat) (S : Store) (c : ClassPtr) (S1 : Store), HierarchyInv F G S →
      InitClassHierarchy F fuel S c = some S1 →
      HierarchyInv F G S1 ∧ HierarchyIs G S1 c ∧ ∀ d, HierarchyIs G S d → HierarchyIs G S1 d := by
  intro fuel
  induction fuel with
  | zero => intro S c S1 _ h; simp [InitClassHierarchy] at h
  | succ fuel ih =>
    intro S c S1 hinv h
    rw [InitClassHierarchy] at h
    by_cases hc : c = F.objectCls
    · simp only [hc, if_true, Option.some.injEq] at h
      subst h
      refine ⟨hinv, ?_, fun d hd => hd⟩
      rw [hc]
      unfold HierarchyIs
      rw [hinv.2.1]
      refine ⟨List.nodup_nil, fun x => ?_⟩
      rw [transGen_super_iff, hroot]
      simp
    · simp only [hc, if_false] at h
      by_cases he : (S.classes c).classHierarchyEpoch ≠ F.epoch
      · simp only [he, if_true, ne_eq, not_false_eq_true] at h
        cases hf : List.foldlM (fun S1 superPtr => InitClassHierarchy F fuel S1 superPtr) S
            (S.classes c).superclasses with
        | none => simp [hf] at h
        | some S2 =>
          obtain ⟨hinv2, hgood, hmono2⟩ :=
            foldlM_establish (fun S1 superPtr => InitClassHierarchy F fuel S1 superPtr)
              (HierarchyInv F G) (HierarchyIs G) (fun a s a1 ha hs => ih a s a1 ha hs)
              _ S S2 hinv hf
          have hsupers : (S.classes c).superclasses = (G.classes c).superclasses :=
            hinv.1.superclasses c
          simp only [hf] at h
          split at h
          · rename_i s heq
            simp only [Option.some.injEq] at h
            subst h
            have hs := hgood s (by rw [heq]; exact List.mem_singleton_self s)
            obtain ⟨h1, h2, h3⟩ := hierarchy_update F G S2 c
              (s :: (S2.classes s).classHierarchy) F.epoch hc hinv2
              (List.nodup_cons.2 ⟨fun hmem => hac s ((hs.2 s).1 hmem), hs.1⟩)
              (fun x => by
                rw [transGen_super_iff, ← hsupers, heq]
                simp only [List.mem_cons, List.mem_singleton, exists_eq_left, List.not_mem_nil,
                  or_false]
                rw [hs.2 x])
            exact ⟨h1, h2, fun d hd => h3 d (hmono2 d hd)⟩
          · simp only [Option.some.injEq] at h
            subst h
            have hflat : ∀ x, x ∈ (S.classes c).superclasses.flatMap (fun superPtr =>
                if superPtr = F.objectCls then [superPtr]
                else superPtr :: (S2.classes superPtr).classHierarchy) ↔
                Relation.TransGen (superOf G) c x := by
              intro x
              rw [transGen_super_iff, ← hsupers]
              simp only [List.mem_flatMap]
              constructor
              · rintro ⟨s, hs, hx⟩
                refine ⟨s, hs, ?_⟩
                by_cases hso : s = F.objectCls
                · rw [if_pos hso] at hx
                  exact Or.inl (List.mem_singleton.1 hx)
                · rw [if_neg hso] at hx
                  rcases List.mem_cons.1 hx with hx | hx
                  · exact Or.inl hx
                  · exact Or.inr (((hgood s hs).2 x).1 hx)
              · rintro ⟨s, hs, hx⟩
                refine ⟨s, hs, ?_⟩
                by_cases hso : s = F.objectCls
                · rw [if_pos hso]
                  rcases hx with hx | hx
                  · exact List.mem_singleton.2 hx
                  · exfalso
                    rw [hso, transGen_super_iff, hroot] at hx
                    simp at hx
                · rw [if_neg hso]
                  rcases hx with hx | hx
                  · rw [hx]; exact List.mem_cons_self _ _
                  · exact List.mem_cons_of_mem _ (((hgood s hs).2 x).2 hx)
            obtain ⟨h1, h2, h3⟩ := hierarchy_update F G S2 c _ (S2.classes c).classHierarchyEpoch
              hc hinv2 (nodup_dedupHierarchy _)
              (fun x => by rw [mem_dedupHierarchy]; exact hflat x)
            exact ⟨h1, h2, fun d hd => h3 d (hmono2 d hd)⟩
      · simp only [he, if_false] at h
        cases h
        exact ⟨hinv, hinv.2.2 c hc (by simpa using he), fun d hd => hd⟩

/-! ## The name enumerator -/

theorem lookup_isSome_iff (t : NameTable) (n : Name) :
    (t.lookup n).isSome = true ↔ n ∈ t.map Prod.fst := by
  induction t with
  | nil => simp [List.lookup]
  | cons e t ih =>
    obtain ⟨k, w⟩ := e
    simp only [List.lookup, List.map_cons, List.mem_cons]
    by_cases hk : n = k
    · subst hk; simp
    · have : (n == k) = false := by simpa using hk
      rw [this]
      simp only [hk, false_or]
      exact ih

theorem insertNew_keys (t : NameTable) (n : Name) (w : Bool) :
    (t.insertNew n w).map Prod.fst =
      if n ∈ t.map Prod.fst then t.map Prod.fst else t.map Prod.fst ++ [n] := by
  unfold NameTable.insertNew
  by_cases h : n ∈ t.map Prod.fst
  · rw [if_pos h, if_pos ((lookup_isSome_iff t n).2 h)]
  · rw [if_neg h, if_neg (fun h1 => h ((lookup_isSome_iff t n).1 h1))]
    simp

theorem insertAll_keys (evs : List (Name × Bool)) :
    ∀ t : NameTable, (insertAll t evs).map Prod.fst = keysAdd (t.map Prod.fst) (evs.map Prod.fst) := by
  induction evs with
  | nil => intro t; rfl
  | cons e evs ih =>
    intro t
    simp only [insertAll, List.foldl_cons, List.map_cons, keysAdd]
    have := ih (t.insertNew e.1 e.2)
    simp only [insertAll, keysAdd] at this
    rw [this, insertNew_keys]

theorem keysAdd_nodup (ns : List Name) : ∀ ks : List Name, ks.Nodup → (keysAdd ks ns).Nodup := by
  induction ns with
  | nil => intro ks h; exact h
  | cons n ns ih =>
    intro ks h
    simp only [keysAdd, List.foldl_cons]
    apply ih
    by_cases hn : n ∈ ks
    · rw [if_pos hn]; exact h
    · rw [if_neg hn]
      exact List.Nodup.append h (List.nodup_singleton n)
        (by
          intro a ha ha1
          rw [List.mem_singleton.1 ha1] at ha
          exact hn ha)

theorem mem_keysAdd (ns : List Name) (x : Name) :
    ∀ ks : List Name, x ∈ keysAdd ks ns ↔ x ∈ ks ∨ x ∈ ns := by
  induction ns with
  | nil => intro ks; simp [keysAdd]
  | cons n ns ih =>
    intro ks
    simp only [keysAdd, List.foldl_cons]
    have := ih (if n ∈ ks then ks else ks ++ [n])
    simp only [keysAdd] at this
    rw [this]
    by_cases hn : n ∈ ks
    · rw [if_pos hn]
      simp only [List.mem_cons]
      constructor
      · rintro (h | h)
        · exact Or.inl h
        · exact Or.inr (Or.inr h)
      · rintro (h | h | h)
        · exact Or.inl h
        · rw [h]; exact Or.inl hn
        · exact Or.inr h
    · rw [if_neg hn]
      simp only [List.mem_append, List.mem_singleton, List.mem_cons]
      tauto

theorem insertNew_mem (t : NameTable) (n : Name) (w : Bool) (e : Name × Bool)
    (he : e ∈ t.insertNew n w) : e ∈ t ∨ (e = (n, w) ∧ n ∉ t.map Prod.fst) := by
  unfold NameTable.insertNew at he
  by_cases h : (t.lookup n).isSome = true
  · rw [if_pos h] at he; exact Or.inl he
  · rw [if_neg h] at he
    rcases List.mem_append.1 he with he | he
    · exact Or.inl he
    · exact Or.inr ⟨List.mem_singleton.1 he, fun h1 => h ((lookup_isSome_iff t n).2 h1)⟩

theorem insertAll_mem (evs : List (Name × Bool)) :
    ∀ (t : NameTable) (e : Name × Bool), e ∈ insertAll t evs → e ∈ t ∨ e ∈ evs := by
  induction evs with
  | nil => intro t e he; exact Or.inl he
  | cons e1 evs ih =>
    intro t e he
    simp only [insertAll, List.foldl_cons] at he
    rcases ih (t.insertNew e1.1 e1.2) e he with h | h
    · rcases insertNew_mem t e1.1 e1.2 e h with h1 | ⟨h1, _⟩
      · exact Or.inl h1
      · exact Or.inr (by rw [h1]; exact List.mem_cons_self _ _)
    · exact Or.inr (List.mem_cons_of_mem _ h)

theorem insertAll_append (t : NameTable) (e1 e2 : List (Name × Bool)) :
    insertAll t (e1 ++ e2) = insertAll (insertAll t e1) e2 := by
  simp [insertAll, List.foldl_append]

theorem collectNames_cons {σ : Type} (ev : σ → Option (List (Name × Bool))) (s : σ)
    (ss : List σ) (acc : List (Name × Bool)) :
    collectNames ev (s :: ss) acc = (ev s).bind fun es => collectNames ev ss (acc ++ es) := by
  simp only [collectNames, List.foldlM, Option.bind_eq_bind]
  cases ev s <;> rfl

theorem collectNames_acc {σ : Type} (ev : σ → Option (List (Name × Bool))) (ss : List σ) :
    ∀ acc : List (Name × Bool),
      collectNames ev ss acc = (collectNames ev ss []).map fun es => acc ++ es := by
  induction ss with
  | nil => intro acc; simp [collectNames, List.foldlM]
  | cons s ss ih =>
    intro acc
    rw [collectNames_cons, collectNames_cons]
    cases ev s with
    | none => rfl
    | some es =>
      simp only [Option.some_bind, List.nil_append]
      rw [ih (acc ++ es), ih es]
      cases collectNames ev ss [] with
      | none => rfl
      | some r => simp

/-- A loop whose every round is a run of `insertNew` is such a run. -/
theorem foldlM_names {σ : Type} (g : NameTable → σ → Option NameTable)
    (ev : σ → Option (List (Name × Bool)))
    (hg : ∀ t s, g t s = (ev s).map fun es => insertAll t es) :
    ∀ (ss : List σ) (t : NameTable),
      ss.foldlM g t = (collectNames ev ss []).map fun es => insertAll t es := by
  intro ss
  induction ss with
  | nil => intro t; simp [collectNames, List.foldlM, insertAll]
  | cons s ss ih =>
    intro t
    rw [collectNames_cons]
    simp only [List.foldlM, Option.bind_eq_bind, hg]
    cases ev s with
    | none => rfl
    | some es =>
      simp only [Option.map_some', Option.some_bind, List.nil_append]
      rw [ih, collectNames_acc ev ss es]
      cases collectNames ev ss [] with
      | none => rfl
      | some r => simp [insertAll_append]

theorem addClassTableNames_events (S : Store) (flags : FlagWord)
    (cm : List (Name × MethodPtr)) (t : NameTable) :
    addClassTableNames S flags cm t = insertAll t (classTableEvents S flags cm) := by
  simp [addClassTableNames, insertAll, classTableEvents, List.foldl_map]

theorem classMethodNamesLoop_events (S : Store) (flags : FlagWord) :
    ∀ (fuel : Nat) (c : ClassPtr) (t : NameTable),
      classMethodNamesLoop S flags fuel c t =
        (loopNameEvents S flags fuel c).map fun r => (r.1, insertAll t r.2) := by
  intro fuel
  induction fuel with
  | zero => intro c t; rfl
  | succ fuel ih =>
    intro c t
    simp only [classMethodNamesLoop, loopNameEvents]
    split
    · rw [ih, addClassTableNames_events]
      cases loopNameEvents S flags fuel _ with
      | none => rfl
      | some r => simp [insertAll_append]
    · simp [addClassTableNames_events]

theorem AddClassMethodNames_events (S : Store) (flags : FlagWord) :
    ∀ (fuel : Nat) (c : ClassPtr) (t : NameTable),
      AddClassMethodNames S flags fuel c t =
        (classNameEvents S flags fuel c).map fun es => insertAll t es := by
  intro fuel
  induction fuel with
  | zero => intro c t; rfl
  | succ fuel ih =>
    intro c t
    simp only [AddClassMethodNames, classNameEvents]
    rw [foldlM_names (fun t m => AddClassMethodNames S flags fuel m t)
      (fun m => classNameEvents S flags fuel m) (fun t s => ih s t)]
    cases collectNames (fun m => classNameEvents S flags fuel m) (S.classes c).mixins [] with
    | none => rfl
    | some e1 =>
      simp only [Option.map_some', Option.some_bind]
      rw [classMethodNamesLoop_events]
      cases loopNameEvents S flags (fuel + 1) c with
      | none => rfl
      | some r =>
        simp only [Option.map_some', Option.some_bind]
        rw [foldlM_names (fun t m => AddClassMethodNames S flags fuel m t)
          (fun m => classNameEvents S flags fuel m) (fun t s => ih s t)]
        cases collectNames (fun m => classNameEvents S flags fuel m)
            (S.classes r.1).superclasses [] with
        | none => rfl
        | some e3 => simp [insertAll_append]

theorem addObjectMethodNames_events (S : Store) (flags : FlagWord)
    (ms : List (Name × MethodPtr)) :
    ∀ t : NameTable,
      addObjectMethodNames S flags ms t = insertAll t (objectNameEvents S flags ms) := by
  induction ms with
  | nil => intro t; rfl
  | cons e ms ih =>
    intro t
    simp only [addObjectMethodNames, List.foldl_cons, objectNameEvents, List.filter_cons]
    have h := ih
    simp only [addObjectMethodNames, objectNameEvents] at h
    by_cases hp : ((S.methods e.2).flags.PRIVATE_METHOD && !flags.PRIVATE_METHOD) = true
    · simp only [hp, if_true, Bool.not_true, Bool.false_eq_true, if_false]
      exact h t
    · simp only [Bool.not_eq_true] at hp
      rw [hp]
      simp only [Bool.false_eq_true, if_false, Bool.not_false, if_true, List.map_cons, insertAll,
        List.foldl_cons]
      have := h (t.insertNew e.1 (!flags.PUBLIC_METHOD || (S.methods e.2).flags.PUBLIC_METHOD))
      simp only [insertAll] at this
      exact this

theorem addPrivateClassNames_events (S : Store) (flags : FlagWord)
    (cm : List (Name × MethodPtr)) (t : NameTable) :
    addPrivateClassNames S flags cm t = insertAll t (privateNameEvents S flags cm) := by
  unfold addPrivateClassNames privateNameEvents
  cases flags.PRIVATE_METHOD with
  | false => rfl
  | true =>
    simp only [if_true]
    induction cm generalizing t with
    | nil => rfl
    | cons e cm ih =>
      simp only [List.foldl_cons, List.filter_cons]
      cases hp : (S.methods e.2).flags.PRIVATE_METHOD with
      | false => simp only [Bool.false_eq_true, if_false]; exact ih t
      | true =>
        simp only [if_true, List.map_cons, insertAll, List.foldl_cons]
        have := ih (t.insertNew e.1 true)
        simp only [insertAll] at this
        exact this

theorem methodNameTable_events (S : Store) (fuel : Nat) (oPtr : ObjectPtr) (flags : FlagWord) :
    methodNameTable S fuel oPtr flags =
      (methodNameEvents S fuel oPtr flags).map fun es => insertAll [] es := by
  unfold methodNameTable methodNameEvents
  simp only [AddClassMethodNames_events]
  cases classNameEvents S flags fuel (S.objects oPtr).selfCls with
  | none => rfl
  | some e2 =>
    simp only [Option.map_some', Option.some_bind]
    rw [foldlM_names (fun t m => (classNameEvents S flags fuel m).map fun es => insertAll t es)
      (fun m => classNameEvents S flags fuel m) (fun t s => rfl)]
    cases collectNames (fun m => classNameEvents S flags fuel m) (S.objects oPtr).mixins [] with
    | none => rfl
    | some e3 =>
      simp [insertAll_append, addPrivateClassNames_events, addObjectMethodNames_events]

theorem cmpBytes_gt_iff : ∀ a b : List Nat,
    cmpBytes a b = Ordering.gt ↔ cmpBytes b a = Ordering.lt := by
  intro a
  induction a with
  | nil => intro b; cases b <;> simp [cmpBytes]
  | cons x a ih =>
    intro b
    cases b with
    | nil => simp [cmpBytes]
    | cons y b =>
      simp only [cmpBytes]
      by_cases h1 : x < y
      · have h2 : ¬ y < x := by omega
        simp [h1, h2]
      · by_cases h2 : y < x
        · simp [h1, h2]
        · simp only [h1, h2, if_false]
          exact ih b

theorem cmpBytes_eq_iff : ∀ a b : List Nat, cmpBytes a b = Ordering.eq ↔ a = b := by
  intro a
  induction a with
  | nil => intro b; cases b <;> simp [cmpBytes]
  | cons x a ih =>
    intro b
    cases b with
    | nil => simp [cmpBytes]
    | cons y b =>
      simp only [cmpBytes]
      by_cases h1 : x < y
      · simp only [h1, if_true, List.cons.injEq]
        constructor
        · intro h; cases h
        · rintro ⟨h, _⟩; omega
      · by_cases h2 : y < x
        · simp only [h1, h2, if_true, if_false, List.cons.injEq]
          constructor
          · intro h; cases h
          · rintro ⟨h, _⟩; omega
        · simp only [h1, h2, if_false, List.cons.injEq]
          rw [ih b]
          constructor
          · intro h; exact ⟨by omega, h⟩
          · exact fun h => h.2

theorem cmpBytes_lt_trans : ∀ a b c : List Nat,
    cmpBytes a b = Ordering.lt → cmpBytes b c = Ordering.lt → cmpBytes a c = Ordering.lt := by
  intro a
  induction a with
  | nil =>
    intro b c h1 h2
    cases b with
    | nil => simp [cmpBytes] at h1
    | cons y b =>
      cases c with
      | nil => simp [cmpBytes] at h2
      | cons z c => simp [cmpBytes]
  | cons x a ih =>
    intro b c h1 h2
    cases b with
    | nil => simp [cmpBytes] at h1
    | cons y b =>
      cases c with
      | nil => simp [cmpBytes] at h2
      | cons z c =>
        simp only [cmpBytes] at h1 h2 ⊢
        by_cases hxy : x < y
        · by_cases hyz : y < z
          · have : x < z := by omega
            simp [this]
          · by_cases hzy : z < y
            · simp [hyz, hzy] at h2
            · have : x < z := by omega
              simp [this]
        · by_cases hyx : y < x
          · simp [hxy, hyx] at h1
          · simp only [hxy, hyx, if_false] at h1
            have hxy1 : x = y := by omega
            subst hxy1
            by_cases hxz : x < z
            · simp [hxz]
            · by_cases hzx : z < x
              · simp [hxz, hzx] at h2
              · simp only [hxz, hzx, if_false] at h2 ⊢
                exact ih b c h1 h2

theorem charCodes_injective (a b : Name)
    (h : a.data.map Char.toNat = b.data.map Char.toNat) : a = b := by
  have hinj : Function.Injective Char.toNat := by
    intro c d hcd
    apply Char.ext
    apply UInt32.ext
    exact hcd
  exact String.ext ((List.map_injective_iff.2 hinj) h)

theorem CmpStr_eq_iff (a b : Name) : CmpStr a b = Ordering.eq ↔ a = b := by
  unfold CmpStr
  rw [cmpBytes_eq_iff]
  exact ⟨charCodes_injective a b, fun h => by rw [h]⟩

theorem CmpStr_total (a b : Name) : CmpStr a b ≠ Ordering.gt ∨ CmpStr b a ≠ Ordering.gt := by
  by_cases h : CmpStr a b = Ordering.gt
  · right
    unfold CmpStr at h ⊢
    rw [(cmpBytes_gt_iff _ _).1 h]
    exact fun h1 => Ordering.noConfusion h1
  · exact Or.inl h

theorem CmpStr_lt_or_eq (a b : Name) (h : CmpStr a b ≠ Ordering.gt) :
    CmpStr a b = Ordering.lt ∨ a = b := by
  cases hc : CmpStr a b with
  | lt => exact Or.inl rfl
  | eq => exact Or.inr ((CmpStr_eq_iff a b).1 hc)
  | gt => exact absurd hc h

theorem CmpStr_trans (a b c : Name) (h1 : CmpStr a b ≠ Ordering.gt)
    (h2 : CmpStr b c ≠ Ordering.gt) : CmpStr a c ≠ Ordering.gt := by
  rcases CmpStr_lt_or_eq a b h1 with h1 | h1
  · rcases CmpStr_lt_or_eq b c h2 with h2 | h2
    · unfold CmpStr at h1 h2 ⊢
      rw [cmpBytes_lt_trans _ _ _ h1 h2]
      exact fun h => Ordering.noConfusion h
    · rw [← h2, h1]
      exact fun h => Ordering.noConfusion h
  · rw [h1]; exact h2

theorem CmpStr_irrefl (a : Name) : ¬ nameLt a a := by
  unfold nameLt
  rw [(CmpStr_eq_iff a a).2 rfl]
  exact fun h => Ordering.noConfusion h

/-- The names that `qsortNames` answers with are the given ones, and when
these are distinct the answer is strictly increasing. -/
theorem qsortNames_spec (l : List Name) :
    (qsortNames l).Perm l ∧ (l.Nodup → (qsortNames l).Sorted nameLt) := by
  haveI : IsTotal Name (fun a b => CmpStr a b ≠ Ordering.gt) := ⟨CmpStr_total⟩
  haveI : IsTrans Name (fun a b => CmpStr a b ≠ Ordering.gt) := ⟨CmpStr_trans⟩
  refine ⟨List.perm_insertionSort _ l, fun hnd => ?_⟩
  have hs : (qsortNames l).Sorted (fun a b => CmpStr a b ≠ Ordering.gt) :=
    List.sorted_insertionSort _ l
  have hnd1 : (qsortNames l).Nodup := (List.perm_insertionSort _ l).nodup_iff.2 hnd
  unfold List.Sorted at hs ⊢
  refine (hs.and hnd1).imp ?_
  intro a b hab
  rcases CmpStr_lt_or_eq a b hab.1 with h | h
  · exact h
  · exact absurd h hab.2

theorem collectNames_mono {σ : Type} (ev ev1 : σ → Option (List (Name × Bool)))
    (h : ∀ s es, ev s = some es → ev1 s = some es) (ss : List σ) (acc r : List (Name × Bool))
    (hr : collectNames ev ss acc = some r) : collectNames ev1 ss acc = some r := by
  unfold collectNames at hr ⊢
  refine foldlM_mono _ _ ?_ ss acc r hr
  intro a s a1 ha
  cases hs : ev s with
  | none => rw [hs] at ha; cases ha
  | some es =>
    rw [hs] at ha
    rw [h s es hs]
    exact ha

theorem collectNames_total {σ : Type} (ev : σ → Option (List (Name × Bool))) (ss : List σ)
    (acc : List (Name × Bool)) (h : ∀ s ∈ ss, ∃ es, ev s = some es) :
    ∃ r, collectNames ev ss acc = some r := by
  obtain ⟨r, hr, _⟩ := foldlM_total (fun _ => True)
    (fun acc1 s => (ev s).map (fun es => acc1 ++ es)) ss acc
    (fun a s hs _ => by
      obtain ⟨es, hes⟩ := h s hs
      exact ⟨a ++ es, by show Option.map (fun es => a ++ es) (ev s) = _; rw [hes]; rfl, trivial⟩) trivial
  exact ⟨r, hr⟩

theorem loopNameEvents_mono (S : Store) (flags : FlagWord) :
    ∀ (fuel fuel1 : Nat) (c : ClassPtr) (r : ClassPtr × List (Name × Bool)),
      fuel ≤ fuel1 → loopNameEvents S flags fuel c = some r →
      loopNameEvents S flags fuel1 c = some r := by
  intro fuel
  induction fuel with
  | zero => intro fuel1 c r _ h; simp [loopNameEvents] at h
  | succ fuel ih =>
    intro fuel1 c r hle h
    cases fuel1 with
    | zero => omega
    | succ fuel1 =>
      simp only [loopNameEvents] at h ⊢
      split
      · rename_i s heq
        simp only [heq] at h
        cases hl : loopNameEvents S flags fuel s with
        | none => rw [hl] at h; cases h
        | some r1 =>
          rw [hl] at h
          rw [ih fuel1 s r1 (by omega) hl]
          exact h
      · rename_i hno
        split at h
        · rename_i s heq
          exact absurd heq (hno s)
        · exact h

theorem classNameEvents_mono (S : Store) (flags : FlagWord) :
    ∀ (fuel fuel1 : Nat) (c : ClassPtr) (es : List (Name × Bool)),
      fuel ≤ fuel1 → classNameEvents S flags fuel c = some es →
      classNameEvents S flags fuel1 c = some es := by
  intro fuel
  induction fuel with
  | zero => intro fuel1 c es _ h; simp [classNameEvents] at h
  | succ fuel ih =>
    intro fuel1 c es hle h
    cases fuel1 with
    | zero => omega
    | succ fuel1 =>
      simp only [classNameEvents] at h ⊢
      cases h1 : collectNames (fun m => classNameEvents S flags fuel m)
          (S.classes c).mixins [] with
      | none => rw [h1] at h; cases h
      | some e1 =>
        rw [h1] at h
        simp only [Option.some_bind] at h
        rw [collectNames_mono _ (fun m => classNameEvents S flags fuel1 m)
          (fun s es hs => ih fuel1 s es (by omega) hs) _ _ _ h1]
        simp only [Option.some_bind]
        cases h2 : loopNameEvents S flags (fuel + 1) c with
        | none => rw [h2] at h; cases h
        | some r =>
          rw [h2] at h
          simp only [Option.some_bind] at h
          rw [loopNameEvents_mono S flags (fuel + 1) (fuel1 + 1) c r (by omega) h2]
          simp only [Option.some_bind]
          cases h3 : collectNames (fun s => classNameEvents S flags fuel s)
              (S.classes r.1).superclasses [] with
          | none => rw [h3] at h; cases h
          | some e3 =>
            rw [h3] at h
            rw [collectNames_mono _ (fun m => classNameEvents S flags fuel1 m)
              (fun s es hs => ih fuel1 s es (by omega) hs) _ _ _ h3]
            exact h

theorem methodNameEvents_mono (S : Store) (fuel fuel1 : Nat) (oPtr : ObjectPtr)
    (flags : FlagWord) (es : List (Name × Bool)) (hle : fuel ≤ fuel1)
    (h : methodNameEvents S fuel oPtr flags = some es) :
    methodNameEvents S fuel1 oPtr flags = some es := by
  unfold methodNameEvents at h ⊢
  cases h1 : classNameEvents S flags fuel (S.objects oPtr).selfCls with
  | none => rw [h1] at h; cases h
  | some e2 =>
    rw [h1] at h
    simp only [Option.some_bind] at h
    rw [classNameEvents_mono S flags fuel fuel1 _ e2 hle h1]
    simp only [Option.some_bind]
    cases h2 : collectNames (fun m => classNameEvents S flags fuel m)
        (S.objects oPtr).mixins [] with
    | none => rw [h2] at h; cases h
    | some e3 =>
      rw [h2] at h
      rw [collectNames_mono _ (fun m => classNameEvents S flags fuel1 m)
        (fun s es hs => classNameEvents_mono S flags fuel fuel1 s es hle hs) _ _ _ h2]
      exact h

theorem loopNameEvents_total (S : Store) (flags : FlagWord) (rank : ClassPtr → Nat)
    (hrank : ∀ X Y, Y ∈ (S.classes X).superclasses → rank Y < rank X) :
    ∀ (fuel : Nat) (c : ClassPtr), rank c < fuel →
      ∃ r, loopNameEvents S flags fuel c = some r ∧ rank r.1 ≤ rank c := by
  intro fuel
  induction fuel with
  | zero => intro c h; omega
  | succ fuel ih =>
    intro c h
    simp only [loopNameEvents]
    split
    · rename_i s heq
      have hs : rank s < rank c := hrank c s (by rw [heq]; exact List.mem_singleton_self s)
      obtain ⟨r, hr, hle⟩ := ih s (by omega)
      rw [hr]
      exact ⟨_, rfl, by simp only; omega⟩
    · exact ⟨_, rfl, le_refl _⟩

theorem classNameEvents_total (S : Store) (flags : FlagWord) (rank : ClassPtr → Nat)
    (hrank : ∀ X Y, (Y ∈ (S.classes X).superclasses ∨ Y ∈ (S.classes X).mixins) →
      rank Y < rank X) :
    ∀ (fuel : Nat) (c : ClassPtr), rank c < fuel →
      ∃ es, classNameEvents S flags fuel c = some es := by
  intro fuel
  induction fuel with
  | zero => intro c h; omega
  | succ fuel ih =>
    intro c h
    simp only [classNameEvents]
    obtain ⟨e1, h1⟩ := collectNames_total (fun m => classNameEvents S flags fuel m)
      (S.classes c).mixins [] (fun s hs => ih s (by have := hrank c s (Or.inr hs); omega))
    rw [h1]
    simp only [Option.some_bind]
    obtain ⟨r, hr, hle⟩ := loopNameEvents_total S flags rank
      (fun X Y hY => hrank X Y (Or.inl hY)) (fuel + 1) c h
    rw [hr]
    simp only [Option.some_bind]
    obtain ⟨e3, h3⟩ := collectNames_total (fun m => classNameEvents S flags fuel m)
      (S.classes r.1).superclasses [] (fun s hs => ih s (by
        have := hrank r.1 s (Or.inl hs); omega))
    rw [h3]
    exact ⟨_, rfl⟩

theorem methodNameEvents_total (S : Store) (oPtr : ObjectPtr) (flags : FlagWord)
    (hac : AcyclicMixins S) :
    ∃ N, ∀ fuel, N ≤ fuel → ∃ es, methodNameEvents S fuel oPtr flags = some es := by
  obtain ⟨rank, hrank⟩ := hac
  obtain ⟨B, hB⟩ := list_rank_bound rank ((S.objects oPtr).selfCls :: (S.objects oPtr).mixins)
  refine ⟨B, fun fuel hfuel => ?_⟩
  unfold methodNameEvents
  obtain ⟨e2, h2⟩ := classNameEvents_total S flags rank hrank fuel (S.objects oPtr).selfCls
    (by have := hB _ (List.mem_cons_self _ _); omega)
  rw [h2]
  simp only [Option.some_bind]
  obtain ⟨e3, h3⟩ := collectNames_total (fun m => classNameEvents S flags fuel m)
    (S.objects oPtr).mixins [] (fun s hs =>
      classNameEvents_total S flags rank hrank fuel s (by
        have := hB s (List.mem_cons_of_mem _ hs); omega))
  rw [h3]
  exact ⟨_, rfl⟩

/-- The list of `TclOOGetSortedMethodList` in terms of what is handed to the
names table. -/
theorem TclOOGetSortedMethodList_events (S : Store) (fuel : Nat) (oPtr : ObjectPtr)
    (flags : FlagWord) :
    TclOOGetSortedMethodList S fuel oPtr flags =
      (methodNameEvents S fuel oPtr flags).map fun es =>
        qsortNames (((insertAll [] es).filter fun e => !flags.PUBLIC_METHOD || e.2).map
          fun e => e.1) := by
  unfold TclOOGetSortedMethodList
  rw [methodNameTable_events]
  cases methodNameEvents S fuel oPtr flags <;> rfl

theorem TclOOGetSortedMethodList_mono (S : Store) (fuel fuel1 : Nat) (oPtr : ObjectPtr)
    (flags : FlagWord) (l : List Name) (hle : fuel ≤ fuel1)
    (h : TclOOGetSortedMethodList S fuel oPtr flags = some l) :
    TclOOGetSortedMethodList S fuel1 oPtr flags = some l := by
  rw [TclOOGetSortedMethodList_events] at h ⊢
  cases hes : methodNameEvents S fuel oPtr flags with
  | none => rw [hes] at h; cases h
  | some es =>
    rw [hes] at h
    rw [methodNameEvents_mono S fuel fuel1 oPtr flags es hle hes]
    exact h

theorem TclOOGetSortedMethodList_total (S : Store) (oPtr : ObjectPtr) (flags : FlagWord)
    (hac : AcyclicMixins S) :
    ∃ N, ∀ fuel, N ≤ fuel → ∃ l, TclOOGetSortedMethodList S fuel oPtr flags = some l := by
  obtain ⟨N, hN⟩ := methodNameEvents_total S oPtr flags hac
  refine ⟨N, fun fuel hfuel => ?_⟩
  obtain ⟨es, hes⟩ := hN fuel hfuel
  rw [TclOOGetSortedMethodList_events, hes]
  exact ⟨_, rfl⟩

/-! ## Properties of the chains of resolved contexts -/

theorem resolve_eq_some (fuel : Nat) (F : Foundation) (S : Store) (oPtr : ObjectPtr) (n : Name)
    (flags : FlagWord) (cache : ContextCache) (ctx : CallContext) :
    resolve fuel F S oPtr n flags cache = some ctx ↔
      ∃ r, TclOOGetCallContext fuel F S oPtr n flags cache = some r ∧ r.context = some ctx := by
  unfold resolve
  cases TclOOGetCallContext fuel F S oPtr n flags cache with
  | none => simp
  | some r => simp

theorem resolve_mono (fuel fuel1 : Nat) (F : Foundation) (S : Store) (oPtr : ObjectPtr)
    (n : Name) (flags : FlagWord) (cache : ContextCache) (ctx : CallContext) (hle : fuel ≤ fuel1)
    (h : resolve fuel F S oPtr n flags cache = some ctx) :
    resolve fuel1 F S oPtr n flags cache = some ctx := by
  rw [resolve_eq_some] at h ⊢
  obtain ⟨r, hr, hc⟩ := h
  exact ⟨r, TclOOGetCallContext_mono fuel fuel1 F S oPtr n flags cache r hle hr, hc⟩

/-- The shape of a resolved context that was built: filter entries that
passed the tests, then the entries of one simple chain build. -/
theorem resolve_shape (fuel : Nat) (F : Foundation) (S : Store) (oPtr : ObjectPtr)
    (n : Name) (flags : FlagWord) (cache : ContextCache) (ctx : CallContext)
    (hb : BuildsContext F S oPtr n flags cache)
    (h : resolve fuel F S oPtr n flags cache = some ctx) :
    ∃ (S1 : Store) (pre : List MInvoke) (es : List MethodPtr) (unk : Bool),
      SameButHierarchy S S1 ∧
      InitClassHierarchy F fuel S (S.objects oPtr).selfCls = some S1 ∧
      (∀ e ∈ pre, e.isFilter = true ∧
        passesTests S flags.callBits (S.objects oPtr).selfCls e.mPtr = true) ∧
      (doFiltersOf S oPtr flags = false → pre = []) ∧
      simpleChainEvents S1 fuel oPtr (if unk = true then F.unknownMethodNameObj else n)
        (if unk = true then {} else flags) = some es ∧
      entriesOf S1 flags.callBits (S1.objects oPtr).selfCls es ≠ [] ∧
      ctx = { newCallContext F S oPtr flags with
        flags := { flags.callBits with OO_UNKNOWN_METHOD := unk },
        globalEpoch := if unk = true then -1 else F.epoch,
        callChain := pre ++ entriesOf S1 flags.callBits (S1.objects oPtr).selfCls es } := by
  obtain ⟨r, hr, hc⟩ := (resolve_eq_some fuel F S oPtr n flags cache ctx).1 h
  obtain ⟨S1, pre, es, unk, hI, hall, hpre, hes, hne, hctx⟩ :=
    getCallContext_shape fuel F S oPtr n flags cache r ctx hb hr hc
  have hsame := InitClassHierarchy_frame F fuel S _ S1 hI
  refine ⟨S1, pre, es, unk, hsame, hI, ?_, hpre, hes, hne, hctx⟩
  intro e he
  have := hall e he
  unfold passesTests at this ⊢
  rw [hsame.methods, hsame.objects] at this
  exact this

theorem getElem?_after_filters (pre sec : List MInvoke)
    (hpre : ∀ e ∈ pre, e.isFilter = true) (i : Nat) (e : MInvoke)
    (hi : (pre ++ sec)[i]? = some e) (hf : e.isFilter = false) :
    pre.length ≤ i ∧ sec[i - pre.length]? = some e := by
  by_cases hlt : i < pre.length
  · rw [List.getElem?_append_left hlt] at hi
    have := hpre e (List.getElem?_mem hi)
    rw [hf] at this
    cases this
  · rw [List.getElem?_append_right (by omega)] at hi
    exact ⟨by omega, hi⟩

/-- C2: for every foundation, object, name and flags, a resolution that builds
its context answers for every fuel from some bound on when the superclass graph
is acyclic, and in the chain of the context it returns no two non-filter
entries hold the same method, whether the chain is an ordinary one or an
unknown-method fallback. -/
theorem C2_nonfilter_methods_distinct (F : Foundation) (S : Store)
    (oPtr : ObjectPtr) (n : Name) (flags : FlagWord) (cache : ContextCache)
    (hb : BuildsContext F S oPtr n flags cache) :
    (Acyclic S → ∃ N, ∀ fuel, N ≤ fuel →
      ∃ r, TclOOGetCallContext fuel F S oPtr n flags cache = some r) ∧
    ∀ (fuel : Nat) (ctx : CallContext), resolve fuel F S oPtr n flags cache = some ctx →
      ∀ (i j : Nat) (ei ej : MInvoke), ctx.callChain[i]? = some ei →
        ctx.callChain[j]? = some ej →
        ei.isFilter = false → ej.isFilter = false → ei.mPtr = ej.mPtr → i = j := by
  refine ⟨fun hac => TclOOGetCallContext_total F S oPtr n flags cache hac, ?_⟩
  intro fuel ctx h
  obtain ⟨S1, pre, es, unk, _, _, hall, _, _, _, hctx⟩ :=
    resolve_shape fuel F S oPtr n flags cache ctx hb h
  intro i j ei ej hi hj hfi hfj hm
  subst hctx
  simp only at hi hj
  obtain ⟨hli, hi1⟩ := getElem?_after_filters pre _ (fun e he => (hall e he).1) i ei hi hfi
  obtain ⟨hlj, hj1⟩ := getElem?_after_filters pre _ (fun e he => (hall e he).1) j ej hj hfj
  have hnd := entriesOf_nodup S1 flags.callBits (S1.objects oPtr).selfCls es
  have h1 : ((entriesOf S1 flags.callBits (S1.objects oPtr).selfCls es).map
      fun e => e.mPtr)[i - pre.length]? = some ei.mPtr := by
    rw [List.getElem?_map, hi1]
    rfl
  have h2 : ((entriesOf S1 flags.callBits (S1.objects oPtr).selfCls es).map
      fun e => e.mPtr)[j - pre.length]? = some ei.mPtr := by
    rw [List.getElem?_map, hj1, hm]
    rfl
  have := nodup_index_unique _ hnd _ _ _ h1 h2
  omega

/-- C3: a resolution that builds its context answers for every fuel from some
bound on when the superclass graph is acyclic, and in every context it builds
the filter entries come first: there is an index, the filter length, below
which every entry is a filter entry and from which on none is. -/
theorem C3_filters_precede (F : Foundation) (S : Store)
    (oPtr : ObjectPtr) (n : Name) (flags : FlagWord) (cache : ContextCache)
    (hb : BuildsContext F S oPtr n flags cache) :
    (Acyclic S → ∃ N, ∀ fuel, N ≤ fuel →
      ∃ r, TclOOGetCallContext fuel F S oPtr n flags cache = some r) ∧
    ∀ (fuel : Nat) (ctx : CallContext), resolve fuel F S oPtr n flags cache = some ctx →
      ∃ k, k ≤ ctx.callChain.length ∧ ∀ (i : Nat) (e : MInvoke), ctx.callChain[i]? = some e →
        (i < k → e.isFilter = true) ∧ (k ≤ i → e.isFilter = false) := by
  refine ⟨fun hac => TclOOGetCallContext_total F S oPtr n flags cache hac, ?_⟩
  intro fuel ctx h
  obtain ⟨S1, pre, es, unk, _, _, hall, _, _, _, hctx⟩ :=
    resolve_shape fuel F S oPtr n flags cache ctx hb h
  subst hctx
  refine ⟨pre.length, ?_, ?_⟩
  · simp only [List.length_append]
    omega
  · intro i e hi
    simp only at hi
    constructor
    · intro hlt
      rw [List.getElem?_append_left hlt] at hi
      exact (hall e (List.getElem?_mem hi)).1
    · intro hle
      rw [List.getElem?_append_right hle] at hi
      exact (entriesOf_mem S1 _ _ es e (List.getElem?_mem hi)).1

theorem buildsContext_noCache (F : Foundation) (S : Store) (oPtr : ObjectPtr) (n : Name)
    (flags : FlagWord) : BuildsContext F S oPtr n flags noCache :=
  Or.inr (fun c hc => by simp [noCache] at hc)

/-- Witness of C2 on the diamond where `A`, `B` and `C` all define `m`: the
chain has three non-filter entries, and the entry of `A.m`, handed over twice,
is there once. -/
theorem C2_nonfilter_methods_distinct_witness :
    BuildsContext scenarioFoundation (diamondStore true true true true) 0 "m" {} noCache ∧
    resolve 3 scenarioFoundation (diamondStore true true true true) 0 "m" {} noCache
      = some diamondScenarioContext ∧
    diamondScenarioContext.callChain.length = 3 ∧
    ∀ (i j : Nat) (ei ej : MInvoke), diamondScenarioContext.callChain[i]? = some ei →
      diamondScenarioContext.callChain[j]? = some ej →
      ei.isFilter = false → ej.isFilter = false → ei.mPtr = ej.mPtr → i = j :=
  ⟨buildsContext_noCache _ _ _ _ _, by decide, rfl,
    (C2_nonfilter_methods_distinct scenarioFoundation (diamondStore true true true true) 0 "m" {}
      noCache (buildsContext_noCache _ _ _ _ _)).2 3 diamondScenarioContext (by decide)⟩

/-- Witness of C3 on the filter ordering scenario. -/
theorem C3_filters_precede_witness :
    BuildsContext scenarioFoundation (filterStore false) 0 "work" {} noCache ∧
    resolve 3 scenarioFoundation (filterStore false) 0 "work" {} noCache
      = some filterScenarioContext ∧
    ∃ k, k ≤ filterScenarioContext.callChain.length ∧
      ∀ (i : Nat) (e : MInvoke), filterScenarioContext.callChain[i]? = some e →
        (i < k → e.isFilter = true) ∧ (k ≤ i → e.isFilter = false) :=
  ⟨buildsContext_noCache _ _ _ _ _, by decide,
    (C3_filters_precede scenarioFoundation (filterStore false) 0 "work" {} noCache
      (buildsContext_noCache _ _ _ _ _)).2 3 filterScenarioContext (by decide)⟩

theorem linearStore_acyclic : Acyclic linearStore := by
  refine ⟨fun c => c, ?_⟩
  intro X Y h
  unfold superOf linearStore at h
  rcases X with _ | _ | _ | X <;> simp at h
  subst h
  show 1 < 2
  omega

theorem linearStore_backRefs : BackRefsOk linearStore := by
  constructor
  · intro c n m h
    rcases c with _ | _ | _ | c <;> simp [linearStore, List.lookup] at h
    · split at h
      · cases h; rfl
      · cases h
    · split at h
      · cases h; rfl
      · cases h
  · intro c m h
    rcases c with _ | _ | _ | c <;> simp [linearStore] at h
  · intro c m h
    rcases c with _ | _ | _ | c <;> simp [linearStore] at h
  · intro o n m h
    simp [linearStore, List.lookup] at h

/-- C1: with an acyclic superclass graph and methods that name their declaring
class, a resolution that builds its context answers for every fuel from some
bound on, and in the chain the entry of a class's method stands strictly before
the entry of the method of any proper ancestor of that class (`i < j` for their
positions).  In the linear override scenario the chain for `m` is exactly
`[B.m, A.m]`, whatever the `PUBLIC`, `PRIVATE` and `FILTER_HANDLING` bits of the
call. -/
theorem C1_class_before_ancestor (F : Foundation) (S : Store) (oPtr : ObjectPtr) (n : Name)
    (flags : FlagWord) (cache : ContextCache) (hac : Acyclic S) (hbr : BackRefsOk S)
    (hb : BuildsContext F S oPtr n flags cache) :
    (∃ N, ∀ fuel, N ≤ fuel → ∃ r, TclOOGetCallContext fuel F S oPtr n flags cache = some r) ∧
    (∀ (fuel : Nat) (ctx : CallContext), resolve fuel F S oPtr n flags cache = some ctx →
      ∀ (i j : Nat) (ea eb : MInvoke) (X Y : ClassPtr),
        ctx.callChain[i]? = some ea → ctx.callChain[j]? = some eb →
        ea.isFilter = false → eb.isFilter = false →
        (S.methods ea.mPtr).declaringClassPtr = some X →
        (S.methods eb.mPtr).declaringClassPtr = some Y →
        Relation.TransGen (superOf S) X Y → i < j) ∧
    (∀ (pub priv fh : Bool) (fuel : Nat), 2 ≤ fuel →
      (resolve fuel scenarioFoundation linearStore 0 "m"
        { PUBLIC_METHOD := pub, PRIVATE_METHOD := priv, FILTER_HANDLING := fh } noCache).map
          (fun ctx => ctx.callChain) = some [⟨20, false, none⟩, ⟨10, false, none⟩]) := by
  refine ⟨TclOOGetCallContext_total F S oPtr n flags cache hac, ?_, ?_⟩
  · intro fuel ctx h i j ea eb X Y hi hj hfa hfb hX hY hXY
    obtain ⟨S1, pre, es, unk, hsame, _, hall, _, hes, _, hctx⟩ :=
      resolve_shape fuel F S oPtr n flags cache ctx hb h
    subst hctx
    simp only at hi hj
    obtain ⟨hli, hi1⟩ := getElem?_after_filters pre _ (fun e he => (hall e he).1) i ea hi hfa
    obtain ⟨hlj, hj1⟩ := getElem?_after_filters pre _ (fun e he => (hall e he).1) j eb hj hfb
    obtain ⟨rank, hrank⟩ := hac
    have hne : X ≠ Y := by
      intro hxy
      have := rank_lt_of_transGen S rank hrank X Y hXY
      rw [hxy] at this
      omega
    rw [← hsame.methods] at hX hY
    have := entriesOf_order S1 (BackRefsOk.of_same hsame hbr) fuel oPtr _ _ flags.callBits es hes
      (i - pre.length) (j - pre.length) ea eb X Y hi1 hj1 hX hY hne
      (transGen_of_same hsame X Y hXY)
    omega
  · intro pub priv fh fuel hfuel
    have h2 : ∀ pub priv fh : Bool,
        (resolve 2 scenarioFoundation linearStore 0 "m"
          { PUBLIC_METHOD := pub, PRIVATE_METHOD := priv, FILTER_HANDLING := fh } noCache).map
            (fun ctx => ctx.callChain) = some [⟨20, false, none⟩, ⟨10, false, none⟩] := by
      decide
    have h3 := h2 pub priv fh
    cases hr : resolve 2 scenarioFoundation linearStore 0 "m"
        { PUBLIC_METHOD := pub, PRIVATE_METHOD := priv, FILTER_HANDLING := fh } noCache with
    | none => simp [hr] at h3
    | some ctx =>
      rw [resolve_mono 2 fuel _ _ _ _ _ _ ctx hfuel hr]
      simpa [hr] using h3

/-- Witness of C1 on the linear override scenario. -/
theorem C1_class_before_ancestor_witness :
    Acyclic linearStore ∧ BackRefsOk linearStore ∧
    BuildsContext scenarioFoundation linearStore 0 "m" {} noCache ∧
    resolve 2 scenarioFoundation linearStore 0 "m" {} noCache = some linearScenarioContext ∧
    (linearStore.methods 20).declaringClassPtr = some 2 ∧
    (linearStore.methods 10).declaringClassPtr = some 1 ∧
    Relation.TransGen (superOf linearStore) 2 1 ∧
    linearScenarioContext.callChain[0]? = some ⟨20, false, none⟩ ∧
    linearScenarioContext.callChain[1]? = some ⟨10, false, none⟩ ∧
    (0 : Nat) < 1 :=
  ⟨linearStore_acyclic, linearStore_backRefs, buildsContext_noCache _ _ _ _ _, by decide,
    rfl, rfl, Relation.TransGen.single (by simp [superOf, linearStore]), rfl, rfl,
    (C1_class_before_ancestor scenarioFoundation linearStore 0 "m" {} noCache
      linearStore_acyclic linearStore_backRefs (buildsContext_noCache _ _ _ _ _)).2.1
      2 linearScenarioContext (by decide) 0 1 ⟨20, false, none⟩ ⟨10, false, none⟩ 2 1
      rfl rfl rfl rfl rfl rfl (Relation.TransGen.single (by simp [superOf, linearStore]))⟩

theorem resolve_chain_mono (fuel fuel1 : Nat) (F : Foundation) (S : Store) (oPtr : ObjectPtr)
    (n : Name) (flags : FlagWord) (cache : ContextCache) (chain : List MInvoke)
    (hle : fuel ≤ fuel1)
    (h : (resolve fuel F S oPtr n flags cache).map (fun ctx => ctx.callChain) = some chain) :
    (resolve fuel1 F S oPtr n flags cache).map (fun ctx => ctx.callChain) = some chain := by
  cases hr : resolve fuel F S oPtr n flags cache with
  | none => simp [hr] at h
  | some ctx =>
    rw [resolve_mono fuel fuel1 F S oPtr n flags cache ctx hle hr]
    simpa [hr] using h

/-- C4: in the diamond (`D` extends `B` and `C`, both extend `A`), for an
object of class `D` without mixins, filters or methods of its own, the chain
for `m` holds the implementations of `m` present among `B`, `C` and `A` in the
order `B`, `C`, `A`, each once, for every call that is not restricted to public
methods or whose methods are public.  The walk meets `A` twice (the methods
handed over are `B.m`, `A.m`, `C.m`, `A.m`) and `A.m` ends up last.  With `m` in
`A` and `B` only the chain is `[B.m, A.m]`. -/
theorem C4_diamond_chain :
    (∀ (inA inB inC isPublic pub priv fh : Bool) (fuel : Nat), 3 ≤ fuel →
      (inA || inB || inC) = true → (pub = true → isPublic = true) →
      (resolve fuel scenarioFoundation (diamondStore inA inB inC isPublic) 0 "m"
        { PUBLIC_METHOD := pub, PRIVATE_METHOD := priv, FILTER_HANDLING := fh } noCache).map
          (fun ctx => ctx.callChain) = some (presentEntries [(inB, 20), (inC, 30), (inA, 10)])) ∧
    simpleChainEvents (diamondStore true true true true) 3 0 "m" {} = some [20, 10, 30, 10] ∧
    (∀ (fuel : Nat), 3 ≤ fuel →
      (resolve fuel scenarioFoundation (diamondStore true true false true) 0 "m" {} noCache).map
        (fun ctx => ctx.callChain) = some [plainEntry 20, plainEntry 10]) := by
  have hall : ∀ (inA inB inC isPublic pub priv fh : Bool),
      (inA || inB || inC) = true → (pub = true → isPublic = true) →
      (resolve 3 scenarioFoundation (diamondStore inA inB inC isPublic) 0 "m"
        { PUBLIC_METHOD := pub, PRIVATE_METHOD := priv, FILTER_HANDLING := fh } noCache).map
          (fun ctx => ctx.callChain) = some (presentEntries [(inB, 20), (inC, 30), (inA, 10)]) := by
    decide
  refine ⟨?_, by decide, ?_⟩
  · intro inA inB inC isPublic pub priv fh fuel hfuel hin hpub
    exact resolve_chain_mono 3 fuel _ _ _ _ _ _ _ hfuel (hall inA inB inC isPublic pub priv fh hin hpub)
  · intro fuel hfuel
    exact resolve_chain_mono 3 fuel _ _ _ _ _ _ _ hfuel (by decide)

/-- Witness of C4: the diamond with `m` in `A`, `B` and `C`, plain call. -/
theorem C4_diamond_chain_witness :
    (3 ≤ 3) ∧ (true || true || true) = true ∧ (false = true → true = true) ∧
    (resolve 3 scenarioFoundation (diamondStore true true true true) 0 "m"
      { PUBLIC_METHOD := false, PRIVATE_METHOD := false, FILTER_HANDLING := false } noCache).map
        (fun ctx => ctx.callChain) = some [plainEntry 20, plainEntry 30, plainEntry 10] :=
  ⟨le_refl 3, rfl, fun h => Bool.noConfusion h,
    C4_diamond_chain.1 true true true true false false false 3 (le_refl 3) rfl
      (fun h => Bool.noConfusion h)⟩

theorem buildCallContext_cache (fuel : Nat) (F : Foundation) (S : Store) (oPtr : ObjectPtr)
    (n : Name) (flags : FlagWord) (cache cache2 : ContextCache) :
    buildCallContext fuel F S oPtr n flags false cache2 =
      (buildCallContext fuel F S oPtr n flags false cache).map
        fun r => { r with cache := cache2 } := by
  unfold buildCallContext
  simp only [Bool.false_eq_true, if_false, Option.some_bind]
  cases InitClassHierarchy F fuel S (S.objects oPtr).selfCls with
  | none => rfl
  | some S1 =>
    simp only [Option.some_bind]
    cases AddSimpleChainToCallContext S1 fuel oPtr n
        { contextPtr := newCallContext F S oPtr flags,
          filterLength := ChainBuilder.numCallChain
            { contextPtr := newCallContext F S oPtr flags, filterLength := 0 } }
        false flags none with
    | none => rfl
    | some cb2 =>
      simp only [Option.some_bind]
      split
      · split
        · rfl
        · cases AddSimpleChainToCallContext S1 fuel oPtr F.unknownMethodNameObj cb2 false {}
            none with
          | none => rfl
          | some cb3 =>
            simp only [Option.some_bind]
            split <;> rfl
      · rfl

/-- C8: when the flags contain `CONSTRUCTOR`, `DESTRUCTOR` or `FILTER_HANDLING`,
or the object has `FILTER_HANDLING` set, `TclOOGetCallContext` answers for every
fuel from some bound on (acyclic superclass graph), its answer
does not depend on the cache, the cache is handed back as it was, and the chain
has no filter entry.  In the filter ordering scenario a plain resolution of
`work` gives `[filter F.trace (declared by F), B.work]`, and a resolution with
`FILTER_HANDLING` set on the object, or asked for by the call, gives
`[B.work]`. -/
theorem C8_no_filters_inside_filter (F : Foundation) (S : Store) (oPtr : ObjectPtr) (n : Name)
    (flags : FlagWord)
    (hskip : flags.CONSTRUCTOR = true ∨ flags.DESTRUCTOR = true ∨
      flags.FILTER_HANDLING = true ∨ (S.objects oPtr).flags.FILTER_HANDLING = true) :
    (Acyclic S → ∀ cache : ContextCache, ∃ N, ∀ fuel, N ≤ fuel →
      ∃ r, TclOOGetCallContext fuel F S oPtr n flags cache = some r) ∧
    (∀ (fuel : Nat) (cache cache2 : ContextCache),
      TclOOGetCallContext fuel F S oPtr n flags cache2 =
        (TclOOGetCallContext fuel F S oPtr n flags cache).map
          fun r => { r with cache := cache2 }) ∧
    (∀ (fuel : Nat) (cache : ContextCache) (r : GetResult),
      TclOOGetCallContext fuel F S oPtr n flags cache = some r →
      r.cache = cache ∧
        ∀ ctx, r.context = some ctx → ∀ e ∈ ctx.callChain, e.isFilter = false) ∧
    (∀ (fuel : Nat), 2 ≤ fuel →
      resolve fuel scenarioFoundation (filterStore false) 0 "work" {} noCache
        = some filterScenarioContext) ∧
    (∀ (fuel : Nat), 2 ≤ fuel →
      resolve fuel scenarioFoundation (filterStore true) 0 "work" {} noCache
        = some (insideFilterContext false)) ∧
    (∀ (fuel : Nat), 2 ≤ fuel →
      resolve fuel scenarioFoundation (filterStore false) 0 "work" { FILTER_HANDLING := true }
        noCache = some (insideFilterContext true)) := by
  have hd : (flags.SPECIAL || flags.FILTER_HANDLING ||
      (S.objects oPtr).flags.FILTER_HANDLING) = true := by
    unfold FlagWord.SPECIAL
    rcases hskip with h | h | h | h <;> simp [h]
  have hdo : doFiltersOf S oPtr flags = false := by simp [doFiltersOf, hd]
  have hget : ∀ fuel cache, TclOOGetCallContext fuel F S oPtr n flags cache =
      buildCallContext fuel F S oPtr n flags false cache := by
    intro fuel cache
    unfold TclOOGetCallContext
    rw [if_pos hd]
  refine ⟨fun hac cache => TclOOGetCallContext_total F S oPtr n flags cache hac,
    ?_, ?_, ?_, ?_, ?_⟩
  · intro fuel cache cache2
    rw [hget, hget]
    exact buildCallContext_cache fuel F S oPtr n flags cache cache2
  · intro fuel cache r h
    have hb : BuildsContext F S oPtr n flags cache := Or.inl hdo
    obtain ⟨pre, sec1, _, _, hFl, _, _, hsec1, hout⟩ :=
      getCallContext_outcome fuel F S oPtr n flags cache r hb h
    have hpre : pre = [] := by
      rw [hdo] at hFl
      simp only [Bool.false_eq_true, if_false, Option.some.injEq] at hFl
      have := congrArg (fun cb : ChainBuilder => cb.contextPtr.callChain) hFl
      simpa [withChain, emptyBuilder, newCallContext] using this.symm
    subst hpre
    rcases hout with ⟨_, hc, hca⟩ | ⟨_, _, hc, hca⟩ | ⟨_, _, hca, sec2, _, hsec2, hc⟩
    · refine ⟨by rw [hca, hdo]; simp, ?_⟩
      intro ctx hctx e he
      rw [hc] at hctx
      cases hctx
      exact hsec1 e (by simpa using he)
    · refine ⟨hca, ?_⟩
      intro ctx hctx
      rw [hc] at hctx
      cases hctx
    · have hca1 : r.cache = cache := by
        rw [hget] at h
        obtain ⟨_, _, _, _, _, _, _, _, hout2⟩ :=
          buildCallContext_spec fuel F S oPtr n flags false cache r h
        rcases hout2 with ⟨_, _, hx⟩ | ⟨_, _, _, hx⟩ | ⟨_, _, hx, _⟩
        · simpa using hx
        · exact hx
        · exact hx
      refine ⟨hca1, ?_⟩
      intro ctx hctx e he
      rcases hc with ⟨_, hc⟩ | ⟨_, hc⟩
      · rw [hc] at hctx
        cases hctx
      · rw [hc] at hctx
        cases hctx
        exact hsec2 e (by simpa using he)
  · intro fuel hfuel
    exact resolve_mono 2 fuel _ _ _ _ _ _ _ hfuel (by decide)
  · intro fuel hfuel
    exact resolve_mono 2 fuel _ _ _ _ _ _ _ hfuel (by decide)
  · intro fuel hfuel
    exact resolve_mono 2 fuel _ _ _ _ _ _ _ hfuel (by decide)

/-- Witness of C8: with `FILTER_HANDLING` set on the object, a cache that holds
a context under the name changes nothing in the answer. -/
theorem C8_no_filters_inside_filter_witness :
    (({} : FlagWord).CONSTRUCTOR = true ∨ ({} : FlagWord).DESTRUCTOR = true ∨
      ({} : FlagWord).FILTER_HANDLING = true ∨
      ((filterStore true).objects 0).flags.FILTER_HANDLING = true) ∧
    (∀ (fuel : Nat) (cache cache2 : ContextCache),
      TclOOGetCallContext fuel scenarioFoundation (filterStore true) 0 "work" {} cache2 =
        (TclOOGetCallContext fuel scenarioFoundation (filterStore true) 0 "work" {} cache).map
          fun r => { r with cache := cache2 }) :=
  ⟨Or.inr (Or.inr (Or.inr rfl)),
    (C8_no_filters_inside_filter scenarioFoundation (filterStore true) 0 "work" {}
      (Or.inr (Or.inr (Or.inr rfl)))).2.1⟩

theorem filter_nonfilter_append (pre sec : List MInvoke) (hpre : ∀ e ∈ pre, e.isFilter = true)
    (hsec : ∀ e ∈ sec, e.isFilter = false) :
    (pre ++ sec).filter (fun e => !e.isFilter) = sec := by
  rw [List.filter_append]
  have h1 : pre.filter (fun e => !e.isFilter) = [] := by
    rw [List.filter_eq_nil_iff]
    intro e he
    simp [hpre e he]
  have h2 : sec.filter (fun e => !e.isFilter) = sec := by
    rw [List.filter_eq_self]
    intro e he
    simp [hsec e he]
  rw [h1, h2]
  rfl

theorem filter_filter_append (pre sec : List MInvoke) (hpre : ∀ e ∈ pre, e.isFilter = true)
    (hsec : ∀ e ∈ sec, e.isFilter = false) :
    (pre ++ sec).filter (fun e => e.isFilter) = pre := by
  rw [List.filter_append]
  have h1 : pre.filter (fun e => e.isFilter) = pre := by
    rw [List.filter_eq_self]
    intro e he
    exact hpre e he
  have h2 : sec.filter (fun e => e.isFilter) = [] := by
    rw [List.filter_eq_nil_iff]
    intro e he
    simp [hsec e he]
  rw [h1, h2]
  simp

/-- C9: a resolution that builds its context answers for every fuel from some
bound on when the superclass graph is acyclic, and (for flags that are `SPECIAL`
or not) the context it returns carries `OO_UNKNOWN_METHOD` exactly when the
simple chain build for the requested name puts nothing into the chain; then its
global epoch is `-1`, its non-filter entries are those of the simple chain build for the
unknown method name, and the cache has no entry it did not have before.  In the
unknown fallback scenario the chain for `m` is `[A.unknown]`. -/
theorem C9_unknown_fallback (fuel : Nat) (F : Foundation) (S : Store) (oPtr : ObjectPtr)
    (n : Name) (flags : FlagWord) (cache : ContextCache) (r : GetResult) (ctx : CallContext)
    (hb : BuildsContext F S oPtr n flags cache)
    (h : TclOOGetCallContext fuel F S oPtr n flags cache = some r)
    (hctx : r.context = some ctx) :
    (Acyclic S → ∃ N, ∀ fuel1, N ≤ fuel1 →
      ∃ r1, TclOOGetCallContext fuel1 F S oPtr n flags cache = some r1) ∧
    (ctx.flags.OO_UNKNOWN_METHOD = true ↔
      simpleChainEntries F r.store fuel oPtr flags n flags = some []) ∧
    (ctx.flags.OO_UNKNOWN_METHOD = true →
      ctx.globalEpoch = -1 ∧
      simpleChainEntries F r.store fuel oPtr flags F.unknownMethodNameObj {}
        = some (ctx.callChain.filter fun e => !e.isFilter) ∧
      ∀ k, cache k = none → r.cache k = none) ∧
    (∀ (fuel1 : Nat), 1 ≤ fuel1 →
      resolve fuel1 scenarioFoundation unknownStore 0 "m" {} noCache
        = some unknownScenarioContext) := by
  obtain ⟨pre, sec1, _, _, _, hpre, hs1, hsec1, hout⟩ :=
    getCallContext_outcome fuel F S oPtr n flags cache r hb h
  refine ⟨fun hac => TclOOGetCallContext_total F S oPtr n flags cache hac, ?_, ?_, ?_⟩
  · rcases hout with ⟨hne, hc, _⟩ | ⟨_, _, hc, _⟩ | ⟨hnil, _, _, sec2, _, _, hc⟩
    · rw [hctx] at hc
      cases hc
      simp only [FlagWord.callBits, newCallContext, hs1, Option.some.injEq, Bool.false_eq_true,
        false_iff]
      exact hne
    · rw [hctx] at hc
      cases hc
    · rcases hc with ⟨_, hc⟩ | ⟨_, hc⟩
      · rw [hctx] at hc
        cases hc
      · rw [hctx] at hc
        cases hc
        simp [hs1, hnil]
  · intro hunk
    rcases hout with ⟨_, hc, _⟩ | ⟨_, _, hc, _⟩ | ⟨_, _, hca, sec2, hs2, hsec2, hc⟩
    · rw [hctx] at hc
      cases hc
      simp [FlagWord.callBits, newCallContext] at hunk
    · rw [hctx] at hc
      cases hc
    · rcases hc with ⟨_, hc⟩ | ⟨_, hc⟩
      · rw [hctx] at hc
        cases hc
      · rw [hctx] at hc
        cases hc
        refine ⟨rfl, ?_, ?_⟩
        · rw [hs2]
          simp only
          rw [filter_nonfilter_append pre sec2 hpre hsec2]
        · intro k hk
          rcases hca with hca | ⟨hca, c, hcc⟩
          · rw [hca]
            exact hk
          · rw [hca]
            unfold ContextCache.set
            split
            · rename_i hkn
              rw [hkn, hcc] at hk
              cases hk
            · exact hk
  · intro fuel1 hfuel
    exact resolve_mono 1 fuel1 _ _ _ _ _ _ _ hfuel (by decide)

/-- Witness of C9 on the unknown fallback scenario. -/
theorem C9_unknown_fallback_witness :
    BuildsContext scenarioFoundation unknownStore 0 "m" {} noCache ∧
    (∃ r, TclOOGetCallContext 1 scenarioFoundation unknownStore 0 "m" {} noCache = some r ∧
      r.context = some unknownScenarioContext ∧
      (unknownScenarioContext.flags.OO_UNKNOWN_METHOD = true ↔
        simpleChainEntries scenarioFoundation r.store 1 0 {} "m" {} = some [])) := by
  have hr : ∃ r, TclOOGetCallContext 1 scenarioFoundation unknownStore 0 "m" {} noCache = some r ∧
      r.context = some unknownScenarioContext :=
    (resolve_eq_some 1 scenarioFoundation unknownStore 0 "m" {} noCache
      unknownScenarioContext).1 (by decide)
  obtain ⟨r, h, hctx⟩ := hr
  exact ⟨buildsContext_noCache _ _ _ _ _, r, h, hctx,
    (C9_unknown_fallback 1 scenarioFoundation unknownStore 0 "m" {} noCache r
      unknownScenarioContext (buildsContext_noCache _ _ _ _ _) h hctx).2.1⟩

/-- C10: a resolution that builds its context answers for every fuel from some
bound on when the superclass graph is acyclic; it returns no context exactly
when the simple chain build for the requested name puts nothing into the chain
and either the flags are `SPECIAL` or the simple chain build for the unknown
method name puts nothing into it either.  A returned context has more entries
than filter entries, so index `0` is a position of its chain.  E.g. in the
linear override scenario the resolution of a name that nothing defines returns
no context. -/
theorem C10_absent_iff_nothing_found (fuel : Nat) (F : Foundation) (S : Store)
    (oPtr : ObjectPtr) (n : Name) (flags : FlagWord) (cache : ContextCache) (r : GetResult)
    (hb : BuildsContext F S oPtr n flags cache)
    (h : TclOOGetCallContext fuel F S oPtr n flags cache = some r) :
    (Acyclic S → ∃ N, ∀ fuel1, N ≤ fuel1 →
      ∃ r1, TclOOGetCallContext fuel1 F S oPtr n flags cache = some r1) ∧
    (r.context = none ↔
      simpleChainEntries F r.store fuel oPtr flags n flags = some [] ∧
        (flags.SPECIAL = true ∨
          simpleChainEntries F r.store fuel oPtr flags F.unknownMethodNameObj {} = some [])) ∧
    (∀ ctx, r.context = some ctx →
      (ctx.callChain.filter fun e => e.isFilter).length < ctx.callChain.length ∧
      ctx.index = 0 ∧ ctx.index < ctx.callChain.length) ∧
    (∀ (fuel1 : Nat), 2 ≤ fuel1 →
      (TclOOGetCallContext fuel1 scenarioFoundation linearStore 0 "zap" {} noCache).map
        (fun r1 => r1.context) = some none) := by
  obtain ⟨pre, sec1, _, _, _, hpre, hs1, hsec1, hout⟩ :=
    getCallContext_outcome fuel F S oPtr n flags cache r hb h
  refine ⟨fun hac => TclOOGetCallContext_total F S oPtr n flags cache hac, ?_, ?_, ?_⟩
  · rcases hout with ⟨hne, hc, _⟩ | ⟨hnil, hsp, hc, _⟩ | ⟨hnil, hsp, _, sec2, hs2, _, hc⟩
    · rw [hc, hs1]
      simp only [Option.some.injEq, false_iff, not_and, reduceCtorEq]
      intro hx
      exact absurd hx hne
    · rw [hc, hs1, hnil]
      simp [hsp]
    · rcases hc with ⟨hnil2, hc⟩ | ⟨hne2, hc⟩
      · rw [hc, hs1, hs2, hnil, hnil2]
        simp
      · rw [hc, hs1, hs2]
        simp only [Option.some.injEq, false_iff, not_and, not_or, reduceCtorEq]
        intro _
        exact ⟨by simp [hsp], hne2⟩
  · intro ctx hctx
    have hlen : ∀ sec : List MInvoke, sec ≠ [] → (∀ e ∈ sec, e.isFilter = false) →
        ((pre ++ sec).filter fun e => e.isFilter).length < (pre ++ sec).length := by
      intro sec hne hsec
      rw [filter_filter_append pre sec hpre hsec, List.length_append]
      have := List.length_pos.2 hne
      omega
    rcases hout with ⟨hne, hc, _⟩ | ⟨_, _, hc, _⟩ | ⟨_, _, _, sec2, _, hsec2, hc⟩
    · rw [hctx] at hc
      cases hc
      have := hlen sec1 hne hsec1
      exact ⟨this, rfl, by simp only [newCallContext]; omega⟩
    · rw [hctx] at hc
      cases hc
    · rcases hc with ⟨_, hc⟩ | ⟨hne2, hc⟩
      · rw [hctx] at hc
        cases hc
      · rw [hctx] at hc
        cases hc
        have := hlen sec2 hne2 hsec2
        exact ⟨this, rfl, by simp only [newCallContext]; omega⟩
  · intro fuel1 hfuel
    cases hr : TclOOGetCallContext 2 scenarioFoundation linearStore 0 "zap" {} noCache with
    | none =>
      have : (TclOOGetCallContext 2 scenarioFoundation linearStore 0 "zap" {} noCache).isSome
          = true := by decide
      rw [hr] at this
      cases this
    | some r1 =>
      rw [TclOOGetCallContext_mono 2 fuel1 _ _ _ _ _ _ r1 hfuel hr]
      have hnone : (TclOOGetCallContext 2 scenarioFoundation linearStore 0 "zap" {} noCache).map
          (fun r1 => r1.context) = some none := by decide
      rw [hr] at hnone
      exact hnone

/-- Witness of C10 on the unknown fallback scenario. -/
theorem C10_absent_iff_nothing_found_witness :
    BuildsContext scenarioFoundation unknownStore 0 "m" {} noCache ∧
    (∃ r, TclOOGetCallContext 1 scenarioFoundation unknownStore 0 "m" {} noCache = some r ∧
      (r.context = none ↔
        simpleChainEntries scenarioFoundation r.store 1 0 {} "m" {} = some [] ∧
          (({} : FlagWord).SPECIAL = true ∨
            simpleChainEntries scenarioFoundation r.store 1 0 {} "unknown" {} = some []))) := by
  have hr : ∃ r, TclOOGetCallContext 1 scenarioFoundation unknownStore 0 "m" {} noCache = some r ∧
      r.context = some unknownScenarioContext :=
    (resolve_eq_some 1 scenarioFoundation unknownStore 0 "m" {} noCache
      unknownScenarioContext).1 (by decide)
  obtain ⟨r, h, _⟩ := hr
  exact ⟨buildsContext_noCache _ _ _ _ _, r, h,
    (C10_absent_iff_nothing_found 1 scenarioFoundation unknownStore 0 "m" {} noCache r
      (buildsContext_noCache _ _ _ _ _) h).2.1⟩

/-- C6, as stated, fails: in the private hiding scenario a call of `secret`
with no flag at all (so without `PRIVATE`) gets the ordinary chain `[A.secret]`,
not an empty primary chain and the unknown-method fallback. -/
theorem C6_counterexample :
    ({} : FlagWord).PRIVATE_METHOD = false ∧
    ((privateStore false).methods 10).flags.PRIVATE_METHOD = true ∧
    ((privateStore false).classes 1).classMethods.lookup "secret" = some 10 ∧
    resolve 1 scenarioFoundation (privateStore false) 0 "secret" {} noCache
      = some privateScenarioContext ∧
    privateScenarioContext.callChain = [plainEntry 10] ∧
    privateScenarioContext.flags.OO_UNKNOWN_METHOD = false := by
  decide

theorem simpleChainEvents_hidden (S : Store) (fuel : Nat) (oPtr : ObjectPtr) (n : Name)
    (flags : FlagWord) (m : MethodPtr)
    (hpub : flags.PUBLIC_METHOD = true) (hns : flags.SPECIAL = false)
    (hk : flags.KNOWN_STATE = false)
    (hm : (S.classes (S.objects oPtr).selfCls).classMethods.lookup n = some m)
    (hnp : (S.methods m).flags.PUBLIC_METHOD = false)
    (hown : (S.objects oPtr).methods.lookup n = none)
    (hwalk : mixinWalkList S oPtr = []) :
    simpleChainEvents S (fuel + 1) oPtr n flags = some [] := by
  have hc : flags.CONSTRUCTOR = false := by
    unfold FlagWord.SPECIAL at hns
    cases hx : flags.CONSTRUCTOR <;> simp [hx] at hns ⊢
  have hd : flags.DESTRUCTOR = false := by
    unfold FlagWord.SPECIAL at hns
    cases hx : flags.DESTRUCTOR <;> simp [hx] at hns ⊢
  have hprobe : simpleChainProbe S oPtr n flags = some flags := by
    unfold simpleChainProbe
    simp [hk, hns, hown]
  have hstep : classChainStep S n (S.objects oPtr).selfCls flags = none := by
    unfold classChainStep
    simp [hc, hd, hm, hk, hpub, hnp]
  unfold simpleChainEvents
  rw [hprobe]
  simp only [hns, Bool.not_false, if_true, hwalk, collectEvents_nil, Option.some_bind, hown]
  rw [classChainEvents, hstep]
  rfl

/-- C6, amended: for an object whose class `A` defines `secret` as a method
not marked public (a private method), with no mixin in play and no method
`secret` of its own, a resolution of `secret` that builds its context for
flags that contain `PUBLIC` (and are not `SPECIAL`) adds no entry for `A.secret`:
the simple chain build for `secret` leaves the chain empty, and the result is
absent or is the unknown-method fallback.  The resolution answers for every
fuel from some bound on when the superclass graph is acyclic. -/
theorem C6_private_hidden_from_public_calls (fuel : Nat) (F : Foundation) (S : Store)
    (oPtr : ObjectPtr) (n : Name) (flags : FlagWord) (cache : ContextCache) (r : GetResult)
    (m : MethodPtr)
    (hpub : flags.PUBLIC_METHOD = true) (hns : flags.SPECIAL = false)
    (hk : flags.KNOWN_STATE = false)
    (hm : (S.classes (S.objects oPtr).selfCls).classMethods.lookup n = some m)
    (hnp : (S.methods m).flags.PUBLIC_METHOD = false)
    (hown : (S.objects oPtr).methods.lookup n = none)
    (hb : BuildsContext F S oPtr n flags cache)
    (h : TclOOGetCallContext fuel F S oPtr n flags cache = some r)
    (hwalk : mixinWalkList r.store oPtr = []) :
    (Acyclic S → ∃ N, ∀ fuel1, N ≤ fuel1 →
      ∃ r1, TclOOGetCallContext fuel1 F S oPtr n flags cache = some r1) ∧
    simpleChainEntries F r.store fuel oPtr flags n flags = some [] ∧
    (r.context = none ∨
      ∃ ctx, r.context = some ctx ∧ ctx.flags.OO_UNKNOWN_METHOD = true ∧
        ctx.globalEpoch = -1 ∧
        simpleChainEntries F r.store fuel oPtr flags F.unknownMethodNameObj {}
          = some (ctx.callChain.filter fun e => !e.isFilter)) := by
  obtain ⟨pre, sec1, hsame, hI, _, hpre, hs1, hsec1, hout⟩ :=
    getCallContext_outcome fuel F S oPtr n flags cache r hb h
  have hfuel : ∃ k, fuel = k + 1 := by
    cases fuel with
    | zero => simp [InitClassHierarchy] at hI
    | succ k => exact ⟨k, rfl⟩
  obtain ⟨k, hk1⟩ := hfuel
  subst hk1
  have hev : simpleChainEvents r.store (k + 1) oPtr n flags = some [] := by
    apply simpleChainEvents_hidden r.store k oPtr n flags m hpub hns hk _ _ _ hwalk
    · rw [hsame.objects, hsame.classMethods]
      exact hm
    · rw [hsame.methods]
      exact hnp
    · rw [hsame.objects]
      exact hown
  have hnil : simpleChainEntries F r.store (k + 1) oPtr flags n flags = some [] := by
    rw [simpleChainEntries_eq, hev]
    rfl
  refine ⟨fun hac => TclOOGetCallContext_total F S oPtr n flags cache hac, hnil, ?_⟩
  rw [hs1] at hnil
  have hsec : sec1 = [] := Option.some.inj hnil
  rcases hout with ⟨hne, _, _⟩ | ⟨_, hsp, _, _⟩ | ⟨_, _, _, sec2, hs2, hsec2, hc⟩
  · exact absurd hsec hne
  · rw [hns] at hsp
    cases hsp
  · rcases hc with ⟨_, hc⟩ | ⟨_, hc⟩
    · exact Or.inl hc
    · refine Or.inr ⟨_, hc, rfl, rfl, ?_⟩
      rw [hs2]
      simp only
      rw [filter_nonfilter_append pre sec2 hpre hsec2]

/-- Witness of the amended C6: in the private hiding scenario with an
`unknown` method, a call of `secret` restricted to public methods falls back to
`[A.unknown]`. -/
theorem C6_private_hidden_from_public_calls_witness :
    ({ PUBLIC_METHOD := true } : FlagWord).PUBLIC_METHOD = true ∧
    ({ PUBLIC_METHOD := true } : FlagWord).SPECIAL = false ∧
    ({ PUBLIC_METHOD := true } : FlagWord).KNOWN_STATE = false ∧
    ((privateStore true).classes ((privateStore true).objects 0).selfCls).classMethods.lookup
      "secret" = some 10 ∧
    ((privateStore true).methods 10).flags.PUBLIC_METHOD = false ∧
    ((privateStore true).objects 0).methods.lookup "secret" = none ∧
    BuildsContext scenarioFoundation (privateStore true) 0 "secret" { PUBLIC_METHOD := true }
      noCache ∧
    (∃ r, TclOOGetCallContext 1 scenarioFoundation (privateStore true) 0 "secret"
        { PUBLIC_METHOD := true } noCache = some r ∧
      mixinWalkList r.store 0 = [] ∧
      r.context = some privateFallbackContext ∧
      simpleChainEntries scenarioFoundation r.store 1 0 { PUBLIC_METHOD := true } "secret"
        { PUBLIC_METHOD := true } = some []) := by
  have hr : ∃ r, TclOOGetCallContext 1 scenarioFoundation (privateStore true) 0 "secret"
      { PUBLIC_METHOD := true } noCache = some r ∧ r.context = some privateFallbackContext :=
    (resolve_eq_some 1 scenarioFoundation (privateStore true) 0 "secret"
      { PUBLIC_METHOD := true } noCache privateFallbackContext).1 (by decide)
  obtain ⟨r, h, hctx⟩ := hr
  have hwalk : mixinWalkList r.store 0 = [] := by
    have hmap : (TclOOGetCallContext 1 scenarioFoundation (privateStore true) 0 "secret"
        { PUBLIC_METHOD := true } noCache).map (fun r1 => mixinWalkList r1.store 0)
          = some [] := by decide
    rw [h] at hmap
    exact Option.some.inj hmap
  exact ⟨rfl, rfl, rfl, by decide, rfl, by decide, buildsContext_noCache _ _ _ _ _, r, h, hwalk,
    hctx,
    (C6_private_hidden_from_public_calls 1 scenarioFoundation (privateStore true) 0 "secret"
      { PUBLIC_METHOD := true } noCache r 10 rfl rfl rfl (by decide) rfl (by decide)
      (buildsContext_noCache _ _ _ _ _) h hwalk).2.1⟩

theorem reaches_of_same {S S1 : Store} (h : SameButHierarchy S S1) (c Z : ClassPtr)
    (hr : reaches S1 c Z) : reaches S c Z :=
  Relation.ReflTransGen.mono (fun a b hab => (superOf_of_same h a b).1 hab) hr

/-- A built chain for flags that are not `SPECIAL`, with the groups of the
simple chain build behind its non-filter part. -/
theorem built_groups (fuel : Nat) (F : Foundation) (S : Store) (oPtr : ObjectPtr) (n : Name)
    (flags : FlagWord) (cache : ContextCache) (r : GetResult) (ctx : CallContext)
    (hbr : BackRefsOk S) (hns : flags.SPECIAL = false)
    (hb : BuildsContext F S oPtr n flags cache)
    (h : TclOOGetCallContext fuel F S oPtr n flags cache = some r)
    (hctx : r.context = some ctx) :
    ∃ (pre : List MInvoke) (es : List MethodPtr),
      (∀ e ∈ pre, e.isFilter = true) ∧
      ctx.callChain = pre ++ entriesOf r.store flags.callBits (r.store.objects oPtr).selfCls es ∧
      ∀ k : Nat, ∃ e1a e1b own e2, es = e1a ++ (e1b ++ (own ++ e2)) ∧
        (∀ m ∈ e1a, ∃ c ∈ (mixinWalkList r.store oPtr).take k, ∃ Z, reaches S c Z ∧
          (S.methods m).declaringClassPtr = some Z) ∧
        (∀ m ∈ e1b, ∃ c ∈ (mixinWalkList r.store oPtr).drop k, ∃ Z, reaches S c Z ∧
          (S.methods m).declaringClassPtr = some Z) ∧
        (∀ m ∈ own, (S.methods m).declaringClassPtr = none) ∧
        (∀ m ∈ e2, ∃ Z, reaches S (S.objects oPtr).selfCls Z ∧
          (S.methods m).declaringClassPtr = some Z) := by
  obtain ⟨_, _, hsame, hI, _, _, _, _, _⟩ :=
    getCallContext_outcome fuel F S oPtr n flags cache r hb h
  obtain ⟨S1, pre, es, unk, hI1, hall, _, hes, _, hc⟩ :=
    getCallContext_shape fuel F S oPtr n flags cache r ctx hb h hctx
  rw [hI] at hI1
  cases hI1
  refine ⟨pre, es, fun e he => (hall e he).1, by rw [hc], ?_⟩
  intro k
  have hns1 : (if unk = true then ({} : FlagWord) else flags).SPECIAL = false := by
    cases unk with
    | true => rfl
    | false => simpa using hns
  obtain ⟨e1a, e1b, own, e2, heq, h1, h2, h3, h4⟩ :=
    simpleChainEvents_groups r.store (BackRefsOk.of_same hsame hbr) fuel oPtr _ _ es hns1 hes k
  refine ⟨e1a, e1b, own, e2, heq, ?_, ?_, ?_, ?_⟩
  · intro m hm
    obtain ⟨c, hc, Z, hr, hZ⟩ := h1 m hm
    exact ⟨c, hc, Z, reaches_of_same hsame c Z hr, by rw [← hsame.methods]; exact hZ⟩
  · intro m hm
    obtain ⟨c, hc, Z, hr, hZ⟩ := h2 m hm
    exact ⟨c, hc, Z, reaches_of_same hsame c Z hr, by rw [← hsame.methods]; exact hZ⟩
  · intro m hm
    rw [← hsame.methods]
    exact h3 m hm
  · intro m hm
    obtain ⟨Z, hr, hZ⟩ := h4 m hm
    rw [hsame.objects] at hr
    exact ⟨Z, reaches_of_same hsame _ Z hr, by rw [← hsame.methods]; exact hZ⟩

/-- The order of the groups: first the cut `k` of the mixin walk list, then
mixins against the object's own method, then the own method against the walk
of the class. -/
theorem built_group_order (fuel : Nat) (F : Foundation) (S : Store) (oPtr : ObjectPtr)
    (n : Name) (flags : FlagWord) (cache : ContextCache) (r : GetResult) (ctx : CallContext)
    (hbr : BackRefsOk S) (hns : flags.SPECIAL = false)
    (hb : BuildsContext F S oPtr n flags cache)
    (h : TclOOGetCallContext fuel F S oPtr n flags cache = some r)
    (hctx : r.context = some ctx) (i j : Nat) (ea eb : MInvoke)
    (hi : ctx.callChain[i]? = some ea) (hj : ctx.callChain[j]? = some eb)
    (hfa : ea.isFilter = false) (hfb : eb.isFilter = false) :
    (∀ (k : Nat) (X Y : ClassPtr),
      (S.methods ea.mPtr).declaringClassPtr = some X →
      (S.methods eb.mPtr).declaringClassPtr = some Y →
      (∀ c ∈ (mixinWalkList r.store oPtr).drop k, ¬ reaches S c X) →
      ¬ reaches S (S.objects oPtr).selfCls X →
      (∀ c ∈ (mixinWalkList r.store oPtr).take k, ¬ reaches S c Y) → i < j) ∧
    (∀ (X : ClassPtr), (S.methods ea.mPtr).declaringClassPtr = some X →
      ¬ reaches S (S.objects oPtr).selfCls X →
      (S.methods eb.mPtr).declaringClassPtr = none → i < j) ∧
    (∀ (Y : ClassPtr), (S.methods ea.mPtr).declaringClassPtr = none →
      (S.methods eb.mPtr).declaringClassPtr = some Y →
      (∀ c ∈ mixinWalkList r.store oPtr, ¬ reaches S c Y) → i < j) := by
  obtain ⟨pre, es, hpre, hchain, hgroups⟩ :=
    built_groups fuel F S oPtr n flags cache r ctx hbr hns hb h hctx
  rw [hchain] at hi hj
  obtain ⟨hli, hi1⟩ := getElem?_after_filters pre _ hpre i ea hi hfa
  obtain ⟨hlj, hj1⟩ := getElem?_after_filters pre _ hpre j eb hj hfb
  have hbmem := (entriesOf_mem _ _ _ es eb (List.getElem?_mem hj1)).2.1
  refine ⟨?_, ?_, ?_⟩
  · intro k X Y hX hY hdrop hself htake
    obtain ⟨e1a, e1b, own, e2, heq, h1, h2, h3, h4⟩ := hgroups k
    subst heq
    have ha : ea.mPtr ∉ e1b ++ (own ++ e2) := by
      intro hm
      simp only [List.mem_append] at hm
      rcases hm with hm | hm | hm
      · obtain ⟨c, hc, Z, hr, hZ⟩ := h2 _ hm
        rw [hX] at hZ
        cases hZ
        exact hdrop c hc hr
      · have := h3 _ hm
        rw [hX] at this
        cases this
      · obtain ⟨Z, hr, hZ⟩ := h4 _ hm
        rw [hX] at hZ
        cases hZ
        exact hself hr
    have hb1 : eb.mPtr ∈ e1b ++ (own ++ e2) := by
      rcases List.mem_append.1 hbmem with hm | hm
      · obtain ⟨c, hc, Z, hr, hZ⟩ := h1 _ hm
        rw [hY] at hZ
        cases hZ
        exact absurd hr (htake c hc)
      · exact hm
    have := entriesOf_order_split _ _ _ e1a _ _ _ ea eb hi1 hj1 ha hb1
    omega
  · intro X hX hself hnone
    obtain ⟨e1a, e1b, own, e2, heq, h1, h2, h3, h4⟩ := hgroups 0
    have heq1 : es = (e1a ++ e1b) ++ (own ++ e2) := by rw [heq]; simp
    subst heq1
    have ha : ea.mPtr ∉ own ++ e2 := by
      intro hm
      rcases List.mem_append.1 hm with hm | hm
      · have := h3 _ hm
        rw [hX] at this
        cases this
      · obtain ⟨Z, hr, hZ⟩ := h4 _ hm
        rw [hX] at hZ
        cases hZ
        exact hself hr
    have hb1 : eb.mPtr ∈ own ++ e2 := by
      rcases List.mem_append.1 hbmem with hm | hm
      · rcases List.mem_append.1 hm with hm | hm
        · obtain ⟨c, hc, Z, hr, hZ⟩ := h1 _ hm
          rw [hnone] at hZ
          cases hZ
        · obtain ⟨c, hc, Z, hr, hZ⟩ := h2 _ hm
          rw [hnone] at hZ
          cases hZ
      · exact hm
    have := entriesOf_order_split _ _ _ (e1a ++ e1b) _ _ _ ea eb hi1 hj1 ha hb1
    omega
  · intro Y hnone hY hmix
    obtain ⟨e1a, e1b, own, e2, heq, h1, h2, h3, h4⟩ := hgroups 0
    have heq1 : es = (e1a ++ e1b ++ own) ++ e2 := by rw [heq]; simp
    subst heq1
    have ha : ea.mPtr ∉ e2 := by
      intro hm
      obtain ⟨Z, hr, hZ⟩ := h4 _ hm
      rw [hnone] at hZ
      cases hZ
    have hb1 : eb.mPtr ∈ e2 := by
      rcases List.mem_append.1 hbmem with hm | hm
      · rcases List.mem_append.1 hm with hm | hm
        · rcases List.mem_append.1 hm with hm | hm
          · obtain ⟨c, hc, Z, hr, hZ⟩ := h1 _ hm
            rw [hY] at hZ
            cases hZ
            exact absurd hr (hmix c (List.mem_of_mem_take hc))
          · obtain ⟨c, hc, Z, hr, hZ⟩ := h2 _ hm
            rw [hY] at hZ
            cases hZ
            exact absurd hr (hmix c (List.mem_of_mem_drop hc))
        · have := h3 _ hm
          rw [hY] at this
          cases this
      · exact hm
    have := entriesOf_order_split _ _ _ (e1a ++ e1b ++ own) _ _ _ ea eb hi1 hj1 ha hb1
    omega

/-- C5: a resolution that builds its context answers for every fuel from some
bound on when the superclass graph is acyclic; for flags that are not
`SPECIAL`, with methods that name their declaring class, the non-filter entries
of the context it returns follow the order of the build.  The mixin classes are walked in the order of the
walk list (the object's mixins in declared order, then the mixins of its class,
then the mixins of each class of the cached hierarchy), then comes the object's
own method, then the walk of the object's class.  For any cut `k` of the walk
list, an entry whose class is reached only through the first `k` mixin classes
stands before an entry whose class is not reached through them; an entry of a
class that the object's class does not reach stands before the object's own
method; the own method stands before an entry of a class that no mixin class
reaches.  So when the ancestries of the mixin classes are disjoint from that of
the object's class, the entries of the mixin classes come first, then the own
method, then the entries of the class and its ancestors.  In the mixin
precedence scenario the chain is `[M.m, A.m]`, and `[M.m, o.m, A.m]` when the
object has its own `m`. -/
theorem C5_mixins_then_own_then_class (fuel : Nat) (F : Foundation) (S : Store)
    (oPtr : ObjectPtr) (n : Name) (flags : FlagWord) (cache : ContextCache) (r : GetResult)
    (ctx : CallContext)
    (hbr : BackRefsOk S) (hns : flags.SPECIAL = false)
    (hb : BuildsContext F S oPtr n flags cache)
    (h : TclOOGetCallContext fuel F S oPtr n flags cache = some r)
    (hctx : r.context = some ctx) :
    (Acyclic S → ∃ N, ∀ fuel1, N ≤ fuel1 →
      ∃ r1, TclOOGetCallContext fuel1 F S oPtr n flags cache = some r1) ∧
    (∀ (i j : Nat) (ea eb : MInvoke), ctx.callChain[i]? = some ea →
      ctx.callChain[j]? = some eb → ea.isFilter = false → eb.isFilter = false →
      (∀ (k : Nat) (X Y : ClassPtr),
        (S.methods ea.mPtr).declaringClassPtr = some X →
        (S.methods eb.mPtr).declaringClassPtr = some Y →
        (∀ c ∈ (mixinWalkList r.store oPtr).drop k, ¬ reaches S c X) →
        ¬ reaches S (S.objects oPtr).selfCls X →
        (∀ c ∈ (mixinWalkList r.store oPtr).take k, ¬ reaches S c Y) → i < j) ∧
      (∀ (X : ClassPtr), (S.methods ea.mPtr).declaringClassPtr = some X →
        ¬ reaches S (S.objects oPtr).selfCls X →
        (S.methods eb.mPtr).declaringClassPtr = none → i < j) ∧
      (∀ (Y : ClassPtr), (S.methods ea.mPtr).declaringClassPtr = none →
        (S.methods eb.mPtr).declaringClassPtr = some Y →
        (∀ c ∈ mixinWalkList r.store oPtr, ¬ reaches S c Y) → i < j)) ∧
    ((∀ c ∈ mixinWalkList r.store oPtr, ∀ Z, reaches S c Z →
        ¬ reaches S (S.objects oPtr).selfCls Z) →
      ∀ (i j : Nat) (ea eb : MInvoke), ctx.callChain[i]? = some ea →
        ctx.callChain[j]? = some eb → ea.isFilter = false → eb.isFilter = false →
        (((∃ c ∈ mixinWalkList r.store oPtr, ∃ X, reaches S c X ∧
              (S.methods ea.mPtr).declaringClassPtr = some X) ∧
            ((S.methods eb.mPtr).declaringClassPtr = none ∨
              ∃ Y, reaches S (S.objects oPtr).selfCls Y ∧
                (S.methods eb.mPtr).declaringClassPtr = some Y)) ∨
          ((S.methods ea.mPtr).declaringClassPtr = none ∧
            ∃ Y, reaches S (S.objects oPtr).selfCls Y ∧
              (S.methods eb.mPtr).declaringClassPtr = some Y)) → i < j) ∧
    (∀ (fuel1 : Nat), 1 ≤ fuel1 →
      (resolve fuel1 scenarioFoundation (mixinStore false) 0 "m" {} noCache).map
        (fun c => c.callChain) = some [plainEntry 10, plainEntry 20]) ∧
    (∀ (fuel1 : Nat), 1 ≤ fuel1 →
      (resolve fuel1 scenarioFoundation (mixinStore true) 0 "m" {} noCache).map
        (fun c => c.callChain) = some [plainEntry 10, plainEntry 30, plainEntry 20]) := by
  refine ⟨fun hac => TclOOGetCallContext_total F S oPtr n flags cache hac, ?_, ?_, ?_, ?_⟩
  · intro i j ea eb hi hj hfa hfb
    exact built_group_order fuel F S oPtr n flags cache r ctx hbr hns hb h hctx i j ea eb
      hi hj hfa hfb
  · intro hdis i j ea eb hi hj hfa hfb hcase
    obtain ⟨hA, hB, hC⟩ := built_group_order fuel F S oPtr n flags cache r ctx hbr hns hb h hctx
      i j ea eb hi hj hfa hfb
    rcases hcase with ⟨⟨c, hc, X, hr, hX⟩, hnone | ⟨Y, hrY, hY⟩⟩ | ⟨hnone, Y, hrY, hY⟩
    · exact hB X hX (hdis c hc X hr) hnone
    · refine hA (mixinWalkList r.store oPtr).length X Y hX hY ?_ (hdis c hc X hr) ?_
      · intro c1 hc1
        simp at hc1
      · intro c1 hc1 hr1
        rw [List.take_length] at hc1
        exact hdis c1 hc1 Y hr1 hrY
    · exact hC Y hnone hY (fun c1 hc1 hr1 => hdis c1 hc1 Y hr1 hrY)
  · intro fuel1 hfuel
    exact resolve_chain_mono 1 fuel1 _ _ _ _ _ _ _ hfuel (by decide)
  · intro fuel1 hfuel
    exact resolve_chain_mono 1 fuel1 _ _ _ _ _ _ _ hfuel (by decide)

theorem mixinStore_backRefs : BackRefsOk (mixinStore true) := by
  constructor
  · intro c n m h
    rcases c with _ | _ | _ | c <;> simp [mixinStore, List.lookup] at h
    · split at h
      · cases h; rfl
      · cases h
    · split at h
      · cases h; rfl
      · cases h
  · intro c m h
    rcases c with _ | _ | _ | c <;> simp [mixinStore] at h
  · intro c m h
    rcases c with _ | _ | _ | c <;> simp [mixinStore] at h
  · intro o n m h
    simp only [mixinStore, if_true, List.lookup] at h
    split at h
    · cases h; rfl
    · cases h

/-- Witness of C5 on the mixin precedence scenario with an own method. -/
theorem C5_mixins_then_own_then_class_witness :
    BackRefsOk (mixinStore true) ∧ ({} : FlagWord).SPECIAL = false ∧
    BuildsContext scenarioFoundation (mixinStore true) 0 "m" {} noCache ∧
    (∃ r, TclOOGetCallContext 1 scenarioFoundation (mixinStore true) 0 "m" {} noCache = some r ∧
      r.context = some mixinOwnContext ∧
      ((∀ c ∈ mixinWalkList r.store 0, ∀ Z, reaches (mixinStore true) c Z →
          ¬ reaches (mixinStore true) ((mixinStore true).objects 0).selfCls Z) →
        ∀ (i j : Nat) (ea eb : MInvoke), mixinOwnContext.callChain[i]? = some ea →
          mixinOwnContext.callChain[j]? = some eb → ea.isFilter = false → eb.isFilter = false →
          (((∃ c ∈ mixinWalkList r.store 0, ∃ X, reaches (mixinStore true) c X ∧
                ((mixinStore true).methods ea.mPtr).declaringClassPtr = some X) ∧
              (((mixinStore true).methods eb.mPtr).declaringClassPtr = none ∨
                ∃ Y, reaches (mixinStore true) ((mixinStore true).objects 0).selfCls Y ∧
                  ((mixinStore true).methods eb.mPtr).declaringClassPtr = some Y)) ∨
            (((mixinStore true).methods ea.mPtr).declaringClassPtr = none ∧
              ∃ Y, reaches (mixinStore true) ((mixinStore true).objects 0).selfCls Y ∧
                ((mixinStore true).methods eb.mPtr).declaringClassPtr = some Y)) → i < j)) := by
  have hr : ∃ r, TclOOGetCallContext 1 scenarioFoundation (mixinStore true) 0 "m" {} noCache
      = some r ∧ r.context = some mixinOwnContext :=
    (resolve_eq_some 1 scenarioFoundation (mixinStore true) 0 "m" {} noCache
      mixinOwnContext).1 (by decide)
  obtain ⟨r, h, hctx⟩ := hr
  exact ⟨mixinStore_backRefs, rfl, buildsContext_noCache _ _ _ _ _, r, h, hctx,
    (C5_mixins_then_own_then_class 1 scenarioFoundation (mixinStore true) 0 "m" {} noCache r
      mixinOwnContext mixinStore_backRefs rfl (buildsContext_noCache _ _ _ _ _) h hctx).2.2.1⟩

/-- What one step of a call chain does to the state and answers. -/
theorem TclOOInvokeContext_spec (callProc : CallProc) (st : InterpState)
    (ctx : CallContext) (objv : List Name) (entry : MInvoke)
    (hidx : ctx.callChain.get? ctx.index = some entry)
    (htype : (st.store.methods entry.mPtr).typePtr ≠ none) :
    ∃ stIn stOut : InterpState,
      TclOOInvokeContext callProc st ctx objv =
        some (stOut, (callProc entry.mPtr ctx objv stIn).2) ∧
      (stIn.store.objects ctx.oPtr).flags.FILTER_HANDLING =
        (entry.isFilter || ctx.flags.FILTER_HANDLING) ∧
      stIn.store.objects ctx.oPtr =
        { st.store.objects ctx.oPtr with
          flags := { (st.store.objects ctx.oPtr).flags with
            FILTER_HANDLING := (entry.isFilter || ctx.flags.FILTER_HANDLING) } } ∧
      (∀ o, o ≠ ctx.oPtr → stIn.store.objects o = st.store.objects o) ∧
      stIn.store.classes = st.store.classes ∧ stIn.store.methods = st.store.methods ∧
      (stOut.store.objects ctx.oPtr).flags.FILTER_HANDLING =
        (st.store.objects ctx.oPtr).flags.FILTER_HANDLING ∧
      stOut.store.objects ctx.oPtr =
        { (callProc entry.mPtr ctx objv stIn).1.store.objects ctx.oPtr with
          flags := { ((callProc entry.mPtr ctx objv stIn).1.store.objects ctx.oPtr).flags with
            FILTER_HANDLING := (st.store.objects ctx.oPtr).flags.FILTER_HANDLING } } ∧
      (∀ o, o ≠ ctx.oPtr →
        stOut.store.objects o = (callProc entry.mPtr ctx objv stIn).1.store.objects o) ∧
      stOut.store.classes = (callProc entry.mPtr ctx objv stIn).1.store.classes ∧
      stOut.store.methods = (callProc entry.mPtr ctx objv stIn).1.store.methods := by
  have htype1 : ∃ t, (st.store.methods entry.mPtr).typePtr = some t := by
    cases h : (st.store.methods entry.mPtr).typePtr with
    | none => exact absurd h htype
    | some t => exact ⟨t, rfl⟩
  obtain ⟨t, ht⟩ := htype1
  cases hfirst : (ctx.index == 0) with
  | true =>
    refine ⟨⟨setFilterHandling st.store ctx.oPtr (entry.isFilter || ctx.flags.FILTER_HANDLING),
      preserveChain ctx.callChain st.preserved⟩,
      ⟨setFilterHandling (callProc entry.mPtr ctx objv
          ⟨setFilterHandling st.store ctx.oPtr (entry.isFilter || ctx.flags.FILTER_HANDLING),
            preserveChain ctx.callChain st.preserved⟩).1.store ctx.oPtr
          (st.store.objects ctx.oPtr).flags.FILTER_HANDLING,
        releaseChain ctx.callChain (callProc entry.mPtr ctx objv
          ⟨setFilterHandling st.store ctx.oPtr (entry.isFilter || ctx.flags.FILTER_HANDLING),
            preserveChain ctx.callChain st.preserved⟩).1.preserved⟩, ?_, ?_⟩
    · simp only [TclOOInvokeContext, hidx, hfirst, if_true]
      simp only [setFilterHandling, ht]
    · refine ⟨?_, ?_, ?_, ?_, ?_, ?_, ?_, ?_, ?_, ?_⟩ <;>
        simp [setFilterHandling, Function.update]
      · intro o ho h; exact absurd h ho
      · intro o ho h; exact absurd h ho
  | false =>
    refine ⟨⟨setFilterHandling st.store ctx.oPtr (entry.isFilter || ctx.flags.FILTER_HANDLING),
      st.preserved⟩,
      ⟨setFilterHandling (callProc entry.mPtr ctx objv
          ⟨setFilterHandling st.store ctx.oPtr (entry.isFilter || ctx.flags.FILTER_HANDLING),
            st.preserved⟩).1.store ctx.oPtr
          (st.store.objects ctx.oPtr).flags.FILTER_HANDLING,
        (callProc entry.mPtr ctx objv
          ⟨setFilterHandling st.store ctx.oPtr (entry.isFilter || ctx.flags.FILTER_HANDLING),
            st.preserved⟩).1.preserved⟩, ?_, ?_⟩
    · simp only [TclOOInvokeContext, hidx, hfirst, Bool.false_eq_true, if_false]
      simp only [setFilterHandling, ht]
    · refine ⟨?_, ?_, ?_, ?_, ?_, ?_, ?_, ?_, ?_, ?_⟩ <;>
        simp [setFilterHandling, Function.update]
      · intro o ho h; exact absurd h ho
      · intro o ho h; exact absurd h ho

/-- C13: for a context whose `index` is a position of its chain and whose
entry there has an implementation, `TclOOInvokeContext` answers; the
implementation of that entry is run in a state where the object's
`FILTER_HANDLING` bit is set exactly when the entry is a filter or the context
flags have the bit (the rest of the object, the other objects, the classes and
the methods being as on entry); the status returned is the status of the
implementation; and in the state left behind the object's `FILTER_HANDLING` bit
has the value it had on entry, whatever the implementation did, while
everything else of the store is as the implementation left it. -/
theorem C13_invoke_restores_filter_flag (callProc : CallProc) (st : InterpState)
    (ctx : CallContext) (objv : List Name) (entry : MInvoke)
    (hidx : ctx.callChain.get? ctx.index = some entry)
    (htype : (st.store.methods entry.mPtr).typePtr ≠ none) :
    ∃ stIn stOut : InterpState,
      TclOOInvokeContext callProc st ctx objv =
        some (stOut, (callProc entry.mPtr ctx objv stIn).2) ∧
      (stIn.store.objects ctx.oPtr).flags.FILTER_HANDLING =
        (entry.isFilter || ctx.flags.FILTER_HANDLING) ∧
      stIn.store.objects ctx.oPtr =
        { st.store.objects ctx.oPtr with
          flags := { (st.store.objects ctx.oPtr).flags with
            FILTER_HANDLING := (entry.isFilter || ctx.flags.FILTER_HANDLING) } } ∧
      (∀ o, o ≠ ctx.oPtr → stIn.store.objects o = st.store.objects o) ∧
      stIn.store.classes = st.store.classes ∧ stIn.store.methods = st.store.methods ∧
      (stOut.store.objects ctx.oPtr).flags.FILTER_HANDLING =
        (st.store.objects ctx.oPtr).flags.FILTER_HANDLING ∧
      stOut.store.objects ctx.oPtr =
        { (callProc entry.mPtr ctx objv stIn).1.store.objects ctx.oPtr with
          flags := { ((callProc entry.mPtr ctx objv stIn).1.store.objects ctx.oPtr).flags with
            FILTER_HANDLING := (st.store.objects ctx.oPtr).flags.FILTER_HANDLING } } ∧
      (∀ o, o ≠ ctx.oPtr →
        stOut.store.objects o = (callProc entry.mPtr ctx objv stIn).1.store.objects o) ∧
      stOut.store.classes = (callProc entry.mPtr ctx objv stIn).1.store.classes ∧
      stOut.store.methods = (callProc entry.mPtr ctx objv stIn).1.store.methods :=
  TclOOInvokeContext_spec callProc st ctx objv entry hidx htype

/-- Witness of C13: the first step of the linear override chain with an
implementation that sets the bit and changes another one; the status `7` comes
back, the bit is clear again afterwards and the other change is kept. -/
theorem C13_invoke_restores_filter_flag_witness :
    linearScenarioContext.callChain.get? linearScenarioContext.index = some ⟨20, false, none⟩ ∧
    (linearState.store.methods 20).typePtr ≠ none ∧
    ∃ stIn stOut : InterpState,
      TclOOInvokeContext meddlingCallProc linearState linearScenarioContext [] =
        some (stOut, 7) ∧
      (stIn.store.objects 0).flags.FILTER_HANDLING = false ∧
      (stOut.store.objects 0).flags.FILTER_HANDLING = false ∧
      (stOut.store.objects 0).flags.otherBits = 5 := by
  obtain ⟨stIn, stOut, h1, h2, _, _, _, _, h7, h8, _⟩ :=
    C13_invoke_restores_filter_flag meddlingCallProc linearState linearScenarioContext []
      ⟨20, false, none⟩ rfl (by decide)
  exact ⟨rfl, by decide, stIn, stOut, h1, h2, h7, congrArg (fun o => o.flags.otherBits) h8⟩

theorem typePtr_of_passesTests (S : Store) (ctxFlags : FlagWord) (selfCls : ClassPtr)
    (m : MethodPtr) (h : passesTests S ctxFlags selfCls m = true) :
    (S.methods m).typePtr ≠ none := by
  unfold passesTests at h
  simp only [Bool.and_eq_true, bne_iff_ne, ne_eq] at h
  exact h.1

/-- C24: in a context that a resolution builds, every entry of the chain
(filter entries, entries of the requested name or of the constructor or
destructor, entries of the unknown-method fallback alike) holds a method whose
type pointer is set (an entry cannot hold `NULL`: the chain builder returns at
once for it); hence `TclOOInvokeContext` answers at every position of the
chain, in any state whose methods are those of the store.  The resolution
answers for every fuel from some bound on when the superclass graph is
acyclic. -/
theorem C24_no_placeholder_entries (fuel : Nat) (F : Foundation) (S : Store) (oPtr : ObjectPtr)
    (n : Name) (flags : FlagWord) (cache : ContextCache) (r : GetResult) (ctx : CallContext)
    (hb : BuildsContext F S oPtr n flags cache)
    (h : TclOOGetCallContext fuel F S oPtr n flags cache = some r)
    (hctx : r.context = some ctx) :
    (∀ e ∈ ctx.callChain, (S.methods e.mPtr).typePtr ≠ none) ∧
    (∀ (callProc : CallProc) (st : InterpState) (objv : List Name) (i : Nat),
      st.store.methods = S.methods → i < ctx.callChain.length →
      ∃ out, TclOOInvokeContext callProc st { ctx with index := i } objv = some out) ∧
    (Acyclic S → ∃ N, ∀ fuel1, N ≤ fuel1 →
      ∃ r1, TclOOGetCallContext fuel1 F S oPtr n flags cache = some r1) := by
  have hall : ∀ e ∈ ctx.callChain, (S.methods e.mPtr).typePtr ≠ none := by
    obtain ⟨S1, pre, es, unk, hI, hpre, _, _, _, hc⟩ :=
      getCallContext_shape fuel F S oPtr n flags cache r ctx hb h hctx
    have hsame := InitClassHierarchy_frame F fuel S _ S1 hI
    intro e he
    rw [hc] at he
    simp only [List.mem_append] at he
    rw [← hsame.methods]
    rcases he with he | he
    · exact typePtr_of_passesTests S1 _ _ _ (hpre e he).2
    · exact typePtr_of_passesTests S1 _ _ _ (entriesOf_mem S1 _ _ es e he).2.2
  refine ⟨hall, ?_, fun hac => TclOOGetCallContext_total F S oPtr n flags cache hac⟩
  intro callProc st objv i hm hi
  have hget : ctx.callChain.get? i = some (ctx.callChain.get ⟨i, hi⟩) := List.get?_eq_get hi
  have hty := hall _ (List.get_mem ctx.callChain i hi)
  rw [← hm] at hty
  obtain ⟨_, stOut, hinv, _⟩ :=
    TclOOInvokeContext_spec callProc st { ctx with index := i } objv _ hget hty
  exact ⟨_, hinv⟩

/-- Witness of C24 on the placeholder scenario: the entry of `B` without
implementation is not in the chain. -/
theorem C24_no_placeholder_entries_witness :
    BuildsContext scenarioFoundation placeholderStore 0 "m" { PUBLIC_METHOD := true } noCache ∧
    (∃ r, TclOOGetCallContext 2 scenarioFoundation placeholderStore 0 "m"
        { PUBLIC_METHOD := true } noCache = some r ∧
      r.context = some placeholderContext ∧
      (∀ e ∈ placeholderContext.callChain, (placeholderStore.methods e.mPtr).typePtr ≠ none)) := by
  have hr : ∃ r, TclOOGetCallContext 2 scenarioFoundation placeholderStore 0 "m"
      { PUBLIC_METHOD := true } noCache = some r ∧ r.context = some placeholderContext :=
    (resolve_eq_some 2 scenarioFoundation placeholderStore 0 "m" { PUBLIC_METHOD := true } noCache
      placeholderContext).1 (by decide)
  obtain ⟨r, h, hctx⟩ := hr
  exact ⟨buildsContext_noCache _ _ _ _ _, r, h, hctx,
    (C24_no_placeholder_entries 2 scenarioFoundation placeholderStore 0 "m"
      { PUBLIC_METHOD := true } noCache r placeholderContext (buildsContext_noCache _ _ _ _ _)
      h hctx).1⟩

/-- The store and the context that the construction of a fresh context answers
with do not depend on the cache. -/
theorem buildCallContext_answer (fuel : Nat) (F : Foundation) (S : Store) (oPtr : ObjectPtr)
    (n : Name) (flags : FlagWord) (doF : Bool) (cache cache2 : ContextCache) :
    (buildCallContext fuel F S oPtr n flags doF cache2).map (fun r => (r.store, r.context)) =
      (buildCallContext fuel F S oPtr n flags doF cache).map (fun r => (r.store, r.context)) := by
  unfold buildCallContext
  cases InitClassHierarchy F fuel S (S.objects oPtr).selfCls with
  | none => rfl
  | some S1 =>
    simp only [Option.some_bind]
    cases (if doF = true then
        addAllFilters S1 fuel oPtr { contextPtr := newCallContext F S oPtr flags, filterLength := 0 }
      else some { contextPtr := newCallContext F S oPtr flags, filterLength := 0 }) with
    | none => rfl
    | some cbF =>
      simp only [Option.some_bind]
      cases AddSimpleChainToCallContext S1 fuel oPtr n
          { cbF with filterLength := cbF.numCallChain } false flags none with
      | none => rfl
      | some cb2 =>
        simp only [Option.some_bind]
        split
        · split
          · rfl
          · cases AddSimpleChainToCallContext S1 fuel oPtr F.unknownMethodNameObj cb2 false {}
              none with
            | none => rfl
            | some cb3 =>
              simp only [Option.some_bind]
              split <;> rfl
        · split <;> rfl

/-- The cache that the construction of a fresh context leaves behind is the
one it was given, with the slot of the name emptied or not. -/
theorem buildCallContext_cache_slot (fuel : Nat) (F : Foundation) (S : Store) (oPtr : ObjectPtr)
    (n : Name) (flags : FlagWord) (doF : Bool) (cache : ContextCache) (r : GetResult)
    (h : buildCallContext fuel F S oPtr n flags doF cache = some r) :
    r.cache = cache ∨ r.cache = cache.set n none := by
  obtain ⟨_, _, _, _, _, _, _, _, hcases⟩ :=
    buildCallContext_spec fuel F S oPtr n flags doF cache r h
  rcases hcases with ⟨_, _, hc⟩ | ⟨_, _, _, hc⟩ | ⟨_, _, hc, _⟩
  · cases doF with
    | true => exact Or.inr (by simpa using hc)
    | false => exact Or.inl (by simpa using hc)
  · exact Or.inl hc
  · exact Or.inl hc

/-- C11: a resolution that looks at the cache (flags without `CONSTRUCTOR`,
`DESTRUCTOR` and `FILTER_HANDLING`, object without `FILTER_HANDLING`) and finds
the context `c` under the name: when both epochs of `c` are the current ones,
the answer, for any fuel, is `c` itself, the store is untouched and the slot
of the name is left with no context; otherwise the store and the context
answered with are those of the same resolution with an empty cache, and the
slot of the name is left with no context (`c` is gone).  So after a change of
the epoch of the foundation or of the object the context is built afresh.  The
resolution answers for every fuel from some bound on when the superclass graph
is acyclic. -/
theorem C11_cache_hit_or_rebuild (fuel : Nat) (F : Foundation) (S : Store) (oPtr : ObjectPtr)
    (n : Name) (flags : FlagWord) (cache : ContextCache) (c : CallContext)
    (hdo : doFiltersOf S oPtr flags = true) (hc : cache n = some (some c)) :
    (c.globalEpoch = F.epoch ∧ c.localEpoch = (S.objects oPtr).epoch →
      TclOOGetCallContext fuel F S oPtr n flags cache =
        some { store := S, cache := cache.set n none, context := some c }) ∧
    (¬ (c.globalEpoch = F.epoch ∧ c.localEpoch = (S.objects oPtr).epoch) →
      (TclOOGetCallContext fuel F S oPtr n flags cache).map (fun r => (r.store, r.context)) =
        (TclOOGetCallContext fuel F S oPtr n flags noCache).map
          (fun r => (r.store, r.context)) ∧
      ∀ r, TclOOGetCallContext fuel F S oPtr n flags cache = some r →
        r.cache = cache.set n none ∧ r.cache n = some none) ∧
    (Acyclic S → ∃ N, ∀ fuel1, N ≤ fuel1 →
      ∃ r1, TclOOGetCallContext fuel1 F S oPtr n flags cache = some r1) := by
  have hdo1 : (flags.SPECIAL || flags.FILTER_HANDLING ||
      (S.objects oPtr).flags.FILTER_HANDLING) = false := by
    unfold doFiltersOf at hdo
    simpa using hdo
  refine ⟨?_, ?_, fun hac => TclOOGetCallContext_total F S oPtr n flags cache hac⟩
  · intro hep
    unfold TclOOGetCallContext
    rw [hdo1]
    simp only [Bool.false_eq_true, if_false, hc, hep, and_self, if_true]
  · intro hep
    have h1 : TclOOGetCallContext fuel F S oPtr n flags cache =
        buildCallContext fuel F S oPtr n flags true (cache.set n none) := by
      unfold TclOOGetCallContext
      rw [hdo1]
      simp only [Bool.false_eq_true, if_false, hc, if_neg hep]
    have h2 : TclOOGetCallContext fuel F S oPtr n flags noCache =
        buildCallContext fuel F S oPtr n flags true noCache := by
      unfold TclOOGetCallContext
      rw [hdo1]
      simp only [Bool.false_eq_true, if_false, noCache]
    refine ⟨?_, ?_⟩
    · rw [h1, h2]
      exact buildCallContext_answer fuel F S oPtr n flags true noCache (cache.set n none)
    · intro r hr
      rw [h1] at hr
      have hslot : r.cache = cache.set n none := by
        rcases buildCallContext_cache_slot fuel F S oPtr n flags true _ r hr with h | h
        · exact h
        · rw [h, ContextCache.set_set]
      refine ⟨hslot, ?_⟩
      rw [hslot]
      simp [ContextCache.set]

/-- Witness of C11 on the linear override scenario: the cached context with
the current epochs is handed back without any fuel being used, and a cached
context of an earlier epoch is not. -/
theorem C11_cache_hit_or_rebuild_witness :
    doFiltersOf linearStore 0 {} = true ∧
    cacheWith "m" linearScenarioContext "m" = some (some linearScenarioContext) ∧
    TclOOGetCallContext 0 scenarioFoundation linearStore 0 "m" {}
        (cacheWith "m" linearScenarioContext) =
      some { store := linearStore, cache := (cacheWith "m" linearScenarioContext).set "m" none,
             context := some linearScenarioContext } ∧
    (TclOOGetCallContext 2 scenarioFoundation linearStore 0 "m" {}
        (cacheWith "m" { linearScenarioContext with globalEpoch := 0 })).map
        (fun r => (r.store, r.context)) =
      (TclOOGetCallContext 2 scenarioFoundation linearStore 0 "m" {} noCache).map
        (fun r => (r.store, r.context)) :=
  ⟨rfl, rfl,
    (C11_cache_hit_or_rebuild 0 scenarioFoundation linearStore 0 "m" {}
      (cacheWith "m" linearScenarioContext) linearScenarioContext rfl rfl).1 (by decide),
    ((C11_cache_hit_or_rebuild 2 scenarioFoundation linearStore 0 "m" {}
      (cacheWith "m" { linearScenarioContext with globalEpoch := 0 })
      { linearScenarioContext with globalEpoch := 0 } rfl rfl).2.1 (by decide)).1⟩

/-- Counterexample to C12 as stated: in the linear override scenario the
context built for a call of `m` with `PRIVATE_METHOD`, put into the cache under
`m` (the cache is keyed by the name alone), is handed back to a call of `m`
without that flag: the flags of the returned context are not the requested
ones, with or without `OO_UNKNOWN_METHOD`. -/
theorem C12_counterexample :
    resolve 2 scenarioFoundation linearStore 0 "m" { PRIVATE_METHOD := true } noCache
      = some linearPrivateContext ∧
    resolve 0 scenarioFoundation linearStore 0 "m" {} (cacheWith "m" linearPrivateContext)
      = some linearPrivateContext ∧
    ∀ unk : Bool, linearPrivateContext.flags ≠
      { ({} : FlagWord).callBits with OO_UNKNOWN_METHOD := unk } := by
  refine ⟨by decide, by decide, ?_⟩
  intro unk h
  have := congrArg FlagWord.PRIVATE_METHOD h
  exact Bool.noConfusion this

/-- C12, amended: a context that a resolution builds (one not handed back from
the cache) is for the object asked for, with `skip = 2` and `index = 0`; its
flags are the requested flags restricted to `PUBLIC_METHOD`, `PRIVATE_METHOD`,
`CONSTRUCTOR`, `DESTRUCTOR` and `FILTER_HANDLING`, plus `OO_UNKNOWN_METHOD`
exactly when the simple chain build for the requested name put nothing into the
chain (the chain is that of the unknown-method fallback).  The resolution
answers for every fuel from some bound on when the superclass graph is
acyclic. -/
theorem C12_built_context_fields (fuel : Nat) (F : Foundation) (S : Store) (oPtr : ObjectPtr)
    (n : Name) (flags : FlagWord) (cache : ContextCache) (r : GetResult) (ctx : CallContext)
    (hb : BuildsContext F S oPtr n flags cache)
    (h : TclOOGetCallContext fuel F S oPtr n flags cache = some r)
    (hctx : r.context = some ctx) :
    ctx.oPtr = oPtr ∧ ctx.skip = 2 ∧ ctx.index = 0 ∧
    ctx.flags = { flags.callBits with OO_UNKNOWN_METHOD := ctx.flags.OO_UNKNOWN_METHOD } ∧
    ctx.flags.PUBLIC_METHOD = flags.PUBLIC_METHOD ∧
    ctx.flags.PRIVATE_METHOD = flags.PRIVATE_METHOD ∧
    ctx.flags.CONSTRUCTOR = flags.CONSTRUCTOR ∧
    ctx.flags.DESTRUCTOR = flags.DESTRUCTOR ∧
    ctx.flags.FILTER_HANDLING = flags.FILTER_HANDLING ∧
    ctx.flags.DEFINITE_PROTECTED = false ∧ ctx.flags.DEFINITE_PUBLIC = false ∧
    ctx.flags.otherBits = 0 ∧
    (ctx.flags.OO_UNKNOWN_METHOD = true ↔
      simpleChainEntries F r.store fuel oPtr flags n flags = some []) ∧
    (Acyclic S → ∃ N, ∀ fuel1, N ≤ fuel1 →
      ∃ r1, TclOOGetCallContext fuel1 F S oPtr n flags cache = some r1) := by
  obtain ⟨pre, sec1, _, _, _, hpre, hs1, hsec1, hout⟩ :=
    getCallContext_outcome fuel F S oPtr n flags cache r hb h
  have hac := fun hac => TclOOGetCallContext_total F S oPtr n flags cache hac
  rcases hout with ⟨hne, hc, _⟩ | ⟨_, _, hc, _⟩ | ⟨hnil, _, _, sec2, _, _, hc⟩
  · rw [hctx] at hc
    cases hc
    refine ⟨rfl, rfl, rfl, rfl, rfl, rfl, rfl, rfl, rfl, rfl, rfl, rfl, ?_, hac⟩
    simp only [FlagWord.callBits, newCallContext, hs1, Option.some.injEq, Bool.false_eq_true,
      false_iff]
    exact hne
  · rw [hctx] at hc
    cases hc
  · rcases hc with ⟨_, hc⟩ | ⟨_, hc⟩
    · rw [hctx] at hc
      cases hc
    · rw [hctx] at hc
      cases hc
      refine ⟨rfl, rfl, rfl, rfl, rfl, rfl, rfl, rfl, rfl, rfl, rfl, rfl, ?_, hac⟩
      simp [hs1, hnil]

/-- Witness of C12 (amended) on the unknown fallback scenario. -/
theorem C12_built_context_fields_witness :
    BuildsContext scenarioFoundation unknownStore 0 "m" {} noCache ∧
    (∃ r, TclOOGetCallContext 1 scenarioFoundation unknownStore 0 "m" {} noCache = some r ∧
      r.context = some unknownScenarioContext ∧
      unknownScenarioContext.oPtr = 0 ∧ unknownScenarioContext.skip = 2 ∧
      unknownScenarioContext.index = 0 ∧
      unknownScenarioContext.flags =
        { ({} : FlagWord).callBits with
          OO_UNKNOWN_METHOD := unknownScenarioContext.flags.OO_UNKNOWN_METHOD }) := by
  have hr : ∃ r, TclOOGetCallContext 1 scenarioFoundation unknownStore 0 "m" {} noCache = some r ∧
      r.context = some unknownScenarioContext :=
    (resolve_eq_some 1 scenarioFoundation unknownStore 0 "m" {} noCache
      unknownScenarioContext).1 (by decide)
  obtain ⟨r, h, hctx⟩ := hr
  have hC := C12_built_context_fields 1 scenarioFoundation unknownStore 0 "m" {} noCache r
    unknownScenarioContext (buildsContext_noCache _ _ _ _ _) h hctx
  exact ⟨buildsContext_noCache _ _ _ _ _, r, h, hctx, hC.1, hC.2.1, hC.2.2.1, hC.2.2.2.1⟩

theorem InitClassHierarchy_root (F : Foundation) :
    ∀ (fuel : Nat) (S : Store) (c : ClassPtr) (S1 : Store),
      InitClassHierarchy F fuel S c = some S1 →
      S1.classes F.objectCls = S.classes F.objectCls := by
  intro fuel
  induction fuel with
  | zero => intro S c S1 h; simp [InitClassHierarchy] at h
  | succ fuel ih =>
    intro S c S1 h
    rw [InitClassHierarchy] at h
    by_cases hc : c = F.objectCls
    · simp only [hc, if_true, Option.some.injEq] at h
      rw [h]
    · simp only [hc, if_false] at h
      by_cases he : (S.classes c).classHierarchyEpoch ≠ F.epoch
      · simp only [he, if_true, ne_eq, not_false_eq_true] at h
        cases hf : List.foldlM (fun S1 superPtr => InitClassHierarchy F fuel S1 superPtr) S
            (S.classes c).superclasses with
        | none => simp [hf] at h
        | some S2 =>
          have h2 : S2.classes F.objectCls = S.classes F.objectCls :=
            foldlM_preserves (fun X => X.classes F.objectCls = S.classes F.objectCls) _
              (fun a s a1 ha hs => (ih a s a1 hs).trans ha) _ S S2 rfl hf
          simp only [hf] at h
          split at h
          · simp only [Option.some.injEq] at h
            subst h
            simp only [Function.update_noteq (Ne.symm hc)]
            exact h2
          · simp only [Option.some.injEq] at h
            subst h
            simp only [Function.update_noteq (Ne.symm hc)]
            exact h2
      · simp only [he, if_false] at h
        cases h
        rfl

/-- What `InitClassHierarchy` writes for a stale class other than the root
class, in terms of the store `S2` that the calls for the superclasses left. -/
theorem InitClassHierarchy_stale (F : Foundation) (fuel : Nat) (S : Store) (c : ClassPtr)
    (S1 : Store) (hc : c ≠ F.objectCls) (he : (S.classes c).classHierarchyEpoch ≠ F.epoch)
    (h : InitClassHierarchy F fuel S c = some S1) :
    ∃ S2, SameButHierarchy S S2 ∧ S2.classes F.objectCls = S.classes F.objectCls ∧
      (∀ d, d ≠ c → S1.classes d = S2.classes d) ∧
      (∀ s, (S.classes c).superclasses = [s] →
        (S1.classes c).classHierarchy = s :: (S2.classes s).classHierarchy ∧
        (S1.classes c).classHierarchyEpoch = F.epoch) ∧
      ((∀ s, (S.classes c).superclasses ≠ [s]) →
        (S1.classes c).classHierarchy = dedupHierarchy ((S.classes c).superclasses.flatMap
          (fun superPtr => if superPtr = F.objectCls then [superPtr]
            else superPtr :: (S2.classes superPtr).classHierarchy)) ∧
        (S1.classes c).classHierarchyEpoch = (S2.classes c).classHierarchyEpoch) := by
  cases fuel with
  | zero => simp [InitClassHierarchy] at h
  | succ fuel =>
    rw [InitClassHierarchy] at h
    simp only [hc, if_false, he, if_true, ne_eq, not_false_eq_true] at h
    cases hf : List.foldlM (fun S1 superPtr => InitClassHierarchy F fuel S1 superPtr) S
        (S.classes c).superclasses with
    | none => simp [hf] at h
    | some S2 =>
      have h2 : SameButHierarchy S S2 :=
        foldlM_preserves (fun X => SameButHierarchy S X) _
          (fun a s a1 ha hs => ha.trans (InitClassHierarchy_frame F fuel a s a1 hs)) _ S S2
          (SameButHierarchy.refl S) hf
      have h3 : S2.classes F.objectCls = S.classes F.objectCls :=
        foldlM_preserves (fun X => X.classes F.objectCls = S.classes F.objectCls) _
          (fun a s a1 ha hs => (InitClassHierarchy_root F fuel a s a1 hs).trans ha) _ S S2 rfl hf
      simp only [hf] at h
      refine ⟨S2, h2, h3, ?_⟩
      split at h
      · rename_i s heq
        simp only [Option.some.injEq] at h
        subst h
        refine ⟨fun d hd => by simp [Function.update_noteq hd], ?_, ?_⟩
        · intro s1 hs1
          rw [heq] at hs1
          cases hs1
          simp
        · intro hno
          exact absurd heq (hno s)
      · rename_i hno
        simp only [Option.some.injEq] at h
        subst h
        refine ⟨fun d hd => by simp [Function.update_noteq hd], ?_, ?_⟩
        · intro s1 hs1
          exact absurd hs1 (hno s1)
        · intro _
          simp

theorem diamondStore_acyclic (inA inB inC isPublic : Bool) :
    Acyclic (diamondStore inA inB inC isPublic) := by
  refine ⟨fun c => c, ?_⟩
  intro X Y h
  unfold superOf diamondStore at h
  rcases X with _ | _ | _ | _ | _ | X <;> simp at h
  · subst h; simp
  · subst h; simp
  · rcases h with h | h <;> subst h <;> simp

theorem acyclic_irrefl (S : Store) (hac : Acyclic S) (X : ClassPtr) :
    ¬ Relation.TransGen (superOf S) X X := by
  obtain ⟨rank, hrank⟩ := hac
  intro h
  exact absurd (rank_lt_of_transGen S rank hrank X X h) (lt_irrefl _)

theorem InitClassHierarchy_answers (F : Foundation) (S : Store) (c : ClassPtr)
    (hac : Acyclic S) :
    ∃ N, ∀ fuel, N ≤ fuel → ∃ S1, InitClassHierarchy F fuel S c = some S1 := by
  obtain ⟨rank, hrank⟩ := hac
  exact ⟨rank c + 1, fun fuel hf =>
    InitClassHierarchy_total F S rank hrank fuel S c (SameButHierarchy.refl S) (by omega)⟩

/-- C18: for a class `C` other than the root class whose cache is stale, in an
acyclic superclass graph where the cached list of the root class is empty,
`InitClassHierarchy` answers for every fuel from some bound on, and in the
store it leaves: when `C` has exactly one superclass `s`, the hierarchy of `C`
is `s` followed by the hierarchy of `s`; otherwise it is the concatenation, over
the superclasses `s` in declared order, of `s` followed by the hierarchy of `s`,
with every class kept at its last occurrence only and the order of the kept
ones unchanged (`List.dedup`).  In the diamond (`D` extends `B` and `C`, both
extend `A`) the hierarchy of `D` is `[B, C, A]`. -/
theorem C18_hierarchy_of_stale_class (F : Foundation) (S : Store) (fuel : Nat) (C : ClassPtr)
    (S1 : Store) (hac : Acyclic S) (hC : C ≠ F.objectCls)
    (hstale : (S.classes C).classHierarchyEpoch ≠ F.epoch)
    (hroot : (S.classes F.objectCls).classHierarchy = [])
    (h : InitClassHierarchy F fuel S C = some S1) :
    (∀ s, (S.classes C).superclasses = [s] →
      (S1.classes C).classHierarchy = s :: (S1.classes s).classHierarchy) ∧
    ((S.classes C).superclasses.length ≠ 1 →
      (S1.classes C).classHierarchy =
        ((S.classes C).superclasses.flatMap
          (fun s => s :: (S1.classes s).classHierarchy)).dedup) ∧
    (∃ N, ∀ fuel1, N ≤ fuel1 → ∃ S2, InitClassHierarchy F fuel1 S C = some S2) ∧
    (∀ (inA inB inC isPublic : Bool) (fuel1 : Nat), 3 ≤ fuel1 →
      (InitClassHierarchy scenarioFoundation fuel1 (diamondStore inA inB inC isPublic) 4).map
        (fun S2 => (S2.classes 4).classHierarchy) = some [2, 3, 1]) := by
  obtain ⟨S2, hsame, hroot2, hother, hone, hmany⟩ :=
    InitClassHierarchy_stale F fuel S C S1 hC hstale h
  obtain ⟨rank, hrank⟩ := hac
  have hne : ∀ s ∈ (S.classes C).superclasses, s ≠ C := by
    intro s hs hsc
    have := hrank C s hs
    rw [hsc] at this
    exact lt_irrefl _ this
  refine ⟨?_, ?_, InitClassHierarchy_answers F S C ⟨rank, hrank⟩, ?_⟩
  · intro s hs
    rw [(hone s hs).1, hother s (hne s (by rw [hs]; exact List.mem_singleton_self s))]
  · intro hlen
    have hno : ∀ s, (S.classes C).superclasses ≠ [s] := by
      intro s hs
      rw [hs] at hlen
      exact hlen rfl
    rw [(hmany hno).1, dedupHierarchy_eq_dedup]
    congr 1
    apply List.flatMap_congr
    intro s hs
    rw [hother s (hne s hs)]
    by_cases hso : s = F.objectCls
    · rw [if_pos hso, hso, hroot2, hroot]
    · rw [if_neg hso]
  · intro inA inB inC isPublic fuel1 hfuel
    have h3 : (InitClassHierarchy scenarioFoundation 3 (diamondStore inA inB inC isPublic) 4).map
        (fun S2 => (S2.classes 4).classHierarchy) = some [2, 3, 1] := by
      revert inA inB inC isPublic
      decide
    cases hr : InitClassHierarchy scenarioFoundation 3 (diamondStore inA inB inC isPublic) 4 with
    | none => rw [hr] at h3; cases h3
    | some S3 =>
      rw [InitClassHierarchy_mono scenarioFoundation 3 fuel1 _ 4 S3 hfuel hr]
      rw [hr] at h3
      exact h3

/-- Witness of C18 on the diamond. -/
theorem C18_hierarchy_of_stale_class_witness :
    Acyclic (diamondStore true true true true) ∧ (4 : ClassPtr) ≠ scenarioFoundation.objectCls ∧
    ((diamondStore true true true true).classes 4).classHierarchyEpoch ≠ scenarioFoundation.epoch ∧
    ((diamondStore true true true true).classes scenarioFoundation.objectCls).classHierarchy = [] ∧
    ∃ S1, InitClassHierarchy scenarioFoundation 3 (diamondStore true true true true) 4 = some S1 ∧
      (S1.classes 4).classHierarchy =
        ([2, 3].flatMap (fun s => s :: (S1.classes s).classHierarchy)).dedup := by
  cases hr : InitClassHierarchy scenarioFoundation 3 (diamondStore true true true true) 4 with
  | none =>
    have hd : (InitClassHierarchy scenarioFoundation 3
        (diamondStore true true true true) 4).isSome = true := by decide
    rw [hr] at hd
    cases hd
  | some S1 =>
    exact ⟨diamondStore_acyclic _ _ _ _, by decide, by decide, rfl, S1, rfl,
      (C18_hierarchy_of_stale_class scenarioFoundation (diamondStore true true true true) 3 4 S1
        (diamondStore_acyclic _ _ _ _) (by decide) (by decide) rfl hr).2.1 (by decide)⟩

theorem hierarchyIs_of_same {G S : Store} (h : SameButHierarchy G S) (d : ClassPtr)
    (hd : HierarchyIs G S d) : HierarchyIs S S d := by
  refine ⟨hd.1, fun x => ?_⟩
  rw [hd.2 x]
  constructor
  · exact fun hx => transGen_of_same h d x hx
  · exact fun hx => Relation.TransGen.mono (fun a b hab => (superOf_of_same h a b).1 hab) hx

/-- The hierarchy that `InitClassHierarchy` leaves for the class it is called
for, when it starts from caches that are right where they are marked as
current; the caches are right afterwards as well. -/
theorem InitClassHierarchy_ancestors (F : Foundation) (S : Store) (fuel : Nat) (C : ClassPtr)
    (S1 : Store) (hac : Acyclic S) (hroot : RootBare F S) (hcache : CachesOk F S)
    (h : InitClassHierarchy F fuel S C = some S1) :
    HierarchyIs S S1 C ∧ CachesOk F S1 ∧ RootBare F S1 := by
  have hinv : HierarchyInv F S S := ⟨SameButHierarchy.refl S, hroot.2, hcache⟩
  obtain ⟨hinv1, hC, _⟩ :=
    InitClassHierarchy_correct F S (acyclic_irrefl S hac) hroot.1 fuel S C S1 hinv h
  refine ⟨hC, ?_, ?_, hinv1.2.1⟩
  · intro d hd hep
    exact hierarchyIs_of_same hinv1.1 d (hinv1.2.2 d hd hep)
  · rw [hinv1.1.superclasses]
    exact hroot.1

/-- C19: in an acyclic superclass graph where the root class has no superclass
and an empty cached hierarchy, and the caches marked as current are right (as
they are when all are stale, and as every call leaves them), `InitClassHierarchy`
answers for every fuel from some bound on, and the hierarchy it leaves for the
class has no class twice and holds exactly the proper ancestors of the class;
the caches marked as current are right afterwards too. -/
theorem C19_hierarchy_is_ancestor_set (F : Foundation) (S : Store) (fuel : Nat) (C : ClassPtr)
    (S1 : Store) (hac : Acyclic S) (hroot : RootBare F S) (hcache : CachesOk F S)
    (h : InitClassHierarchy F fuel S C = some S1) :
    (S1.classes C).classHierarchy.Nodup ∧
    (∀ x, x ∈ (S1.classes C).classHierarchy ↔ Relation.TransGen (superOf S) C x) ∧
    CachesOk F S1 ∧ RootBare F S1 ∧
    (∃ N, ∀ fuel1, N ≤ fuel1 → ∃ S2, InitClassHierarchy F fuel1 S C = some S2) := by
  obtain ⟨h1, h2, h3⟩ := InitClassHierarchy_ancestors F S fuel C S1 hac hroot hcache h
  exact ⟨h1.1, h1.2, h2, h3, InitClassHierarchy_answers F S C hac⟩

theorem diamondStore_cachesOk (inA inB inC isPublic : Bool) :
    CachesOk scenarioFoundation (diamondStore inA inB inC isPublic) := by
  intro d _ hep
  exfalso
  unfold diamondStore scenarioFoundation at hep
  rcases d with _ | _ | _ | _ | _ | d <;> simp at hep

/-- Witness of C19 on the diamond. -/
theorem C19_hierarchy_is_ancestor_set_witness :
    Acyclic (diamondStore true true true true) ∧
    RootBare scenarioFoundation (diamondStore true true true true) ∧
    CachesOk scenarioFoundation (diamondStore true true true true) ∧
    ∃ S1, InitClassHierarchy scenarioFoundation 3 (diamondStore true true true true) 4 = some S1 ∧
      (S1.classes 4).classHierarchy.Nodup ∧
      ∀ x, x ∈ (S1.classes 4).classHierarchy ↔
        Relation.TransGen (superOf (diamondStore true true true true)) 4 x := by
  cases hr : InitClassHierarchy scenarioFoundation 3 (diamondStore true true true true) 4 with
  | none =>
    have hd : (InitClassHierarchy scenarioFoundation 3
        (diamondStore true true true true) 4).isSome = true := by decide
    rw [hr] at hd
    cases hd
  | some S1 =>
    have hC := C19_hierarchy_is_ancestor_set scenarioFoundation (diamondStore true true true true)
      3 4 S1 (diamondStore_acyclic _ _ _ _) ⟨rfl, rfl⟩ (diamondStore_cachesOk _ _ _ _) hr
    exact ⟨diamondStore_acyclic _ _ _ _, ⟨rfl, rfl⟩, diamondStore_cachesOk _ _ _ _, S1, rfl,
      hC.1, hC.2.1⟩

/-- Counterexample to C20 as stated: with the root class `0` as the only
superclass of class `1`, and as one of the two superclasses of class `2`, the
hierarchies computed for `1` and `2` contain the root class. -/
theorem C20_counterexample :
    scenarioFoundation.objectCls = 0 ∧
    (InitClassHierarchy scenarioFoundation 3 rootedStore 2).map
      (fun S1 => ((S1.classes 1).classHierarchy, (S1.classes 2).classHierarchy))
      = some ([0], [1, 0]) := by
  decide

/-- C20, amended: under the conditions of C19 the hierarchy that
`InitClassHierarchy` leaves for a class contains the root class exactly when
the root class is a proper ancestor of the class (so it does when the class or
one of its ancestors names the root class as a direct superclass, as the only
one or among several); the record of the root class itself is left as it was,
its own list is never built. -/
theorem C20_root_listed_iff_ancestor (F : Foundation) (S : Store) (fuel : Nat) (C : ClassPtr)
    (S1 : Store) (hac : Acyclic S) (hroot : RootBare F S) (hcache : CachesOk F S)
    (h : InitClassHierarchy F fuel S C = some S1) :
    (F.objectCls ∈ (S1.classes C).classHierarchy ↔
      Relation.TransGen (superOf S) C F.objectCls) ∧
    (∀ X, reaches S C X → F.objectCls ∈ (S.classes X).superclasses →
      F.objectCls ∈ (S1.classes C).classHierarchy) ∧
    S1.classes F.objectCls = S.classes F.objectCls ∧
    (∃ N, ∀ fuel1, N ≤ fuel1 → ∃ S2, InitClassHierarchy F fuel1 S C = some S2) := by
  obtain ⟨h1, _, _⟩ := InitClassHierarchy_ancestors F S fuel C S1 hac hroot hcache h
  refine ⟨h1.2 F.objectCls, ?_, InitClassHierarchy_root F fuel S C S1 h,
    InitClassHierarchy_answers F S C hac⟩
  intro X hX hsup
  rw [h1.2 F.objectCls]
  exact Relation.TransGen.tail' hX hsup

theorem rootedStore_acyclic : Acyclic rootedStore := by
  refine ⟨fun c => c, ?_⟩
  intro X Y h
  unfold superOf rootedStore at h
  rcases X with _ | _ | _ | X <;> simp at h
  · subst h; simp
  · rcases h with h | h <;> subst h <;> simp

theorem rootedStore_cachesOk : CachesOk scenarioFoundation rootedStore := by
  intro d _ hep
  exfalso
  unfold rootedStore scenarioFoundation at hep
  rcases d with _ | _ | _ | d <;> simp at hep

/-- Witness of C20 (amended) on the rooted classes. -/
theorem C20_root_listed_iff_ancestor_witness :
    Acyclic rootedStore ∧ RootBare scenarioFoundation rootedStore ∧
    CachesOk scenarioFoundation rootedStore ∧
    ∃ S1, InitClassHierarchy scenarioFoundation 3 rootedStore 2 = some S1 ∧
      (scenarioFoundation.objectCls ∈ (S1.classes 2).classHierarchy ↔
        Relation.TransGen (superOf rootedStore) 2 scenarioFoundation.objectCls) := by
  cases hr : InitClassHierarchy scenarioFoundation 3 rootedStore 2 with
  | none =>
    have hd : (InitClassHierarchy scenarioFoundation 3 rootedStore 2).isSome = true := by decide
    rw [hr] at hd
    cases hd
  | some S1 =>
    exact ⟨rootedStore_acyclic, ⟨rfl, rfl⟩, rootedStore_cachesOk, S1, rfl,
      (C20_root_listed_iff_ancestor scenarioFoundation rootedStore 3 2 S1 rootedStore_acyclic
        ⟨rfl, rfl⟩ rootedStore_cachesOk hr).1⟩

/-- C21 fails on the code: in the diamond, at foundation epoch `1` with all
caches at epoch `0`, `InitClassHierarchy` for `D` (two superclasses) answers
and leaves the hierarchy epoch of `D` at `0`, and that of `A` (no superclass)
at `0` as well; only `B` and `C` (one superclass each) get the epoch `1`.  A
second call for `D` in the same epoch finds the cache of `D` stale again. -/
theorem C21_epoch_recorded_for_one_super_only :
    scenarioFoundation.epoch = 1 ∧
    (InitClassHierarchy scenarioFoundation 3 (diamondStore true true true true) 4).map
      (fun S1 => ((S1.classes 4).classHierarchyEpoch, (S1.classes 1).classHierarchyEpoch,
        (S1.classes 2).classHierarchyEpoch, (S1.classes 3).classHierarchyEpoch))
      = some (0, 0, 1, 1) := by
  decide

theorem listed_keys_nodup (es : List (Name × Bool)) (p : Name × Bool → Bool) :
    (((insertAll [] es).filter p).map fun e => e.1).Nodup := by
  have h1 : ((insertAll [] es).map Prod.fst).Nodup := by
    rw [insertAll_keys]
    exact keysAdd_nodup _ _ List.nodup_nil
  exact List.Nodup.sublist (List.Sublist.map _ (List.filter_sublist _)) h1

theorem sorted_nameLt_nodup (l : List Name) (h : l.Sorted nameLt) : l.Nodup := by
  unfold List.Sorted at h
  unfold List.Nodup
  refine h.imp ?_
  intro a b hab heq
  rw [heq] at hab
  exact CmpStr_irrefl b hab

/-- C14: the list that `TclOOGetSortedMethodList` answers with is strictly
increasing in the byte-wise order of `CmpStr` (any two of its names, the
earlier one is strictly below the later one), so it is sorted and has no name
twice; the function answers for every fuel from some bound on when the graph of
superclass and mixin links is acyclic.  E.g. in the private hiding scenario
the list for no flags is `[secret, unknown]`. -/
theorem C14_method_list_strictly_increasing (S : Store) (fuel : Nat) (oPtr : ObjectPtr)
    (flags : FlagWord) (l : List Name)
    (h : TclOOGetSortedMethodList S fuel oPtr flags = some l) :
    l.Sorted nameLt ∧ l.Nodup ∧
    (AcyclicMixins S → ∃ N, ∀ fuel1, N ≤ fuel1 →
      ∃ l1, TclOOGetSortedMethodList S fuel1 oPtr flags = some l1) ∧
    (∀ fuel1, 1 ≤ fuel1 →
      TclOOGetSortedMethodList (privateStore true) fuel1 0 {} = some ["secret", "unknown"]) := by
  rw [TclOOGetSortedMethodList_events] at h
  have hs : l.Sorted nameLt := by
    cases hes : methodNameEvents S fuel oPtr flags with
    | none => rw [hes] at h; cases h
    | some es =>
      rw [hes] at h
      simp only [Option.map_some', Option.some.injEq] at h
      rw [← h]
      exact (qsortNames_spec _).2 (listed_keys_nodup es _)
  refine ⟨hs, sorted_nameLt_nodup l hs,
    fun hac => TclOOGetSortedMethodList_total S oPtr flags hac, ?_⟩
  intro fuel1 hfuel
  exact TclOOGetSortedMethodList_mono (privateStore true) 1 fuel1 0 {} _ hfuel (by decide)

/-- Witness of C14 on the private hiding scenario. -/
theorem C14_method_list_strictly_increasing_witness :
    TclOOGetSortedMethodList (privateStore true) 1 0 {} = some ["secret", "unknown"] ∧
    List.Sorted nameLt ["secret", "unknown"] :=
  ⟨by decide,
    (C14_method_list_strictly_increasing (privateStore true) 1 0 {} ["secret", "unknown"]
      (by decide)).1⟩

theorem loopNameEvents_names (S : Store) (f1 f0 : FlagWord) :
    ∀ (fuel : Nat) (c : ClassPtr),
      (loopNameEvents S f1 fuel c).map (fun r => (r.1, r.2.map Prod.fst)) =
        (loopNameEvents S f0 fuel c).map (fun r => (r.1, r.2.map Prod.fst)) := by
  intro fuel
  induction fuel with
  | zero => intro c; rfl
  | succ fuel ih =>
    intro c
    simp only [loopNameEvents]
    split
    · rename_i s heq
      have := ih s
      cases h1 : loopNameEvents S f1 fuel s with
      | none =>
        rw [h1] at this
        cases h0 : loopNameEvents S f0 fuel s with
        | none => rfl
        | some r0 => rw [h0] at this; cases this
      | some r1 =>
        rw [h1] at this
        cases h0 : loopNameEvents S f0 fuel s with
        | none => rw [h0] at this; cases this
        | some r0 =>
          rw [h0] at this
          simp only [Option.map_some', Option.some.injEq, Prod.mk.injEq] at this ⊢
          refine ⟨this.1, ?_⟩
          simp only [List.map_append, this.2, classTableEvents, List.map_map]
          rfl
    · simp only [Option.map_some', classTableEvents, List.map_map]
      rfl

theorem collectNames_names {σ : Type} (ev1 ev0 : σ → Option (List (Name × Bool)))
    (hev : ∀ s, (ev1 s).map (List.map Prod.fst) = (ev0 s).map (List.map Prod.fst))
    (ss : List σ) :
    ∀ acc1 acc0 : List (Name × Bool), acc1.map Prod.fst = acc0.map Prod.fst →
      (collectNames ev1 ss acc1).map (List.map Prod.fst) =
        (collectNames ev0 ss acc0).map (List.map Prod.fst) := by
  induction ss with
  | nil =>
    intro acc1 acc0 h
    simp [collectNames, List.foldlM, h]
  | cons s ss ih =>
    intro acc1 acc0 h
    rw [collectNames_cons, collectNames_cons]
    have := hev s
    cases h1 : ev1 s with
    | none =>
      rw [h1] at this
      cases h0 : ev0 s with
      | none => rfl
      | some r0 => rw [h0] at this; cases this
    | some r1 =>
      rw [h1] at this
      cases h0 : ev0 s with
      | none => rw [h0] at this; cases this
      | some r0 =>
        rw [h0] at this
        simp only [Option.map_some', Option.some.injEq] at this
        simp only [Option.some_bind]
        exact ih _ _ (by simp [h, this])

theorem classNameEvents_names (S : Store) (f1 f0 : FlagWord) :
    ∀ (fuel : Nat) (c : ClassPtr),
      (classNameEvents S f1 fuel c).map (List.map Prod.fst) =
        (classNameEvents S f0 fuel c).map (List.map Prod.fst) := by
  intro fuel
  induction fuel with
  | zero => intro c; rfl
  | succ fuel ih =>
    intro c
    simp only [classNameEvents]
    have hm := collectNames_names (fun m => classNameEvents S f1 fuel m)
      (fun m => classNameEvents S f0 fuel m) ih (S.classes c).mixins [] [] rfl
    have hl := loopNameEvents_names S f1 f0 (fuel + 1) c
    cases h1 : collectNames (fun m => classNameEvents S f1 fuel m) (S.classes c).mixins [] with
    | none =>
      rw [h1] at hm
      cases h0 : collectNames (fun m => classNameEvents S f0 fuel m) (S.classes c).mixins [] with
      | none => rfl
      | some r0 => rw [h0] at hm; cases hm
    | some e1 =>
      rw [h1] at hm
      cases h0 : collectNames (fun m => classNameEvents S f0 fuel m) (S.classes c).mixins [] with
      | none => rw [h0] at hm; cases hm
      | some e0 =>
        rw [h0] at hm
        simp only [Option.map_some', Option.some.injEq] at hm
        simp only [Option.some_bind]
        cases h2 : loopNameEvents S f1 (fuel + 1) c with
        | none =>
          rw [h2] at hl
          cases h3 : loopNameEvents S f0 (fuel + 1) c with
          | none => rfl
          | some r0 => rw [h3] at hl; cases hl
        | some r1 =>
          rw [h2] at hl
          cases h3 : loopNameEvents S f0 (fuel + 1) c with
          | none => rw [h3] at hl; cases hl
          | some r0 =>
            rw [h3] at hl
            simp only [Option.map_some', Option.some.injEq, Prod.mk.injEq] at hl
            simp only [Option.some_bind]
            rw [hl.1]
            have hs := collectNames_names (fun m => classNameEvents S f1 fuel m)
              (fun m => classNameEvents S f0 fuel m) ih (S.classes r0.1).superclasses [] [] rfl
            cases h4 : collectNames (fun m => classNameEvents S f1 fuel m)
                (S.classes r0.1).superclasses [] with
            | none =>
              rw [h4] at hs
              cases h5 : collectNames (fun m => classNameEvents S f0 fuel m)
                  (S.classes r0.1).superclasses [] with
              | none => rfl
              | some r5 => rw [h5] at hs; cases hs
            | some e3 =>
              rw [h4] at hs
              cases h5 : collectNames (fun m => classNameEvents S f0 fuel m)
                  (S.classes r0.1).superclasses [] with
              | none => rw [h5] at hs; cases hs
              | some e5 =>
                rw [h5] at hs
                simp only [Option.map_some', Option.some.injEq] at hs
                simp [hm, hl.2, hs]

theorem methodNameEvents_names (S : Store) (fuel : Nat) (oPtr : ObjectPtr) (f1 f0 : FlagWord)
    (hp : f1.PRIVATE_METHOD = f0.PRIVATE_METHOD) :
    (methodNameEvents S fuel oPtr f1).map (List.map Prod.fst) =
      (methodNameEvents S fuel oPtr f0).map (List.map Prod.fst) := by
  unfold methodNameEvents
  have hc := classNameEvents_names S f1 f0 fuel (S.objects oPtr).selfCls
  have hm := collectNames_names (fun m => classNameEvents S f1 fuel m)
    (fun m => classNameEvents S f0 fuel m) (classNameEvents_names S f1 f0 fuel)
    (S.objects oPtr).mixins [] [] rfl
  have ho : (objectNameEvents S f1 (S.objects oPtr).methods).map Prod.fst =
      (objectNameEvents S f0 (S.objects oPtr).methods).map Prod.fst := by
    simp only [objectNameEvents, hp, List.map_map]
    rfl
  have hv : (privateNameEvents S f1 (S.classes (S.objects oPtr).selfCls).classMethods).map
      Prod.fst =
      (privateNameEvents S f0 (S.classes (S.objects oPtr).selfCls).classMethods).map
        Prod.fst := by
    simp only [privateNameEvents, hp]
  cases h1 : classNameEvents S f1 fuel (S.objects oPtr).selfCls with
  | none =>
    rw [h1] at hc
    cases h0 : classNameEvents S f0 fuel (S.objects oPtr).selfCls with
    | none => rfl
    | some r0 => rw [h0] at hc; cases hc
  | some e1 =>
    rw [h1] at hc
    cases h0 : classNameEvents S f0 fuel (S.objects oPtr).selfCls with
    | none => rw [h0] at hc; cases hc
    | some e0 =>
      rw [h0] at hc
      simp only [Option.map_some', Option.some.injEq] at hc
      simp only [Option.some_bind]
      cases h2 : collectNames (fun m => classNameEvents S f1 fuel m)
          (S.objects oPtr).mixins [] with
      | none =>
        rw [h2] at hm
        cases h3 : collectNames (fun m => classNameEvents S f0 fuel m)
            (S.objects oPtr).mixins [] with
        | none => rfl
        | some r3 => rw [h3] at hm; cases hm
      | some e2 =>
        rw [h2] at hm
        cases h3 : collectNames (fun m => classNameEvents S f0 fuel m)
            (S.objects oPtr).mixins [] with
        | none => rw [h3] at hm; cases hm
        | some e3 =>
          rw [h3] at hm
          simp only [Option.map_some', Option.some.injEq] at hm
          simp [ho, hv, hc, hm]

theorem nameLt_asymm (a b : Name) (h1 : nameLt a b) (h2 : nameLt b a) : a = b := by
  unfold nameLt CmpStr at h1 h2
  have := (cmpBytes_gt_iff _ _).2 h2
  rw [this] at h1
  cases h1

/-- C15: the list for flags with `PUBLIC_METHOD` is a subsequence of the list
for the same flags without `PUBLIC_METHOD` (in particular the list for
`PUBLIC_METHOD` alone is a subsequence of the list for no flags), for the same
object and store; both calls answer for every fuel from some bound on when the
graph of superclass and mixin links is acyclic.  E.g. in the private hiding
scenario the lists are `[unknown]` and `[secret, unknown]`. -/
theorem C15_public_list_is_subsequence (S : Store) (fuel : Nat) (oPtr : ObjectPtr)
    (flags : FlagWord) (l1 l0 : List Name)
    (h1 : TclOOGetSortedMethodList S fuel oPtr { flags with PUBLIC_METHOD := true } = some l1)
    (h0 : TclOOGetSortedMethodList S fuel oPtr { flags with PUBLIC_METHOD := false } = some l0) :
    l1.Sublist l0 ∧
    (AcyclicMixins S → ∃ N, ∀ fuel1, N ≤ fuel1 →
      (∃ k1, TclOOGetSortedMethodList S fuel1 oPtr { flags with PUBLIC_METHOD := true }
        = some k1) ∧
      ∃ k0, TclOOGetSortedMethodList S fuel1 oPtr { flags with PUBLIC_METHOD := false }
        = some k0) ∧
    (∀ fuel1, 1 ≤ fuel1 →
      TclOOGetSortedMethodList (privateStore true) fuel1 0 { PUBLIC_METHOD := true }
        = some ["unknown"] ∧
      TclOOGetSortedMethodList (privateStore true) fuel1 0 {} = some ["secret", "unknown"]) := by
  refine ⟨?_, ?_, ?_⟩
  · have hs1 : l1.Sorted nameLt := by
      rw [TclOOGetSortedMethodList_events] at h1
      cases hes : methodNameEvents S fuel oPtr { flags with PUBLIC_METHOD := true } with
      | none => rw [hes] at h1; cases h1
      | some es =>
        rw [hes] at h1
        simp only [Option.map_some', Option.some.injEq] at h1
        rw [← h1]
        exact (qsortNames_spec _).2 (listed_keys_nodup es _)
    have hs0 : l0.Sorted nameLt := by
      rw [TclOOGetSortedMethodList_events] at h0
      cases hes : methodNameEvents S fuel oPtr { flags with PUBLIC_METHOD := false } with
      | none => rw [hes] at h0; cases h0
      | some es =>
        rw [hes] at h0
        simp only [Option.map_some', Option.some.injEq] at h0
        rw [← h0]
        exact (qsortNames_spec _).2 (listed_keys_nodup es _)
    have hsub : l1 ⊆ l0 := by
      rw [TclOOGetSortedMethodList_events] at h1 h0
      have hn := methodNameEvents_names S fuel oPtr { flags with PUBLIC_METHOD := true }
        { flags with PUBLIC_METHOD := false } rfl
      cases hes1 : methodNameEvents S fuel oPtr { flags with PUBLIC_METHOD := true } with
      | none => rw [hes1] at h1; cases h1
      | some es1 =>
        cases hes0 : methodNameEvents S fuel oPtr { flags with PUBLIC_METHOD := false } with
        | none => rw [hes0] at h0; cases h0
        | some es0 =>
          rw [hes1] at h1 hn
          rw [hes0] at h0 hn
          simp only [Option.map_some', Option.some.injEq] at h1 h0 hn
          intro x hx
          rw [← h1] at hx
          rw [← h0]
          have hx1 := ((qsortNames_spec _).1.mem_iff).1 hx
          apply ((qsortNames_spec _).1.mem_iff).2
          have hx2 : x ∈ (insertAll [] es1).map Prod.fst := by
            obtain ⟨e, he, hex⟩ := List.mem_map.1 hx1
            exact List.mem_map.2 ⟨e, (List.mem_filter.1 he).1, hex⟩
          rw [insertAll_keys, hn, ← insertAll_keys] at hx2
          obtain ⟨e, he, hex⟩ := List.mem_map.1 hx2
          exact List.mem_map.2 ⟨e, List.mem_filter.2 ⟨he, by simp⟩, hex⟩
    haveI : IsAntisymm Name nameLt := ⟨nameLt_asymm⟩
    exact List.sublist_of_subperm_of_sorted
      (List.Nodup.subperm (sorted_nameLt_nodup l1 hs1) hsub) hs1 hs0
  · intro hac
    obtain ⟨N1, hN1⟩ := TclOOGetSortedMethodList_total S oPtr
      { flags with PUBLIC_METHOD := true } hac
    obtain ⟨N0, hN0⟩ := TclOOGetSortedMethodList_total S oPtr
      { flags with PUBLIC_METHOD := false } hac
    exact ⟨max N1 N0, fun fuel1 hf =>
      ⟨hN1 fuel1 (le_trans (le_max_left _ _) hf), hN0 fuel1 (le_trans (le_max_right _ _) hf)⟩⟩
  · intro fuel1 hfuel
    exact ⟨TclOOGetSortedMethodList_mono (privateStore true) 1 fuel1 0 _ _ hfuel (by decide),
      TclOOGetSortedMethodList_mono (privateStore true) 1 fuel1 0 _ _ hfuel (by decide)⟩

/-- Witness of C15 on the private hiding scenario. -/
theorem C15_public_list_is_subsequence_witness :
    TclOOGetSortedMethodList (privateStore true) 1 0 { PUBLIC_METHOD := true }
      = some ["unknown"] ∧
    TclOOGetSortedMethodList (privateStore true) 1 0 {} = some ["secret", "unknown"] ∧
    List.Sublist ["unknown"] ["secret", "unknown"] :=
  ⟨by decide, by decide,
    (C15_public_list_is_subsequence (privateStore true) 1 0 {} ["unknown"] ["secret", "unknown"]
      (by decide) (by decide)).1⟩

theorem collectNames_mem {σ : Type} (ev : σ → Option (List (Name × Bool))) (ss : List σ) :
    ∀ (acc r : List (Name × Bool)), collectNames ev ss acc = some r →
      ∀ x ∈ r, x ∈ acc ∨ ∃ s ∈ ss, ∃ es, ev s = some es ∧ x ∈ es := by
  induction ss with
  | nil =>
    intro acc r h x hx
    simp only [collectNames, List.foldlM, Option.pure_def, Option.some.injEq] at h
    rw [← h] at hx
    exact Or.inl hx
  | cons s ss ih =>
    intro acc r h x hx
    rw [collectNames_cons] at h
    cases hs : ev s with
    | none => rw [hs] at h; cases h
    | some es =>
      rw [hs] at h
      simp only [Option.some_bind] at h
      rcases ih _ r h x hx with h1 | ⟨s1, hs1, es1, he1, hx1⟩
      · rcases List.mem_append.1 h1 with h2 | h2
        · exact Or.inl h2
        · exact Or.inr ⟨s, List.mem_cons_self _ _, es, hs, h2⟩
      · exact Or.inr ⟨s1, List.mem_cons_of_mem _ hs1, es1, he1, hx1⟩

theorem classTableEvents_origin (S : Store) (flags : FlagWord) (c : ClassPtr)
    (e : Name × Bool) (he : e ∈ classTableEvents S flags (S.classes c).classMethods) :
    ∃ c1 m, (e.1, m) ∈ (S.classes c1).classMethods ∧
      e.2 = (!flags.PUBLIC_METHOD || (S.methods m).flags.PUBLIC_METHOD) := by
  unfold classTableEvents at he
  obtain ⟨x, hx, hxe⟩ := List.mem_map.1 he
  refine ⟨c, x.2, ?_, ?_⟩
  · rw [← hxe]; exact hx
  · rw [← hxe]

theorem loopNameEvents_origin (S : Store) (flags : FlagWord) :
    ∀ (fuel : Nat) (c : ClassPtr) (r : ClassPtr × List (Name × Bool)),
      loopNameEvents S flags fuel c = some r → ∀ e ∈ r.2,
      ∃ c1 m, (e.1, m) ∈ (S.classes c1).classMethods ∧
        e.2 = (!flags.PUBLIC_METHOD || (S.methods m).flags.PUBLIC_METHOD) := by
  intro fuel
  induction fuel with
  | zero => intro c r h; simp [loopNameEvents] at h
  | succ fuel ih =>
    intro c r h e he
    simp only [loopNameEvents] at h
    split at h
    · rename_i s heq
      cases hl : loopNameEvents S flags fuel s with
      | none => rw [hl] at h; cases h
      | some r1 =>
        rw [hl] at h
        simp only [Option.map_some', Option.some.injEq] at h
        rw [← h] at he
        rcases List.mem_append.1 he with h1 | h1
        · exact classTableEvents_origin S flags c e h1
        · exact ih s r1 hl e h1
    · simp only [Option.some.injEq] at h
      rw [← h] at he
      exact classTableEvents_origin S flags c e he

theorem classNameEvents_origin (S : Store) (flags : FlagWord) :
    ∀ (fuel : Nat) (c : ClassPtr) (es : List (Name × Bool)),
      classNameEvents S flags fuel c = some es → ∀ e ∈ es,
      ∃ c1 m, (e.1, m) ∈ (S.classes c1).classMethods ∧
        e.2 = (!flags.PUBLIC_METHOD || (S.methods m).flags.PUBLIC_METHOD) := by
  intro fuel
  induction fuel with
  | zero => intro c es h; simp [classNameEvents] at h
  | succ fuel ih =>
    intro c es h e he
    simp only [classNameEvents] at h
    cases h1 : collectNames (fun m => classNameEvents S flags fuel m)
        (S.classes c).mixins [] with
    | none => rw [h1] at h; cases h
    | some e1 =>
      rw [h1] at h
      simp only [Option.some_bind] at h
      cases h2 : loopNameEvents S flags (fuel + 1) c with
      | none => rw [h2] at h; cases h
      | some r =>
        rw [h2] at h
        simp only [Option.some_bind] at h
        cases h3 : collectNames (fun s => classNameEvents S flags fuel s)
            (S.classes r.1).superclasses [] with
        | none => rw [h3] at h; cases h
        | some e3 =>
          rw [h3] at h
          simp only [Option.map_some', Option.some.injEq] at h
          rw [← h] at he
          simp only [List.mem_append] at he
          rcases he with (he | he) | he
          · rcases collectNames_mem _ _ _ _ h1 e he with h4 | ⟨s, _, es1, hes1, hx⟩
            · cases h4
            · exact ih s es1 hes1 e hx
          · exact loopNameEvents_origin S flags (fuel + 1) c r h2 e he
          · rcases collectNames_mem _ _ _ _ h3 e he with h4 | ⟨s, _, es1, hes1, hx⟩
            · cases h4
            · exact ih s es1 hes1 e hx

/-- Where a name handed to the names table comes from. -/
theorem methodNameEvents_origin (S : Store) (fuel : Nat) (oPtr : ObjectPtr) (flags : FlagWord)
    (es : List (Name × Bool)) (h : methodNameEvents S fuel oPtr flags = some es)
    (e : Name × Bool) (he : e ∈ es) :
    (∃ m, (e.1, m) ∈ (S.objects oPtr).methods ∧
      ((S.methods m).flags.PRIVATE_METHOD && !flags.PRIVATE_METHOD) = false ∧
      e.2 = (!flags.PUBLIC_METHOD || (S.methods m).flags.PUBLIC_METHOD)) ∨
    (flags.PRIVATE_METHOD = true ∧
      ∃ m, (e.1, m) ∈ (S.classes (S.objects oPtr).selfCls).classMethods ∧
        (S.methods m).flags.PRIVATE_METHOD = true ∧ e.2 = true) ∨
    (∃ c1 m, (e.1, m) ∈ (S.classes c1).classMethods ∧
      e.2 = (!flags.PUBLIC_METHOD || (S.methods m).flags.PUBLIC_METHOD)) := by
  unfold methodNameEvents at h
  cases h1 : classNameEvents S flags fuel (S.objects oPtr).selfCls with
  | none => rw [h1] at h; cases h
  | some e2 =>
    rw [h1] at h
    simp only [Option.some_bind] at h
    cases h2 : collectNames (fun m => classNameEvents S flags fuel m)
        (S.objects oPtr).mixins [] with
    | none => rw [h2] at h; cases h
    | some e3 =>
      rw [h2] at h
      simp only [Option.map_some', Option.some.injEq] at h
      rw [← h] at he
      simp only [List.mem_append] at he
      rcases he with ((he | he) | he) | he
      · left
        unfold objectNameEvents at he
        obtain ⟨x, hx, hxe⟩ := List.mem_map.1 he
        obtain ⟨hx1, hx2⟩ := List.mem_filter.1 hx
        refine ⟨x.2, ?_, ?_, ?_⟩
        · rw [← hxe]; exact hx1
        · cases hq : (S.methods x.2).flags.PRIVATE_METHOD && !flags.PRIVATE_METHOD with
          | false => rfl
          | true => rw [hq] at hx2; cases hx2
        · rw [← hxe]
      · right; left
        unfold privateNameEvents at he
        cases hp : flags.PRIVATE_METHOD with
        | false => rw [hp] at he; simp at he
        | true =>
          rw [hp] at he
          simp only [if_true] at he
          obtain ⟨x, hx, hxe⟩ := List.mem_map.1 he
          obtain ⟨hx1, hx2⟩ := List.mem_filter.1 hx
          refine ⟨rfl, x.2, ?_, hx2, ?_⟩
          · rw [← hxe]; exact hx1
          · rw [← hxe]
      · right; right
        exact classNameEvents_origin S flags fuel _ e2 h1 e he
      · right; right
        rcases collectNames_mem _ _ _ _ h2 e he with h4 | ⟨s, _, es1, hes1, hx⟩
        · cases h4
        · exact classNameEvents_origin S flags fuel s es1 hes1 e hx

/-- C16 fails on the code: in the private hiding scenario (the object is of
class `A`, whose only method is the private method `secret`, not marked
public) the list for no flags, so without `PRIVATE_METHOD`, is `[secret]`.
When the object has a private method `hidden` of its own besides, the list for
no flags is still `[secret]`: the loop over the object's methods leaves
`hidden` out, the class walk enters `secret`; with `PRIVATE_METHOD` the list is
`[hidden, secret]`. -/
theorem C16_private_class_method_listed :
    ({} : FlagWord).PRIVATE_METHOD = false ∧
    ((privateStore false).objects 0).selfCls = 1 ∧
    ((privateStore false).classes 1).classMethods = [("secret", 10)] ∧
    ((privateStore false).methods 10).flags.PRIVATE_METHOD = true ∧
    ((privateStore false).methods 10).flags.PUBLIC_METHOD = false ∧
    TclOOGetSortedMethodList (privateStore false) 1 0 {} = some ["secret"] ∧
    (privateBothStore.methods 12).flags.PRIVATE_METHOD = true ∧
    TclOOGetSortedMethodList privateBothStore 1 0 {} = some ["secret"] ∧
    TclOOGetSortedMethodList privateBothStore 1 0 { PRIVATE_METHOD := true }
      = some ["hidden", "secret"] := by
  decide

/-- For flags with `PUBLIC_METHOD` and without `PRIVATE_METHOD`, every name of
the list has a definition marked public: a method of the object itself that is
public and not private, or a method of some class that is public.  The
function answers for every fuel from some bound on when the graph of
superclass and mixin links is acyclic.  E.g. in the private hiding scenario
the list for `PUBLIC_METHOD` is `[unknown]`. -/
theorem public_list_has_public_definitions (S : Store) (fuel : Nat) (oPtr : ObjectPtr)
    (flags : FlagWord) (l : List Name)
    (hpub : flags.PUBLIC_METHOD = true) (hpriv : flags.PRIVATE_METHOD = false)
    (h : TclOOGetSortedMethodList S fuel oPtr flags = some l) :
    (∀ n ∈ l,
      (∃ m, (n, m) ∈ (S.objects oPtr).methods ∧ (S.methods m).flags.PUBLIC_METHOD = true ∧
        (S.methods m).flags.PRIVATE_METHOD = false) ∨
      ∃ c m, (n, m) ∈ (S.classes c).classMethods ∧
        (S.methods m).flags.PUBLIC_METHOD = true) ∧
    (AcyclicMixins S → ∃ N, ∀ fuel1, N ≤ fuel1 →
      ∃ l1, TclOOGetSortedMethodList S fuel1 oPtr flags = some l1) ∧
    (∀ fuel1, 1 ≤ fuel1 →
      TclOOGetSortedMethodList (privateStore true) fuel1 0 { PUBLIC_METHOD := true }
        = some ["unknown"]) := by
  refine ⟨?_, fun hac => TclOOGetSortedMethodList_total S oPtr flags hac, ?_⟩
  · intro n hn
    rw [TclOOGetSortedMethodList_events] at h
    cases hes : methodNameEvents S fuel oPtr flags with
    | none => rw [hes] at h; cases h
    | some es =>
      rw [hes] at h
      simp only [Option.map_some', Option.some.injEq] at h
      rw [← h] at hn
      have hn1 := ((qsortNames_spec _).1.mem_iff).1 hn
      obtain ⟨e, he, hen⟩ := List.mem_map.1 hn1
      obtain ⟨he1, he2⟩ := List.mem_filter.1 he
      have hw : e.2 = true := by simpa [hpub] using he2
      have hev : e ∈ es := by
        rcases insertAll_mem es [] e he1 with h1 | h1
        · cases h1
        · exact h1
      rcases methodNameEvents_origin S fuel oPtr flags es hes e hev with
        ⟨m, hm, hp, hv⟩ | ⟨hp, _⟩ | ⟨c, m, hm, hv⟩
      · left
        refine ⟨m, by rw [← hen]; exact hm, ?_, ?_⟩
        · rw [hw, hpub] at hv
          simpa using hv.symm
        · rw [hpriv] at hp
          simpa using hp
      · rw [hpriv] at hp
        cases hp
      · right
        refine ⟨c, m, by rw [← hen]; exact hm, ?_⟩
        rw [hw, hpub] at hv
        simpa using hv.symm
  · intro fuel1 hfuel
    exact TclOOGetSortedMethodList_mono (privateStore true) 1 fuel1 0 _ _ hfuel (by decide)

/-- C17 fails on the code: class `B` has the single superclass `A`, `A` has
the mixin `M`, which defines `m`; for an object of class `B` the list of
`TclOOGetSortedMethodList` for no flags is empty, while the resolution of `m`
on the same object finds `M.m`. -/
theorem C17_mixin_of_superclass_not_listed :
    TclOOGetSortedMethodList superMixinStore 5 0 {} = some [] ∧
    (resolve 5 scenarioFoundation superMixinStore 0 "m" {} noCache).map
      (fun ctx => ctx.callChain) = some [⟨10, false, none⟩] := by
  decide

end TclOO
